import Mathlib

/-!
Verification development for a small library of classic graph algorithms and
the container data structures they are built on, translated from the Python
sources:

- `ds/priority_queue.py`, `ds/priority_index_queue.py`: binary heaps driven
  by a caller-supplied Boolean comparison function;
- `ds/union_find.py`: union-find with union by size and path compression;
- `ds/stack.py`, `ds/queue.py`: LIFO and FIFO containers;
- `ds/edge_weighted_digraph.py`: weighted digraph in adjacency-list form;
- `mst_kruskal.py`, `mst_prim_lazy.py`, `mst_prim_eager.py`: spanning-tree
  algorithms; `path_dijkstra.py`: single-source shortest paths;
  `bread_first_paths.py`: breadth-first shortest path tree.

Conventions used throughout the embedding:

- Python `float` weights are modelled as rationals `ℚ`; every comparison and
  sum appearing below is exact in both models.
- Python lists indexed by integers are modelled either as Lean lists (when
  the list shape matters) or as total functions whose codomain is an
  `Option` type (entries initialised to `None` are `none`).
- An `assert` aborts the Python program, so an operation whose precondition
  fails leaves no observable successor state; sequences of operations model
  this by applying an operation only when its precondition holds, and
  constructors whose asserts can fail return `Option`.
- `while` loops are modelled with explicit fuel; every fuel value used below
  is either proved sufficient or, for concrete runs, large enough that the
  loop reaches its exit condition before the fuel does.
-/

/-- A strict weak order packaged as a Boolean comparison function:
asymmetric, transitive, and with a transitive complement. This is the
contract `priority_queue.py` documents for the caller-supplied comparator
(`x (op) x = false`, asymmetry, transitivity of a strict weak order). -/
structure IsSWO {α : Type} (cmp : α → α → Bool) : Prop where
  asymm : ∀ a b, cmp a b = true → cmp b a = false
  trans : ∀ a b c, cmp a b = true → cmp b c = true → cmp a c = true
  negTrans : ∀ a b c, cmp a b = false → cmp b c = false → cmp a c = false

/-! ## PriorityQueue (`ds/priority_queue.py`)

A heap-ordered complete binary tree in a 1-indexed array `pq` holding
`count` keys in slots `1..count`. -/

structure PriorityQueue (α : Type) where
  compare : α → α → Bool
  capacity : Nat
  count : Nat
  pq : Nat → Option α

namespace PriorityQueue

variable {α : Type}

/-- `PriorityQueue.__init__(capacity, compare)`; the source asserts
`capacity > 0` and `compare != None`. -/
def init (capacity : Nat) (compare : α → α → Bool) : PriorityQueue α :=
  { compare := compare, capacity := capacity, count := 0, pq := fun _ => none }

/-- `is_empty()` -/
def is_empty (q : PriorityQueue α) : Bool := q.count == 0

/-- `size()` -/
def size (q : PriorityQueue α) : Nat := q.count

/-- `_comp(i, j)`: `compare(pq[i], pq[j])`. Slots outside `1..count` hold
`none` in reachable states and are never compared by the source; comparing
a `none` yields `false` here (the source would raise instead). -/
def comp (q : PriorityQueue α) (i j : Nat) : Bool :=
  match q.pq i, q.pq j with
  | some a, some b => q.compare a b
  | _, _ => false

/-- `_swap(i, j)` -/
def swap (q : PriorityQueue α) (i j : Nat) : PriorityQueue α :=
  { q with pq := fun n => if n = j then q.pq i else if n = i then q.pq j else q.pq n }

/-- One step of `_swim(k)`: move the k-key up while `comp(k // 2, k)`
holds. The slot index halves each iteration, so fuel `k` is enough; see
`swim`. -/
def swimF (q : PriorityQueue α) (k : Nat) : Nat → PriorityQueue α
  | 0 => q
  | fuel + 1 =>
    if 1 < k ∧ q.comp (k / 2) k = true then swimF (q.swap (k / 2) k) (k / 2) fuel else q

/-- `_swim(k)`: move the k-key up to restore the heap order. -/
def swim (q : PriorityQueue α) (k : Nat) : PriorityQueue α := swimF q k k

/-- One step of `_sink(k)` chooses the child `j` of `k` (taking the right
child when `j < count` and `comp(j, j + 1)`), stops when `comp(j, k)`, and
otherwise swaps and descends. The loop runs at most `count` times (the slot
index at least doubles), so fuel `count + 1` is enough; see `sink`. -/
def sinkF (q : PriorityQueue α) (k : Nat) : Nat → PriorityQueue α
  | 0 => q
  | fuel + 1 =>
    if 2 * k ≤ q.count then
      let j := if 2 * k < q.count ∧ q.comp (2 * k) (2 * k + 1) = true then 2 * k + 1 else 2 * k
      if q.comp j k = true then q
      else sinkF (q.swap j k) j fuel
    else q

/-- `_sink(k)`: move the k-key down to restore the heap order. -/
def sink (q : PriorityQueue α) (k : Nat) : PriorityQueue α := sinkF q k (q.count + 1)

/-- `_resize(capacity)`: contents of slots `1..count` are preserved; the
fresh array entries are `None`. -/
def resize (q : PriorityQueue α) (capacity : Nat) : PriorityQueue α :=
  { q with capacity := capacity
         , pq := fun n => if 1 ≤ n ∧ n ≤ q.count then q.pq n else none }

/-- `push(key)`: grow if at capacity, store the key in the new last slot,
then swim it. -/
def push (q : PriorityQueue α) (key : α) : PriorityQueue α :=
  let q0 := if q.count = q.capacity - 1 then q.resize (2 * q.capacity) else q
  let q1 := { q0 with count := q0.count + 1
                    , pq := Function.update q0.pq (q0.count + 1) (some key) }
  q1.swim q1.count

/-- `pop()`: swap the top with the last slot, shrink, sink slot 1, then
possibly halve the capacity. The source asserts `not is_empty()` first. -/
def pop (q : PriorityQueue α) : PriorityQueue α :=
  let q1 := { q.swap 1 q.count with count := q.count - 1 }
  let q2 := q1.sink 1
  if 0 < q2.count ∧ q2.count = (q2.capacity - 1) / 4 then q2.resize (q2.capacity / 2) else q2

/-- `top()`: the key in slot 1. The source asserts `not is_empty()`; on the
empty queue this returns `none` (the slot is unoccupied). -/
def top (q : PriorityQueue α) : Option α := q.pq 1

/-- The operations a client can perform on a `PriorityQueue` after
construction. -/
inductive PQOp (α : Type) where
  | push (key : α)
  | pop

/-- Run one operation; an operation whose precondition (the source `assert`)
fails aborts the Python program and thus has no successor state, modelled
here as leaving the state unchanged. -/
def runOp (q : PriorityQueue α) : PQOp α → PriorityQueue α
  | .push key => q.push key
  | .pop => if q.is_empty then q else q.pop

/-- Run a sequence of operations. -/
def runOps (q : PriorityQueue α) (ops : List (PQOp α)) : PriorityQueue α :=
  ops.foldl runOp q

/-- The heap order the implementation maintains: for every occupied non-root
slot `k`, `comp (k / 2) k` is `false` (swim swaps exactly while
`comp(parent, child)` holds, and sink stops exactly when `comp(child,
parent)` holds). -/
def heapOrd (q : PriorityQueue α) : Prop :=
  ∀ k, 2 ≤ k → k ≤ q.count → q.comp (k / 2) k = false

/-- The heap order as stated by the specification: `compare(parent key,
child key)` is `true` between every occupied non-root slot and its parent. -/
def heapOrdSpec (q : PriorityQueue α) : Prop :=
  ∀ k, 2 ≤ k → k ≤ q.count → q.comp (k / 2) k = true

/-- Slots `1..count` are occupied. -/
def occ (q : PriorityQueue α) : Prop :=
  ∀ k, 1 ≤ k → k ≤ q.count → (q.pq k).isSome = true

/-- The keys currently stored, as a multiset (slot `n + 1` for
`n < count`). -/
def contents (q : PriorityQueue α) : Multiset (Option α) :=
  ((List.range q.count).map (fun n => q.pq (n + 1)) : List (Option α))

instance (q : PriorityQueue α) : Decidable (heapOrd q) :=
  decidable_of_iff (∀ k < q.count + 1, 2 ≤ k → q.comp (k / 2) k = false)
    (by
      constructor
      · intro h k h2 hc
        exact h k (Nat.lt_succ_of_le hc) h2
      · intro h k hk h2
        exact h k h2 (Nat.le_of_lt_succ hk))

instance (q : PriorityQueue α) : Decidable (heapOrdSpec q) :=
  decidable_of_iff (∀ k < q.count + 1, 2 ≤ k → q.comp (k / 2) k = true)
    (by
      constructor
      · intro h k h2 hc
        exact h k (Nat.lt_succ_of_le hc) h2
      · intro h k hk h2
        exact h k h2 (Nat.le_of_lt_succ hk))

end PriorityQueue

/-! ## PriorityIndexQueue (`ds/priority_index_queue.py`)

An indexed heap: external integer indices address the keys. `pq` maps heap
slots to external indices, `qp` maps external indices to heap slots (`-1`
when absent), `keys` maps external indices to keys. External indices are
Python integers, modelled as `Int`. -/

structure PriorityIndexQueue (α : Type) where
  compare : α → α → Bool
  capacity : Nat
  count : Nat
  keys : Int → Option α
  pq : Nat → Int
  qp : Int → Int

namespace PriorityIndexQueue

variable {α : Type}

/-- `PriorityIndexQueue.__init__(capacity, compare)`; the source asserts
`capacity > 0` and `compare != None`. The `pq` entries are initialised to
`None` in the source and are never read while unoccupied; `0` stands for
that unused value here (`pop` likewise writes `0` into the vacated slot). -/
def init (capacity : Nat) (compare : α → α → Bool) : PriorityIndexQueue α :=
  { compare := compare, capacity := capacity, count := 0
  , keys := fun _ => none, pq := fun _ => 0, qp := fun _ => -1 }

/-- `is_empty()` -/
def is_empty (q : PriorityIndexQueue α) : Bool := q.count == 0

/-- `size()` -/
def size (q : PriorityIndexQueue α) : Nat := q.count

/-- `is_valid(i)`: `i >= 0 and i <= self._capacity`. -/
def is_valid (q : PriorityIndexQueue α) (i : Int) : Bool :=
  decide (0 ≤ i) && decide (i ≤ (q.capacity : Int))

/-- `contains(i)`: `qp[i] != -1`. The source asserts `is_valid(i)` first;
callers below only use it under that precondition. -/
def contains (q : PriorityIndexQueue α) (i : Int) : Bool := q.qp i != -1

/-- `_comp(i, j)`: `compare(keys[pq[i]], keys[pq[j]])`; as for
`PriorityQueue.comp`, comparing an unoccupied entry yields `false`. -/
def comp (q : PriorityIndexQueue α) (i j : Nat) : Bool :=
  match q.keys (q.pq i), q.keys (q.pq j) with
  | some a, some b => q.compare a b
  | _, _ => false

/-- `_swap(i, j)`: swap `pq[i]` with `pq[j]`, then set `qp[pq[i]] = i` and
`qp[pq[j]] = j` in that order. -/
def swap (q : PriorityIndexQueue α) (i j : Nat) : PriorityIndexQueue α :=
  let pq1 : Nat → Int := fun n => if n = j then q.pq i else if n = i then q.pq j else q.pq n
  let qp1 := Function.update q.qp (pq1 i) (i : Int)
  let qp2 := Function.update qp1 (pq1 j) (j : Int)
  { q with pq := pq1, qp := qp2 }

/-- One step of `_swim(k)`, with fuel, exactly as `PriorityQueue.swimF`. -/
def swimF (q : PriorityIndexQueue α) (k : Nat) : Nat → PriorityIndexQueue α
  | 0 => q
  | fuel + 1 =>
    if 1 < k ∧ q.comp (k / 2) k = true then swimF (q.swap (k / 2) k) (k / 2) fuel else q

/-- `_swim(k)` -/
def swim (q : PriorityIndexQueue α) (k : Nat) : PriorityIndexQueue α := swimF q k k

/-- `_sink(k)` with fuel, exactly as `PriorityQueue.sinkF`. -/
def sinkF (q : PriorityIndexQueue α) (k : Nat) : Nat → PriorityIndexQueue α
  | 0 => q
  | fuel + 1 =>
    if 2 * k ≤ q.count then
      let j := if 2 * k < q.count ∧ q.comp (2 * k) (2 * k + 1) = true then 2 * k + 1 else 2 * k
      if q.comp j k = true then q
      else sinkF (q.swap j k) j fuel
    else q

/-- `_sink(k)` -/
def sink (q : PriorityIndexQueue α) (k : Nat) : PriorityIndexQueue α := sinkF q k (q.count + 1)

/-- `push(i, key)`: the source asserts `not contains(i)` (which asserts
`is_valid(i)`). -/
def push (q : PriorityIndexQueue α) (i : Int) (key : α) : PriorityIndexQueue α :=
  let q1 := { q with count := q.count + 1 }
  let q2 := { q1 with qp := Function.update q1.qp i (q1.count : Int)
                    , pq := Function.update q1.pq q1.count i
                    , keys := Function.update q1.keys i (some key) }
  q2.swim q2.count

/-- `pop()`: the source asserts `not is_empty()`. Stores the top index,
swaps top and bottom, shrinks, sinks slot 1, then clears the stored index's
`qp` and `keys` entries and writes `0` into the vacated `pq` slot. -/
def pop (q : PriorityIndexQueue α) : PriorityIndexQueue α :=
  let m := q.pq 1
  let q1 := { q.swap 1 q.count with count := q.count - 1 }
  let q2 := q1.sink 1
  { q2 with qp := Function.update q2.qp m (-1)
          , keys := Function.update q2.keys m none
          , pq := Function.update q2.pq (q2.count + 1) 0 }

/-- `top()`: `keys[pq[1]]`; the source asserts `not is_empty()`. -/
def top (q : PriorityIndexQueue α) : Option α := q.keys (q.pq 1)

/-- `top_ix()`: `pq[1]`; the source asserts `not is_empty()`. -/
def top_ix (q : PriorityIndexQueue α) : Int := q.pq 1

/-- `key_of(i)`: `keys[i]`; the source asserts `contains(i)`. -/
def key_of (q : PriorityIndexQueue α) (i : Int) : Option α := q.keys i

/-- `q'` stores the same key as `q` at every external index other than
`m`. -/
def agreesExcept (q q' : PriorityIndexQueue α) (m : Int) : Prop :=
  ∀ x : Int, x ≠ m → q'.key_of x = q.key_of x

/-- `change(i, key)`: update the key, then swim and sink from the slot of
`i` (the slot is re-read after the swim). The source asserts
`contains(i)`. -/
def change (q : PriorityIndexQueue α) (i : Int) (key : α) : PriorityIndexQueue α :=
  let q1 := { q with keys := Function.update q.keys i (some key) }
  let q2 := q1.swim (q1.qp i).toNat
  q2.sink (q2.qp i).toNat

/-- `delete(i)`: swap the slot of `i` with the last slot, shrink, swim and
sink from that fixed slot, then clear `keys[i]` and `qp[i]`. The source
asserts `contains(i)`. -/
def delete (q : PriorityIndexQueue α) (i : Int) : PriorityIndexQueue α :=
  let s := (q.qp i).toNat
  let q1 := { q.swap s q.count with count := q.count - 1 }
  let q2 := (q1.swim s).sink s
  { q2 with keys := Function.update q2.keys i none
          , qp := Function.update q2.qp i (-1) }

/-- The operations a client can perform on a `PriorityIndexQueue` after
construction. -/
inductive PIQOp (α : Type) where
  | push (i : Int) (key : α)
  | pop
  | change (i : Int) (key : α)
  | delete (i : Int)

/-- Run one operation, applied only when the source `assert`s hold (a failed
assert aborts the program and has no successor state). -/
def runOp (q : PriorityIndexQueue α) : PIQOp α → PriorityIndexQueue α
  | .push i key => if q.is_valid i ∧ ¬q.contains i then q.push i key else q
  | .pop => if q.is_empty then q else q.pop
  | .change i key => if q.is_valid i ∧ q.contains i then q.change i key else q
  | .delete i => if q.is_valid i ∧ q.contains i then q.delete i else q

/-- Run a sequence of operations. -/
def runOps (q : PriorityIndexQueue α) (ops : List (PIQOp α)) : PriorityIndexQueue α :=
  ops.foldl runOp q

/-- Heap order maintained by the implementation, through the `pq`
indirection: `comp (k / 2) k = false` for occupied non-root slots. -/
def heapOrd (q : PriorityIndexQueue α) : Prop :=
  ∀ k, 2 ≤ k → k ≤ q.count → q.comp (k / 2) k = false

/-- Heap order as stated by the specification (comparator true from parent
to child). -/
def heapOrdSpec (q : PriorityIndexQueue α) : Prop :=
  ∀ k, 2 ≤ k → k ≤ q.count → q.comp (k / 2) k = true

/-- The position-array bijection: `qp[pq[s]] = s` for occupied slots, and
every present external index sits in an occupied slot that points back at
it, with an occupied key entry. -/
def posInv (q : PriorityIndexQueue α) : Prop :=
  (∀ s, 1 ≤ s → s ≤ q.count → q.qp (q.pq s) = (s : Int)) ∧
  (∀ j : Int, q.qp j ≠ -1 →
    ∃ s, 1 ≤ s ∧ s ≤ q.count ∧ q.qp j = (s : Int) ∧ q.pq s = j) ∧
  (∀ j : Int, q.qp j ≠ -1 → (q.keys j).isSome = true)

instance (q : PriorityIndexQueue α) : Decidable (heapOrd q) :=
  decidable_of_iff (∀ k < q.count + 1, 2 ≤ k → q.comp (k / 2) k = false)
    (by
      constructor
      · intro h k h2 hc
        exact h k (Nat.lt_succ_of_le hc) h2
      · intro h k hk h2
        exact h k h2 (Nat.le_of_lt_succ hk))

end PriorityIndexQueue

/-! ## Stack (`ds/stack.py`) and Queue (`ds/queue.py`)

Both store items in a deque, modelled as a Lean list in left-to-right
order. The stack pushes and pops at the right end; the queue pushes at the
right end and pops at the left end. `pop` and `top` return `None` on an
empty container (they do not abort). -/

structure Stack (α : Type) where
  n_items : Nat
  items : List α

namespace Stack

variable {α : Type}

/-- `Stack.__init__()` -/
def init : Stack α := { n_items := 0, items := [] }

/-- `is_empty()` -/
def is_empty (s : Stack α) : Bool := s.n_items == 0

/-- `size()` -/
def size (s : Stack α) : Nat := s.n_items

/-- `push(item)`: append at the right end. -/
def push (s : Stack α) (item : α) : Stack α :=
  { n_items := s.n_items + 1, items := s.items ++ [item] }

/-- `pop()`: return `None` and leave the stack unchanged when empty,
otherwise remove and return the rightmost item. -/
def pop (s : Stack α) : Option α × Stack α :=
  if s.is_empty then (none, s)
  else (s.items.getLast?, { n_items := s.n_items - 1, items := s.items.dropLast })

/-- `top()`: the rightmost item, `None` when empty. -/
def top (s : Stack α) : Option α :=
  if s.is_empty then none else s.items.getLast?

end Stack

structure Queue (α : Type) where
  n_items : Nat
  items : List α

namespace Queue

variable {α : Type}

/-- `Queue.__init__()` -/
def init : Queue α := { n_items := 0, items := [] }

/-- `is_empty()` -/
def is_empty (s : Queue α) : Bool := s.n_items == 0

/-- `size()` -/
def size (s : Queue α) : Nat := s.n_items

/-- `push(item)`: append at the right end. -/
def push (s : Queue α) (item : α) : Queue α :=
  { n_items := s.n_items + 1, items := s.items ++ [item] }

/-- `pop()`: return `None` and leave the queue unchanged when empty,
otherwise remove and return the leftmost item. -/
def pop (s : Queue α) : Option α × Queue α :=
  if s.is_empty then (none, s)
  else (s.items.head?, { n_items := s.n_items - 1, items := s.items.tail })

/-- `top()`: the leftmost item, `None` when empty. -/
def top (s : Queue α) : Option α :=
  if s.is_empty then none else s.items.head?

end Queue

/-! ## UnionFind (`ds/union_find.py`)

Disjoint sets over keys `0..n_keys-1`, with union by size and full path
compression in `find`. The Python `parent` and `size` lists are modelled as
total functions on `Nat` (reachable states never read them outside
`0..n_keys-1`). -/

structure UnionFind where
  n_keys : Nat
  n_sets : Nat
  parent : Nat → Nat
  size : Nat → Nat

namespace UnionFind

/-- `UnionFind.__init__(n_keys)`: each key is its own parent with size 1;
the source asserts `n_keys > 0`. -/
def init (n_keys : Nat) : UnionFind :=
  { n_keys := n_keys, n_sets := n_keys, parent := fun i => i, size := fun _ => 1 }

/-- `contains(p)` -/
def contains (uf : UnionFind) (p : Nat) : Bool := p < uf.n_keys

/-- The first loop of `find(p)`: follow parent pointers to the root. With
any fuel, this returns `parent^[fuel] p` stopped at the first fixed point;
fuel `n_keys` is enough in any well-formed state. -/
def rootAux (par : Nat → Nat) : Nat → Nat → Nat
  | 0, p => p
  | fuel + 1, p => if par p = p then p else rootAux par fuel (par p)

/-- The root that `find(p)` returns (a pure reading of the first loop). -/
def rootOf (uf : UnionFind) (p : Nat) : Nat := rootAux uf.parent uf.n_keys p

/-- The second loop of `find(p)`: walk from `p` towards the root, repointing
every visited key directly to `root`. The next key is read before the
repointing, exactly as in the source. -/
def compressAux (root : Nat) : Nat → (Nat → Nat) → Nat → (Nat → Nat)
  | 0, par, _ => par
  | fuel + 1, par, key =>
    if par key = key then par
    else compressAux root fuel (Function.update par key root) (par key)

/-- `find(p)`: return the root of `p` and the state after path compression.
The source asserts `contains(p)`. -/
def find (uf : UnionFind) (p : Nat) : Nat × UnionFind :=
  let root := rootAux uf.parent uf.n_keys p
  let par1 := compressAux root uf.n_keys uf.parent p
  (root, { uf with parent := par1 })

/-- `connected(p, q)`: two sequential `find`s (each compresses paths), then
compare the roots. -/
def connected (uf : UnionFind) (p q : Nat) : Bool × UnionFind :=
  let r1 := uf.find p
  let r2 := r1.2.find q
  (r1.1 == r2.1, r2.2)

/-- `join(p, q)`: find both roots (compressing), do nothing if they agree,
otherwise hang the smaller tree under the larger and decrement `n_sets`. -/
def join (uf : UnionFind) (p q : Nat) : UnionFind :=
  let r1 := uf.find p
  let r2 := r1.2.find q
  let root_p := r1.1
  let root_q := r2.1
  let uf2 := r2.2
  if root_p = root_q then uf2
  else
    let uf3 :=
      if uf2.size root_p < uf2.size root_q then
        { uf2 with parent := Function.update uf2.parent root_p root_q
                 , size := Function.update uf2.size root_q (uf2.size root_q + uf2.size root_p) }
      else
        { uf2 with parent := Function.update uf2.parent root_q root_p
                 , size := Function.update uf2.size root_p (uf2.size root_p + uf2.size root_q) }
    { uf3 with n_sets := uf3.n_sets - 1 }

/-- A key chain: iterating `par` from `p` reaches the fixed point `r`. -/
def Reaches (par : Nat → Nat) (p r : Nat) : Prop :=
  (∃ k, par^[k] p = r) ∧ par r = r

/-- Well-formed union-find states: parents of in-range keys are in range,
every in-range key reaches a root, and `n_sets` counts the in-range roots.
These hold in every state reachable from `init` (spec §3: `n_sets` is the
count of distinct roots; the parent forest is acyclic apart from root
self-loops). -/
def WF (uf : UnionFind) : Prop :=
  (∀ p, p < uf.n_keys → uf.parent p < uf.n_keys) ∧
  (∀ p, p < uf.n_keys → ∃ r, Reaches uf.parent p r) ∧
  uf.n_sets = ((Finset.range uf.n_keys).filter (fun p => uf.parent p = p)).card

end UnionFind

/-! ## Weighted digraph (`ds/edge_weighted_digraph.py`) -/

/-- `DiEdge`: a weighted directed edge; ordered by weight only. -/
structure DiEdge where
  v : Nat
  w : Nat
  weight : ℚ
deriving DecidableEq

namespace DiEdge

/-- `from_vertex()` -/
def from_vertex (e : DiEdge) : Nat := e.v

/-- `to_vertex()` -/
def to_vertex (e : DiEdge) : Nat := e.w

end DiEdge

/-- `EdgeWeightedDiGraph`: adjacency-list weighted digraph. `_adj` is a
Python list of lists, modelled as a Lean list of lists (index `v` holds the
edges out of `v` in insertion order). -/
structure EdgeWeightedDiGraph where
  n_vertices : Nat
  n_edges : Nat
  adjRaw : List (List DiEdge)

namespace EdgeWeightedDiGraph

/-- `EdgeWeightedDiGraph.__init__(n_vertices)`: one empty adjacency list per
vertex. -/
def init (n : Nat) : EdgeWeightedDiGraph :=
  { n_vertices := n, n_edges := 0, adjRaw := List.replicate n [] }

/-- `is_valid(v)` -/
def is_valid (g : EdgeWeightedDiGraph) (v : Nat) : Bool := v < g.n_vertices

/-- `adj(v)`: the adjacency list of `v` in lifo (reversed insertion)
order. -/
def adj (g : EdgeWeightedDiGraph) (v : Nat) : List DiEdge := (g.adjRaw.getD v []).reverse

/-- `edges()`: all adjacency lists appended in vertex order. -/
def edges (g : EdgeWeightedDiGraph) : List DiEdge :=
  ((List.range g.n_vertices).map g.adj).flatten

/-- `add_edge(edge)`: append to the source vertex's list; the source asserts
both endpoints valid (an invalid edge aborts, leaving no successor
state). -/
def add_edge (g : EdgeWeightedDiGraph) (e : DiEdge) : EdgeWeightedDiGraph :=
  if g.is_valid e.from_vertex ∧ g.is_valid e.to_vertex then
    { g with adjRaw := g.adjRaw.set e.from_vertex ((g.adjRaw.getD e.from_vertex []) ++ [e])
           , n_edges := g.n_edges + 1 }
  else g

/-- Well-formedness, established by construction (`init` + `add_edge`):
one adjacency list per vertex, each stored edge leaves the vertex whose
list holds it and points at a valid vertex. -/
def WFg (g : EdgeWeightedDiGraph) : Prop :=
  g.adjRaw.length = g.n_vertices ∧
  (∀ v, v < g.n_vertices → ∀ e ∈ g.adj v, e.from_vertex = v ∧ e.to_vertex < g.n_vertices) ∧
  (g.adjRaw.map List.length).sum = g.n_edges

/-- Directed walks: a list of edges chaining `u` to `v` along adjacency
entries. -/
def IsWalk (g : EdgeWeightedDiGraph) : Nat → Nat → List DiEdge → Prop
  | u, v, [] => u = v
  | u, v, e :: es => e ∈ g.adj u ∧ IsWalk g e.to_vertex v es

/-- The total weight of a walk. -/
def walkWeight (es : List DiEdge) : ℚ := (es.map DiEdge.weight).sum

end EdgeWeightedDiGraph

/-! ## Undirected weighted graph

Modelled from the spec: `ds/edge_weighted_graph.py` (imported by the three
spanning-tree algorithms) is not under `src/`; only its callers are. Per
spec §3, a weighted edge has two endpoints and a weight, exposes
`first()/second()/other(v)` and is ordered by weight only; the graph stores
each edge symmetrically in both endpoints' adjacency lists, adjacency
iteration order is insertion order reversed, and `n_edges` counts inserted
edges. `edges()` enumerates every inserted edge once (spec §4.9 pushes
"every edge" into the queue). -/

structure Edge where
  v : Nat
  w : Nat
  weight : ℚ
deriving DecidableEq

namespace Edge

/-- Modelled from the spec: `first()` returns one fixed endpoint. -/
def first (e : Edge) : Nat := e.v

/-- Modelled from the spec: `second()` returns the other fixed endpoint. -/
def second (e : Edge) : Nat := e.w

/-- Modelled from the spec: `other(x)` returns the endpoint other than
`x`. -/
def other (e : Edge) (x : Nat) : Nat := if x = e.v then e.w else e.v

end Edge

structure EdgeWeightedGraph where
  n_vertices : Nat
  n_edges : Nat
  adjRaw : List (List Edge)
  edgeList : List Edge

namespace EdgeWeightedGraph

/-- Modelled from the spec: an edgeless graph on `n` vertices. -/
def init (n : Nat) : EdgeWeightedGraph :=
  { n_vertices := n, n_edges := 0, adjRaw := List.replicate n [], edgeList := [] }

/-- Modelled from the spec: adjacency in reversed insertion order. -/
def adj (g : EdgeWeightedGraph) (v : Nat) : List Edge := (g.adjRaw.getD v []).reverse

/-- Modelled from the spec: every inserted edge, once, in insertion
order. -/
def edges (g : EdgeWeightedGraph) : List Edge := g.edgeList

/-- Modelled from the spec: append the edge to both endpoints' adjacency
lists (symmetric storage) and count it. -/
def add_edge (g : EdgeWeightedGraph) (e : Edge) : EdgeWeightedGraph :=
  if e.first < g.n_vertices ∧ e.second < g.n_vertices then
    let a1 := g.adjRaw.set e.first ((g.adjRaw.getD e.first []) ++ [e])
    { g with adjRaw := a1.set e.second ((a1.getD e.second []) ++ [e])
           , n_edges := g.n_edges + 1
           , edgeList := g.edgeList ++ [e] }
  else g

end EdgeWeightedGraph

/-! ## Undirected unweighted graph

Modelled from the spec: `ds/graph.py` (imported by `bread_first_paths.py`)
is not under `src/`. Per spec §3 it stores `n_vertices`, `n_edges`, and an
adjacency mapping from each vertex to its neighbor sequence; undirected
edges are stored symmetrically in both endpoints' lists, and adjacency
iteration order is insertion order reversed. -/

structure Graph where
  n_vertices : Nat
  n_edges : Nat
  adjRaw : List (List Nat)

namespace Graph

/-- Modelled from the spec: an edgeless graph on `n` vertices. -/
def init (n : Nat) : Graph :=
  { n_vertices := n, n_edges := 0, adjRaw := List.replicate n [] }

/-- Modelled from the spec: adjacency in reversed insertion order. -/
def adj (g : Graph) (v : Nat) : List Nat := (g.adjRaw.getD v []).reverse

/-- Modelled from the spec: store the edge in both endpoints' lists. -/
def add_edge (g : Graph) (v w : Nat) : Graph :=
  if v < g.n_vertices ∧ w < g.n_vertices then
    let a1 := g.adjRaw.set v ((g.adjRaw.getD v []) ++ [w])
    { g with adjRaw := a1.set w ((a1.getD w []) ++ [v]), n_edges := g.n_edges + 1 }
  else g

/-- Well-formedness, established by construction: one adjacency list per
vertex, every stored neighbor is a valid vertex index. -/
def WFg (g : Graph) : Prop :=
  g.adjRaw.length = g.n_vertices ∧
  ∀ v, v < g.n_vertices → ∀ w ∈ g.adj v, w < g.n_vertices

/-- Walks along adjacency entries; the list records the successive vertices
after the start. -/
def IsWalk (g : Graph) : Nat → Nat → List Nat → Prop
  | u, v, [] => u = v
  | u, v, w :: ws => w ∈ g.adj u ∧ IsWalk g w v ws

end Graph

/-! ## Comparators passed by the callers

`mst_kruskal.py` and `mst_prim_lazy.py` construct
`PriorityQueue(n, lambda x, y: x < y)` over `Edge` objects (ordered by
weight), `mst_prim_eager.py` constructs
`PriorityIndexQueue(n, lambda x, y: x < y)` over float keys, and
`path_dijkstra.py` constructs `PriorityQueue(n, lambda x, y: x > y)` over
`Pair` objects (ordered by their stored distance). -/

def qlt (x y : ℚ) : Bool := decide (x < y)

def qgt (x y : ℚ) : Bool := decide (x > y)

def edgeLt (x y : Edge) : Bool := decide (x.weight < y.weight)

/-! ## MstKruskal (`mst_kruskal.py`) -/

namespace MstKruskal

/-- The while loop: pop the top edge, discard it if its endpoints are
already connected, otherwise join them and keep the edge; stop when the
queue is empty or the tree has `n_vertices - 1` edges. Each iteration pops
once, so fuel `size + 1` outlasts the queue. -/
def loop (n : Nat) : Nat → PriorityQueue Edge → UnionFind → List Edge → List Edge
  | 0, _, _, mst => mst
  | fuel + 1, pq, uf, mst =>
    if ¬pq.is_empty ∧ mst.length < n - 1 then
      match pq.top with
      | none => mst
      | some edge =>
        let pq1 := pq.pop
        let c := uf.connected edge.first edge.second
        if c.1 then loop n fuel pq1 c.2 mst
        else loop n fuel pq1 (c.2.join edge.first edge.second) (mst ++ [edge])
    else mst

/-- `MstKruskal.__init__(graph)`: push every edge into a
`PriorityQueue(graph.n_edges(), lambda x, y: x < y)`, then run the loop
against a fresh `UnionFind(graph.n_vertices())`. Returns `edges()`. -/
def run (g : EdgeWeightedGraph) : List Edge :=
  let uf := UnionFind.init g.n_vertices
  let pq := g.edges.foldl PriorityQueue.push (PriorityQueue.init g.n_edges edgeLt)
  loop g.n_vertices (pq.size + 1) pq uf []

/-- `weight()`: the sum of the edge weights of `edges()`. -/
def weight (mst : List Edge) : ℚ := mst.foldl (fun a e => a + e.weight) 0

end MstKruskal

/-! ## MstPrimLazy (`mst_prim_lazy.py`) -/

namespace MstPrimLazy

structure State where
  pq : PriorityQueue Edge
  state : Nat → Bool
  mst : List Edge

/-- `_visit(graph, v)`: mark `v` visited; push every incident edge whose
other endpoint is unvisited. -/
def visit (g : EdgeWeightedGraph) (s : State) (v : Nat) : State :=
  let s1 := { s with state := Function.update s.state v true }
  (g.adj v).foldl
    (fun acc e => if acc.state (e.other v) then acc else { acc with pq := acc.pq.push e }) s1

/-- The while loop: pop the top edge; discard it when both endpoints are
visited, otherwise keep it and visit the unvisited endpoint(s). Every
iteration pops once and at most `2 * n_edges` pushes ever happen (each
vertex is visited once and pushes at most its degree), so fuel
`2 * n_edges + 1` outlasts the queue. -/
def loop (g : EdgeWeightedGraph) : Nat → State → State
  | 0, s => s
  | fuel + 1, s =>
    if s.pq.is_empty then s
    else
      match s.pq.top with
      | none => s
      | some edge =>
        let s1 := { s with pq := s.pq.pop }
        if s1.state edge.first ∧ s1.state edge.second then loop g fuel s1
        else
          let s2 := { s1 with mst := s1.mst ++ [edge] }
          let s3 := if s2.state edge.first then s2 else visit g s2 edge.first
          let s4 := if s3.state edge.second then s3 else visit g s3 edge.second
          loop g fuel s4

/-- `MstPrimLazy.__init__(graph)`: a `PriorityQueue(n_edges, lambda x, y: x
< y)` of crossing edges; visit vertex 0, then loop. Returns `edges()`. -/
def run (g : EdgeWeightedGraph) : List Edge :=
  let s0 : State :=
    { pq := PriorityQueue.init g.n_edges edgeLt, state := fun _ => false, mst := [] }
  (loop g (2 * g.n_edges + 1) (visit g s0 0)).mst

end MstPrimLazy

/-! ## MstPrimEager (`mst_prim_eager.py`) -/

namespace MstPrimEager

structure State where
  pq : PriorityIndexQueue ℚ
  state : Nat → Bool
  edge_to : Nat → Option Edge
  dist_to : Nat → Option ℚ

/-- `edge.weight() < self._dist_to[w]` with `dist_to` initialised to
`numpy.inf` (`none` here): anything is below infinity. -/
def ltInf (a : ℚ) (d : Option ℚ) : Bool :=
  match d with
  | none => true
  | some b => decide (a < b)

/-- `_visit(graph, v)`: mark `v` visited; for each incident edge to an
unvisited `w` that improves `dist_to[w]`, record it and push or change `w`'s
key in the indexed queue. -/
def visit (g : EdgeWeightedGraph) (s : State) (v : Nat) : State :=
  let s1 := { s with state := Function.update s.state v true }
  (g.adj v).foldl
    (fun acc e =>
      let w := e.other v
      if acc.state w then acc
      else if ltInf e.weight (acc.dist_to w) then
        let acc1 := { acc with edge_to := Function.update acc.edge_to w (some e)
                             , dist_to := Function.update acc.dist_to w (some e.weight) }
        if acc1.pq.contains (w : Int) then { acc1 with pq := acc1.pq.change (w : Int) e.weight }
        else { acc1 with pq := acc1.pq.push (w : Int) e.weight }
      else acc) s1

/-- The while loop: pop the top index and visit it. At most one queue entry
ever exists per vertex, so fuel `n_vertices + 1` outlasts the queue. -/
def loop (g : EdgeWeightedGraph) : Nat → State → State
  | 0, s => s
  | fuel + 1, s =>
    if s.pq.is_empty then s
    else
      let v := s.pq.top_ix
      let s1 := { s with pq := s.pq.pop }
      loop g fuel (visit g s1 v.toNat)

/-- `MstPrimEager.__init__(graph)`: a `PriorityIndexQueue(n_vertices,
lambda x, y: x < y)` keyed by connection weight; seed vertex 0 with key
0.0, loop, then collect `edge_to[v]` for `v = 1 .. n_vertices - 1`. -/
def run (g : EdgeWeightedGraph) : List (Option Edge) :=
  let s0 : State :=
    { pq := PriorityIndexQueue.init g.n_vertices qlt, state := fun _ => false
    , edge_to := fun _ => none, dist_to := fun _ => none }
  let s1 := { s0 with dist_to := Function.update s0.dist_to 0 (some 0)
                    , pq := s0.pq.push 0 0 }
  let s2 := loop g (g.n_vertices + 1) s1
  ((List.range g.n_vertices).drop 1).map s2.edge_to

/-- `weight()`: sum of the collected edge weights. A `none` entry (an
unreached vertex of a disconnected graph) would make the source raise;
it contributes 0 here and the concrete runs below have none. -/
def weight (mst : List (Option Edge)) : ℚ :=
  mst.foldl (fun a e => a + ((e.map Edge.weight).getD 0)) 0

end MstPrimEager

/-! ## PathDijkstra (`path_dijkstra.py`) -/

/-- The `Pair` helper class: an edge together with the path distance
recorded when it was queued; ordered by that distance. The recorded value
is `dist_to[w]` right after an update, hence finite in every reachable
state; it is stored here with the same `WithTop ℚ` type used for
`dist_to` (`⊤` models `numpy.inf`). -/
structure Pair where
  edge : DiEdge
  weight : WithTop ℚ
deriving DecidableEq

def pairGt (x y : Pair) : Bool := decide (x.weight > y.weight)

namespace PathDijkstra

structure State where
  pq : PriorityQueue Pair
  state : Nat → Bool
  dist_to : Nat → WithTop ℚ
  edge_to : Nat → Option DiEdge

/-- The body of the `for edge in graph.adj(v)` loop of `_relax`: if the
edge improves the destination's distance, update `dist_to`/`edge_to` and
push the pair (edge, new distance). -/
def relaxStep (v : Nat) (acc : State) (e : DiEdge) : State :=
  if acc.dist_to e.to_vertex > acc.dist_to v + (e.weight : WithTop ℚ) then
    { acc with dist_to :=
                 Function.update acc.dist_to e.to_vertex (acc.dist_to v + (e.weight : WithTop ℚ))
             , edge_to := Function.update acc.edge_to e.to_vertex (some e)
             , pq := acc.pq.push { edge := e, weight := acc.dist_to v + (e.weight : WithTop ℚ) } }
  else acc

/-- `_relax(graph, v)`: mark `v` visited, then fold `relaxStep` over the
outgoing edges. -/
def relax (g : EdgeWeightedDiGraph) (st : State) (v : Nat) : State :=
  let st1 := { st with state := Function.update st.state v true }
  (g.adj v).foldl (relaxStep v) st1

/-- The while loop: pop the smallest-distance pair; if its destination is
already visited the entry is stale and is discarded, otherwise relax the
destination. Each visited vertex pushes at most its out-degree, so at most
`n_edges` pushes ever happen and fuel `n_edges + 1` outlasts the queue. -/
def loop (g : EdgeWeightedDiGraph) : Nat → State → State
  | 0, st => st
  | fuel + 1, st =>
    if st.pq.is_empty then st
    else
      match st.pq.top with
      | none => st
      | some pair =>
        let st1 := { st with pq := st.pq.pop }
        if st1.state pair.edge.to_vertex then loop g fuel st1
        else loop g fuel (relax g st1 pair.edge.to_vertex)

/-- `PathDijkstra.__init__(graph, src)`: assert every edge weight is
nonnegative (the constructor aborts otherwise: `none`); then set
`dist_to[src] = 0`, relax `src`, and loop on a
`PriorityQueue(n_vertices, lambda x, y : x > y)`. -/
def run (g : EdgeWeightedDiGraph) (src : Nat) : Option State :=
  if g.edges.all (fun e => decide (0 ≤ e.weight)) then
    let st0 : State :=
      { pq := PriorityQueue.init g.n_vertices pairGt, state := fun _ => false
      , dist_to := fun _ => ⊤, edge_to := fun _ => none }
    let st1 := relax g { st0 with dist_to := Function.update st0.dist_to src 0 } src
    some (loop g (g.n_edges + 1) st1)
  else none

/-- The invariant of the Dijkstra loop: the queue is a well-formed
`pairGt` heap; the source is visited at distance 0; distances are
nonnegative; visited distances are finite; every finite distance is
realised by a walk; queue entries bound their destination's current
distance, are finite, and have a valid destination; a visited vertex has
all outgoing edges relaxed; an unvisited vertex at finite distance has a
queue entry recording exactly that distance; and every visited vertex's
distance is a lower bound on the weight of every walk from the source. -/
def Inv (g : EdgeWeightedDiGraph) (src : Nat) (st : State) : Prop :=
  st.pq.compare = pairGt ∧
  PriorityQueue.heapOrd st.pq ∧
  PriorityQueue.occ st.pq ∧
  st.state src = true ∧
  st.dist_to src = 0 ∧
  (∀ x, 0 ≤ st.dist_to x) ∧
  (∀ x, st.state x = true → st.dist_to x < ⊤) ∧
  (∀ x, st.dist_to x < ⊤ →
    ∃ ws, g.IsWalk src x ws ∧ st.dist_to x = (EdgeWeightedDiGraph.walkWeight ws : WithTop ℚ)) ∧
  (∀ p : Pair, some p ∈ PriorityQueue.contents st.pq →
    st.dist_to p.edge.to_vertex ≤ p.weight ∧ p.weight < ⊤ ∧
      p.edge.to_vertex < g.n_vertices) ∧
  (∀ x, st.state x = true → ∀ e ∈ g.adj x,
    st.dist_to e.to_vertex ≤ st.dist_to x + (e.weight : WithTop ℚ)) ∧
  (∀ x, st.state x = false → st.dist_to x < ⊤ →
    ∃ p : Pair, some p ∈ PriorityQueue.contents st.pq ∧ p.edge.to_vertex = x ∧
      p.weight = st.dist_to x) ∧
  (∀ x, st.state x = true → ∀ ws, g.IsWalk src x ws →
    st.dist_to x ≤ (EdgeWeightedDiGraph.walkWeight ws : WithTop ℚ))

/-- The loop's termination measure: each iteration pops one entry, and a
relax of `w` pushes at most the out-degree of `w` while removing `w` from
the unvisited set. -/
def PhiD (g : EdgeWeightedDiGraph) (st : State) : Nat :=
  st.pq.count + ∑ v in ((Finset.range g.n_vertices).filter (fun v => st.state v = false)),
    (g.adj v).length

/-- `d` is the minimum total edge weight over all walks from `src` to
`v`. -/
def distRealizesMin (g : EdgeWeightedDiGraph) (src v : Nat) (d : WithTop ℚ) : Prop :=
  (∃ ws, g.IsWalk src v ws ∧ d = (EdgeWeightedDiGraph.walkWeight ws : WithTop ℚ)) ∧
  ∀ ws, g.IsWalk src v ws → d ≤ (EdgeWeightedDiGraph.walkWeight ws : WithTop ℚ)

/-- When the constructor succeeds, `dist_to` is minimal for every vertex
reachable from the source. -/
def runCorrect (g : EdgeWeightedDiGraph) (src : Nat) : Prop :=
  match run g src with
  | none => True
  | some st => ∀ v, (∃ ws, g.IsWalk src v ws) → distRealizesMin g src v (st.dist_to v)

end PathDijkstra

/-- Some edge of the digraph has negative weight. -/
def hasNegativeEdge (g : EdgeWeightedDiGraph) : Prop := ∃ e ∈ g.edges, e.weight < 0

/-! ## BreadthFirstPaths (`bread_first_paths.py`) -/

namespace BreadthFirstPaths

structure State where
  state : Nat → Bool
  edge_to : Nat → Nat
  dist_to : Nat → ℕ∞
  q : Queue Nat

/-- The body of the `for w in graph.adj(v)` loop of `_bfs`: mark an
unvisited neighbor `w` visited with `dist_to[w] = dist_to[v] + 1` and
`edge_to[w] = v`, and enqueue it. -/
def visitStep (g : Graph) (v : Nat) (acc : State) (w : Nat) : State :=
  if acc.state w then acc
  else { acc with state := Function.update acc.state w true
                , dist_to := Function.update acc.dist_to w (acc.dist_to v + 1)
                , edge_to := Function.update acc.edge_to w v
                , q := acc.q.push w }

/-- The `_bfs` while loop: pop the front vertex `v` and fold `visitStep`
over its neighbors. Every vertex is enqueued at most once, so fuel
`n_vertices + 1` outlasts the queue. -/
def loop (g : Graph) : Nat → State → State
  | 0, st => st
  | fuel + 1, st =>
    if st.q.is_empty then st
    else
      let p := st.q.pop
      match p.1 with
      | none => st
      | some v =>
        let st1 := { st with q := p.2 }
        loop g fuel ((g.adj v).foldl (visitStep g v) st1)

/-- `BreadthFirstPaths.__init__(graph, source)` followed by `_bfs`: all
states `NEW` (`false`), `edge_to` zeroed, `dist_to` infinite; the source
vertex is marked visited at distance 0 and enqueued. -/
def run (g : Graph) (s : Nat) : State :=
  let st0 : State :=
    { state := fun _ => false, edge_to := fun _ => 0, dist_to := fun _ => ⊤, q := Queue.init }
  let st1 := { st0 with state := Function.update st0.state s true
                      , dist_to := Function.update st0.dist_to s 0
                      , q := st0.q.push s }
  loop g (g.n_vertices + 1) st1

/-- `is_visited(v)` -/
def is_visited (st : State) (v : Nat) : Bool := st.state v

/-- The invariant of the `_bfs` loop: the queue length matches its count;
the source is visited at distance 0; every visited vertex's distance is
realised by a walk from the source; unvisited vertices sit at infinity;
queued vertices are visited and valid; a visited vertex off the queue has
all neighbors visited within distance +1; every visited distance is within
+1 of every queued distance; and queued distances are sorted with spread at
most 1. -/
def Inv (g : Graph) (s : Nat) (st : State) : Prop :=
  st.q.n_items = st.q.items.length ∧
  st.state s = true ∧
  st.dist_to s = 0 ∧
  (∀ v, st.state v = true → ∃ ws, Graph.IsWalk g s v ws ∧ st.dist_to v = (ws.length : ℕ∞)) ∧
  (∀ v, st.state v = false → st.dist_to v = ⊤) ∧
  (∀ v ∈ st.q.items, st.state v = true ∧ v < g.n_vertices) ∧
  (∀ v, st.state v = true → v ∉ st.q.items →
    ∀ w ∈ g.adj v, st.state w = true ∧ st.dist_to w ≤ st.dist_to v + 1) ∧
  (∀ u, st.state u = true → ∀ x ∈ st.q.items, st.dist_to u ≤ st.dist_to x + 1) ∧
  st.q.items.Pairwise (fun a b => st.dist_to a ≤ st.dist_to b) ∧
  (∀ a ∈ st.q.items, ∀ b ∈ st.q.items, st.dist_to b ≤ st.dist_to a + 1)

/-- Vertices not yet visited. -/
def unvisitedCount (g : Graph) (st : State) : Nat :=
  ((Finset.range g.n_vertices).filter (fun v => st.state v = false)).card

/-- The loop's termination measure: each iteration pops one vertex and
enqueues only newly visited ones. -/
def Phi (g : Graph) (st : State) : Nat := st.q.items.length + unvisitedCount g st

/-- `d` is the minimum edge count over all walks from `s` to `v`. -/
def distIsMinWalk (g : Graph) (s v : Nat) (d : ℕ∞) : Prop :=
  (∃ ws, Graph.IsWalk g s v ws ∧ d = (ws.length : ℕ∞)) ∧
  ∀ ws, Graph.IsWalk g s v ws → d ≤ (ws.length : ℕ∞)

end BreadthFirstPaths

/-! ## Concrete instances used by the claims -/

/-- An unweighted path 0 - 1 - 2 with an isolated vertex 3, used to witness
the breadth-first search claim. -/
def c4graph : Graph := ((Graph.init 4).add_edge 0 1).add_edge 1 2

/-- The undirected weighted triangle of claim C1: edges (0,1,0.5),
(1,2,0.3), (0,2,1.0), inserted in that order. -/
def c1graph : EdgeWeightedGraph :=
  (((EdgeWeightedGraph.init 3).add_edge ⟨0, 1, 1/2⟩).add_edge ⟨1, 2, 3/10⟩).add_edge ⟨0, 2, 1⟩

/-- A connected undirected weighted triangle with distinct weights: edges
(0,1,3), (0,2,2), (1,2,1). -/
def c2graph : EdgeWeightedGraph :=
  (((EdgeWeightedGraph.init 3).add_edge ⟨0, 1, 3⟩).add_edge ⟨0, 2, 2⟩).add_edge ⟨1, 2, 1⟩

/-- A weighted digraph with nonnegative weights used to witness the Dijkstra
claim: edges 0→1 (weight 4), 0→2 (weight 1), 2→1 (weight 2), so the shortest
path 0⇝1 goes through 2 with weight 3. -/
def c3graph : EdgeWeightedDiGraph :=
  (((EdgeWeightedDiGraph.init 3).add_edge ⟨0, 1, 4⟩).add_edge ⟨0, 2, 1⟩).add_edge ⟨2, 1, 2⟩

/-- The indexed priority queue of claim C8: capacity 4, smallest key on top
(the comparator `x > y` makes the swim condition fire when the parent is
larger), after push(0, 5.0), push(1, 2.0), push(2, 8.0). -/
def c8q : PriorityIndexQueue ℚ :=
  (((PriorityIndexQueue.init 4 qgt).push 0 5).push 1 2).push 2 8

/-- A two-push run used to test the claimed heap-order polarity. -/
def c5q : PriorityQueue ℚ :=
  PriorityQueue.runOps (PriorityQueue.init 3 qlt) [.push 1, .push 2]

/-! ## Heap-repair invariants

The partial heap-order predicates used to verify `swim` and `sink`:
`ExceptAt k` says every heap edge except the one into `k` is in order;
`ExceptBelow k` excepts the edges into `k`'s children; `ExceptAround k`
excepts all three; `ParentDom k` says the parent of `k` is in order with
`k`'s children directly. -/

namespace PriorityQueue

variable {α : Type}

def ExceptAt (q : PriorityQueue α) (k : Nat) : Prop :=
  ∀ m, 2 ≤ m → m ≤ q.count → m ≠ k → q.comp (m / 2) m = false

def ExceptBelow (q : PriorityQueue α) (k : Nat) : Prop :=
  ∀ m, 2 ≤ m → m ≤ q.count → m ≠ 2 * k → m ≠ 2 * k + 1 → q.comp (m / 2) m = false

def ExceptAround (q : PriorityQueue α) (k : Nat) : Prop :=
  ∀ m, 2 ≤ m → m ≤ q.count → m ≠ k → m ≠ 2 * k → m ≠ 2 * k + 1 → q.comp (m / 2) m = false

def ParentDom (q : PriorityQueue α) (k : Nat) : Prop :=
  1 < k → ∀ m, (m = 2 * k ∨ m = 2 * k + 1) → m ≤ q.count → q.comp (k / 2) m = false

end PriorityQueue

namespace PriorityIndexQueue

variable {α : Type}

def ExceptAt (q : PriorityIndexQueue α) (k : Nat) : Prop :=
  ∀ m, 2 ≤ m → m ≤ q.count → m ≠ k → q.comp (m / 2) m = false

def ExceptBelow (q : PriorityIndexQueue α) (k : Nat) : Prop :=
  ∀ m, 2 ≤ m → m ≤ q.count → m ≠ 2 * k → m ≠ 2 * k + 1 → q.comp (m / 2) m = false

def ExceptAround (q : PriorityIndexQueue α) (k : Nat) : Prop :=
  ∀ m, 2 ≤ m → m ≤ q.count → m ≠ k → m ≠ 2 * k → m ≠ 2 * k + 1 → q.comp (m / 2) m = false

def ParentDom (q : PriorityIndexQueue α) (k : Nat) : Prop :=
  1 < k → ∀ m, (m = 2 * k ∨ m = 2 * k + 1) → m ≤ q.count → q.comp (k / 2) m = false

/-- Every occupied slot holds a present key (through the `pq`
indirection). -/
def occK (q : PriorityIndexQueue α) : Prop :=
  ∀ s, 1 ≤ s → s ≤ q.count → (q.keys (q.pq s)).isSome = true

/-- The position-array invariant restricted to indices satisfying `good`:
inside `pop` and `delete`, the just-removed index transiently keeps a stale
`qp` entry pointing one past the live range, and is excluded from `good`
until the final cleanup writes `-1`. -/
def posInvOn (q : PriorityIndexQueue α) (good : Int → Prop) : Prop :=
  (∀ s, 1 ≤ s → s ≤ q.count → good (q.pq s) ∧ q.qp (q.pq s) = (s : Int)) ∧
  (∀ x : Int, good x → q.qp x ≠ -1 → ∃ s, 1 ≤ s ∧ s ≤ q.count ∧ q.qp x = (s : Int) ∧ q.pq s = x) ∧
  (∀ x : Int, good x → q.qp x ≠ -1 → (q.keys x).isSome = true)

/-- Every present external index occupies exactly one heap slot ("appears
exactly once in `pq`"). -/
def slotUnique (q : PriorityIndexQueue α) : Prop :=
  ∀ x : Int, q.qp x ≠ -1 → ∃! s : Nat, 1 ≤ s ∧ s ≤ q.count ∧ q.pq s = x

end PriorityIndexQueue

/-! ## Theorems -/

attribute [local semireducible] Rat.add Rat.mul Rat.inv Rat.sub

/-- C1: evaluating `MstKruskal` on the triangle (0,1,0.5), (1,2,0.3),
(0,2,1.0). The constructor passes `lambda x, y: x < y` to the
`PriorityQueue`, whose swim/sink loops move a key above its parent exactly
while `compare(parent, child)` holds, so this comparator puts the HEAVIEST
edge on top: the loop pops (0,2,1.0) first, then (0,1,0.5), producing the
maximum spanning tree of weight 1.5 — not the claimed minimum spanning tree
{(1,2),(0,1)} of weight 0.8. -/
theorem c1_kruskal_runs_max_tree :
    MstKruskal.run c1graph = [⟨0, 2, 1⟩, ⟨0, 1, 1/2⟩] ∧
    MstKruskal.weight (MstKruskal.run c1graph) = 3/2 := by
  constructor <;> decide

/-- C2: on the connected triangle with weights (0,1)=3, (0,2)=2, (1,2)=1,
the three constructors disagree: `MstKruskal` and `MstPrimLazy` both
produce the maximum spanning tree {(0,1),(0,2)} of weight 5 (their
`lambda x, y: x < y` comparator pops heaviest-first), while `MstPrimEager`
produces {(0,1),(1,2)} of weight 4 (it pops the unvisited vertex with the
LARGEST current connecting weight, but tracks the minimum incident edge in
`dist_to`/`edge_to`). The claimed weight equality fails. -/
theorem c2_three_trees_disagree :
    MstKruskal.weight (MstKruskal.run c2graph) = 5 ∧
    MstKruskal.weight (MstPrimLazy.run c2graph) = 5 ∧
    MstPrimEager.weight (MstPrimEager.run c2graph) = 4 ∧
    MstKruskal.run c2graph = [⟨0, 1, 3⟩, ⟨0, 2, 2⟩] ∧
    MstPrimLazy.run c2graph = [⟨0, 1, 3⟩, ⟨0, 2, 2⟩] ∧
    MstPrimEager.run c2graph = [some ⟨0, 1, 3⟩, some ⟨1, 2, 1⟩] := by
  refine ⟨?_, ?_, ?_, ?_, ?_, ?_⟩ <;> decide

/-- C8: the indexed-priority-queue scenario of the spec, with the
smallest-on-top comparator `x > y`: after push(0,5.0), push(1,2.0),
push(2,8.0) the top index is 1 with key 2.0, and after change(0,1.0) the
top index is 0. -/
theorem c8_indexed_queue_scenario :
    c8q.top_ix = 1 ∧ c8q.top = some 2 ∧ (c8q.change 0 1).top_ix = 0 := by
  refine ⟨?_, ?_, ?_⟩ <;> decide

/-- C9: `is_valid` accepts `0 <= i <= capacity`, one more index than the
claimed (and documented) range `0 <= i <= capacity - 1`: with capacity 4,
index 4 passes the precondition check of `contains` and can be pushed,
instead of failing. -/
theorem c9_is_valid_accepts_capacity :
    (PriorityIndexQueue.init 4 qgt).is_valid 4 = true ∧
    (PriorityIndexQueue.init 4 qgt).contains 4 = false ∧
    ((PriorityIndexQueue.init 4 qgt).push 4 1).contains 4 = true ∧
    ∀ i : Int, (PriorityIndexQueue.init 4 qgt).is_valid i = true ↔ 0 ≤ i ∧ i ≤ 4 := by
  refine ⟨by decide, by decide, by decide, ?_⟩
  intro i
  simp [PriorityIndexQueue.is_valid, PriorityIndexQueue.init]

/-- C5, counterexample to the claimed polarity: pushing 1 then 2 with the
comparator `x < y` leaves slot 1 = 2 and slot 2 = 1, and
`compare(parent, child) = (2 < 1)` is `false`, not `true`: the maintained
invariant is the negation of the claimed one. -/
theorem c5_claimed_polarity_fails : ¬ PriorityQueue.heapOrdSpec c5q := by
  intro h
  have h2 := h 2 (by decide) (by decide)
  have : c5q.comp 1 2 = false := by decide
  rw [show (2 : Nat) / 2 = 1 from rfl] at h2
  exact absurd h2 (by rw [this]; decide)

/-! ## UnionFind lemmas (towards C7) -/

namespace UnionFind

theorem rootAux_eq (par : Nat → Nat) (fuel : Nat) : ∀ p, rootAux par fuel p = par^[fuel] p := by
  induction fuel with
  | zero => intro p; rfl
  | succ n ih =>
    intro p
    by_cases h : par p = p
    · simp [rootAux, h, Function.iterate_fixed h]
    · simp only [rootAux, if_neg h]
      rw [ih (par p)]
      exact (Function.iterate_succ_apply par n p).symm

theorem iterate_stable {par : Nat → Nat} {p r k : Nat} (hk : par^[k] p = r) (hf : par r = r) :
    ∀ m, k ≤ m → par^[m] p = r := by
  intro m hm
  have h1 : par^[(m - k) + k] p = par^[m - k] (par^[k] p) := Function.iterate_add_apply par (m - k) k p
  rw [Nat.sub_add_cancel hm] at h1
  rw [h1, hk, Function.iterate_fixed hf]

theorem Reaches.unique {par : Nat → Nat} {p r1 r2 : Nat} (h1 : Reaches par p r1)
    (h2 : Reaches par p r2) : r1 = r2 := by
  obtain ⟨⟨k1, hk1⟩, hf1⟩ := h1
  obtain ⟨⟨k2, hk2⟩, hf2⟩ := h2
  have e1 := iterate_stable hk1 hf1 (max k1 k2) (Nat.le_max_left k1 k2)
  have e2 := iterate_stable hk2 hf2 (max k1 k2) (Nat.le_max_right k1 k2)
  rw [e1] at e2
  exact e2

theorem Reaches.tail {par : Nat → Nat} {p r : Nat} (h : Reaches par p r) (hne : par p ≠ p) :
    Reaches par (par p) r := by
  obtain ⟨⟨k, hk⟩, hf⟩ := h
  cases k with
  | zero =>
    exfalso
    exact hne (by rw [show p = r from hk]; exact hf)
  | succ k =>
    refine ⟨⟨k, ?_⟩, hf⟩
    rw [← Function.iterate_succ_apply]
    exact hk

theorem iterate_lt {par : Nat → Nat} {n : Nat} (hc : ∀ x, x < n → par x < n) {p : Nat}
    (hp : p < n) : ∀ k, par^[k] p < n := by
  intro k
  induction k with
  | zero => exact hp
  | succ m ih =>
    rw [Function.iterate_succ_apply']
    exact hc _ ih

theorem reaches_within {par : Nat → Nat} {n : Nat} (hc : ∀ x, x < n → par x < n) {p r : Nat}
    (hp : p < n) (h : Reaches par p r) : par^[n] p = r := by
  obtain ⟨⟨k, hk⟩, hf⟩ := h
  suffices h2 : ∃ m, m ≤ n ∧ par^[m] p = r by
    obtain ⟨m, hm, hmr⟩ := h2
    exact iterate_stable hmr hf n hm
  by_cases hkn : k ≤ n
  · exact ⟨k, hkn, hk⟩
  · have maps : ∀ i ∈ Finset.range (n + 1), par^[i] p ∈ Finset.range n := fun i _ =>
      Finset.mem_range.mpr (iterate_lt hc hp i)
    have hcard : (Finset.range n).card < (Finset.range (n + 1)).card := by simp
    obtain ⟨a, ha, b, hb, hne, heq⟩ :=
      Finset.exists_ne_map_eq_of_card_lt_of_maps_to hcard maps
    have hab : a ≤ n := Nat.le_of_lt_succ (Finset.mem_range.mp ha)
    have hbb : b ≤ n := Nat.le_of_lt_succ (Finset.mem_range.mp hb)
    rcases Nat.lt_or_ge a b with hlt | hge
    · have per : ∀ t, a ≤ t → par^[t + (b - a)] p = par^[t] p := by
        intro t ht
        have h1 : t + (b - a) = (t - a) + b := by omega
        have h2 : t = (t - a) + a := by omega
        rw [h1, Function.iterate_add_apply, ← heq, ← Function.iterate_add_apply, ← h2]
      have desc : ∀ t, par^[t] p = r → ∃ m, m ≤ n ∧ par^[m] p = r := by
        intro t
        induction t using Nat.strong_induction_on with
        | _ t ih =>
          intro ht
          by_cases hn : t ≤ n
          · exact ⟨t, hn, ht⟩
          · have hd : 1 ≤ b - a := by omega
            have hta : a ≤ t - (b - a) := by omega
            have hper := per (t - (b - a)) hta
            rw [show t - (b - a) + (b - a) = t by omega] at hper
            exact ih (t - (b - a)) (by omega) (hper.symm.trans ht)
      exact desc k hk
    · -- symmetric case b < a
      have hlt : b < a := by omega
      have per : ∀ t, b ≤ t → par^[t + (a - b)] p = par^[t] p := by
        intro t ht
        have h1 : t + (a - b) = (t - b) + a := by omega
        have h2 : t = (t - b) + b := by omega
        rw [h1, Function.iterate_add_apply, heq, ← Function.iterate_add_apply, ← h2]
      have desc : ∀ t, par^[t] p = r → ∃ m, m ≤ n ∧ par^[m] p = r := by
        intro t
        induction t using Nat.strong_induction_on with
        | _ t ih =>
          intro ht
          by_cases hn : t ≤ n
          · exact ⟨t, hn, ht⟩
          · have hd : 1 ≤ a - b := by omega
            have hta : b ≤ t - (a - b) := by omega
            have hper := per (t - (a - b)) hta
            rw [show t - (a - b) + (a - b) = t by omega] at hper
            exact ih (t - (a - b)) (by omega) (hper.symm.trans ht)
      exact desc k hk

theorem reaches_update {par : Nat → Nat} {c r : Nat} (h : Reaches par c r) (x s : Nat) :
    Reaches (Function.update par c r) x s ↔ Reaches par x s := by
  by_cases hcc : par c = c
  · have hrc : r = c := by
      obtain ⟨⟨k, hk⟩, _⟩ := h
      rw [Function.iterate_fixed hcc] at hk
      exact hk.symm
    rw [Function.update_eq_self_iff.mpr (hrc.trans hcc.symm)]
  · have hfr : par r = r := h.2
    have hcr : c ≠ r := by
      intro hc
      subst hc
      exact hcc hfr
    have hur : Function.update par c r r = r := by
      rw [Function.update_noteq (Ne.symm hcr)]
      exact hfr
    constructor
    · rintro ⟨⟨k, hk⟩, hs⟩
      induction k generalizing x with
      | zero =>
        have hxs : x = s := hk
        subst hxs
        have hsc : x ≠ c := by
          intro hxc
          subst hxc
          rw [Function.update_same] at hs
          exact hcr hs.symm
        rw [Function.update_noteq hsc] at hs
        exact ⟨⟨0, rfl⟩, hs⟩
      | succ k ih =>
        rw [Function.iterate_succ_apply] at hk
        by_cases hxc : x = c
        · subst hxc
          rw [Function.update_same] at hk
          have hrec := ih r hk
          obtain ⟨⟨m, hm⟩, _⟩ := hrec
          rw [Function.iterate_fixed hfr] at hm
          rw [← hm]
          exact h
        · rw [Function.update_noteq hxc] at hk
          obtain ⟨⟨m, hm⟩, hsf⟩ := ih (par x) hk
          refine ⟨⟨m + 1, ?_⟩, hsf⟩
          rw [Function.iterate_succ_apply]
          exact hm
    · rintro ⟨⟨k, hk⟩, hs⟩
      have hsc : s ≠ c := by
        intro hscc
        subst hscc
        exact hcc hs
      have hs' : Function.update par c r s = s := by
        rw [Function.update_noteq hsc]
        exact hs
      induction k generalizing x with
      | zero =>
        have hxs : x = s := hk
        subst hxs
        exact ⟨⟨0, rfl⟩, hs'⟩
      | succ k ih =>
        rw [Function.iterate_succ_apply] at hk
        by_cases hxc : x = c
        · subst hxc
          have hreach : Reaches par x s := ⟨⟨k + 1, by rw [Function.iterate_succ_apply]; exact hk⟩, hs⟩
          have hsr : s = r := hreach.unique h
          subst hsr
          exact ⟨⟨1, by simp [Function.update_same]⟩, hur⟩
        · obtain ⟨⟨m, hm⟩, _⟩ := ih (par x) hk
          refine ⟨⟨m + 1, ?_⟩, hs'⟩
          rw [Function.iterate_succ_apply, Function.update_noteq hxc]
          exact hm

theorem update_root_fix {par : Nat → Nat} {c root : Nat} (h : Reaches par c root)
    (hne : par c ≠ c) : ∀ x, (Function.update par c root x = x ↔ par x = x) := by
  have hfr : par root = root := h.2
  have hcr : c ≠ root := by
    intro hc
    subst hc
    exact hne hfr
  intro x
  by_cases hxc : x = c
  · subst hxc
    rw [Function.update_same]
    exact iff_of_false (Ne.symm hcr) hne
  · rw [Function.update_noteq hxc]

theorem compressAux_reaches {root : Nat} : ∀ (fuel : Nat) (par : Nat → Nat) (key : Nat),
    Reaches par key root →
    ∀ x s, (Reaches (compressAux root fuel par key) x s ↔ Reaches par x s) := by
  intro fuel
  induction fuel with
  | zero => intro par key _ x s; exact Iff.rfl
  | succ n ih =>
    intro par key hkey x s
    simp only [compressAux]
    by_cases h : par key = key
    · rw [if_pos h]
    · rw [if_neg h]
      have h1 : Reaches par (par key) root := hkey.tail h
      have h2 : Reaches (Function.update par key root) (par key) root :=
        (reaches_update hkey _ _).mpr h1
      rw [ih _ _ h2 x s, reaches_update hkey x s]

theorem compressAux_fix {root : Nat} : ∀ (fuel : Nat) (par : Nat → Nat) (key : Nat),
    Reaches par key root →
    ∀ x, (compressAux root fuel par key x = x ↔ par x = x) := by
  intro fuel
  induction fuel with
  | zero => intro par key _ x; exact Iff.rfl
  | succ n ih =>
    intro par key hkey x
    simp only [compressAux]
    by_cases h : par key = key
    · rw [if_pos h]
    · rw [if_neg h]
      have h1 : Reaches (Function.update par key root) (par key) root :=
        (reaches_update hkey _ _).mpr (hkey.tail h)
      rw [ih _ _ h1 x, update_root_fix hkey h x]

theorem compressAux_lt {n root : Nat} (hroot : root < n) : ∀ (fuel : Nat) (par : Nat → Nat)
    (key : Nat), (∀ x, x < n → par x < n) →
    ∀ x, x < n → compressAux root fuel par key x < n := by
  intro fuel
  induction fuel with
  | zero => intro par key hc x hx; exact hc x hx
  | succ m ih =>
    intro par key hc x hx
    simp only [compressAux]
    by_cases h : par key = key
    · rw [if_pos h]; exact hc x hx
    · rw [if_neg h]
      refine ih _ _ ?_ x hx
      intro y hy
      by_cases hyk : y = key
      · subst hyk
        rw [Function.update_same]
        exact hroot
      · rw [Function.update_noteq hyk]
        exact hc y hy

theorem rootOf_spec {uf : UnionFind} (hwf : WF uf) {p : Nat} (hp : p < uf.n_keys) :
    Reaches uf.parent p (rootOf uf p) := by
  obtain ⟨r, hr⟩ := hwf.2.1 p hp
  have h1 := reaches_within hwf.1 hp hr
  have h2 : rootOf uf p = r := by rw [rootOf, rootAux_eq]; exact h1
  rw [h2]
  exact hr

theorem rootOf_lt {uf : UnionFind} (hwf : WF uf) {p : Nat} (hp : p < uf.n_keys) :
    rootOf uf p < uf.n_keys := by
  rw [rootOf, rootAux_eq]
  exact iterate_lt hwf.1 hp uf.n_keys

theorem rootOf_isFix {uf : UnionFind} (hwf : WF uf) {p : Nat} (hp : p < uf.n_keys) :
    uf.parent (rootOf uf p) = rootOf uf p := (rootOf_spec hwf hp).2

theorem find_wf {uf : UnionFind} (hwf : WF uf) {p : Nat} (hp : p < uf.n_keys) :
    WF (uf.find p).2 ∧ (∀ x, x < uf.n_keys → rootOf (uf.find p).2 x = rootOf uf x) := by
  have hre : Reaches uf.parent p (rootOf uf p) := rootOf_spec hwf hp
  have hrlt : rootOf uf p < uf.n_keys := rootOf_lt hwf hp
  have hiff := compressAux_reaches uf.n_keys uf.parent p hre
  have hfix := compressAux_fix uf.n_keys uf.parent p hre
  have hlt := compressAux_lt hrlt uf.n_keys uf.parent p hwf.1
  have hclosure : ∀ x, x < (uf.find p).2.n_keys → (uf.find p).2.parent x < (uf.find p).2.n_keys :=
    hlt
  constructor
  · refine ⟨hclosure, ?_, ?_⟩
    · intro x hx
      exact ⟨rootOf uf x, (hiff x _).mpr (rootOf_spec hwf hx)⟩
    · have hfilter : (Finset.range uf.n_keys).filter (fun x => (uf.find p).2.parent x = x)
          = (Finset.range uf.n_keys).filter (fun x => uf.parent x = x) :=
        Finset.filter_congr (fun x _ => hfix x)
      calc (uf.find p).2.n_sets = uf.n_sets := rfl
        _ = ((Finset.range uf.n_keys).filter (fun x => uf.parent x = x)).card := hwf.2.2
        _ = _ := by rw [← hfilter]; rfl
  · intro x hx
    have h1 : Reaches (uf.find p).2.parent x (rootOf uf x) :=
      (hiff x _).mpr (rootOf_spec hwf hx)
    have h2 := reaches_within hclosure hx h1
    rw [rootOf, rootAux_eq]
    exact h2

theorem find2_wf {uf : UnionFind} (hwf : WF uf) {p q : Nat} (hp : p < uf.n_keys)
    (hq : q < uf.n_keys) :
    WF ((uf.find p).2.find q).2 ∧
    (∀ x, x < uf.n_keys → rootOf ((uf.find p).2.find q).2 x = rootOf uf x) := by
  have h1 := find_wf hwf hp
  have h2 := find_wf h1.1 (show q < (uf.find p).2.n_keys from hq)
  refine ⟨h2.1, ?_⟩
  intro x hx
  rw [h2.2 x hx, h1.2 x hx]

theorem WF_init (n : Nat) : WF (init n) := by
  refine ⟨fun p hp => hp, fun p _ => ⟨p, ⟨0, rfl⟩, rfl⟩, ?_⟩
  have h : ((Finset.range n).filter (fun p => (init n).parent p = p)) = Finset.range n :=
    Finset.filter_true_of_mem (fun x _ => rfl)
  show n = ((Finset.range n).filter (fun p => (init n).parent p = p)).card
  rw [h, Finset.card_range]

end UnionFind

/-- C7: for every well-formed `UnionFind` state (as reachable from the
constructor: in-range parents, acyclic chains, `n_sets` = number of roots)
and in-range keys `p`, `q`: the API's `connected` agrees with root equality;
`join(p, q)` decreases `n_sets` by exactly 1 when the roots differ; and when
`p`, `q` are already connected it leaves `n_sets` unchanged and the
root-equality (connectivity) relation on all keys unchanged (the two `find`
calls only compress paths). -/
theorem c7_join_merges_or_preserves (uf : UnionFind) (p q : Nat) (hwf : UnionFind.WF uf)
    (hp : p < uf.n_keys) (hq : q < uf.n_keys) :
    ((uf.connected p q).1 = true ↔ UnionFind.rootOf uf p = UnionFind.rootOf uf q) ∧
    (UnionFind.rootOf uf p ≠ UnionFind.rootOf uf q →
      (uf.join p q).n_sets + 1 = uf.n_sets) ∧
    (UnionFind.rootOf uf p = UnionFind.rootOf uf q →
      (uf.join p q).n_sets = uf.n_sets ∧
      ∀ a b, a < uf.n_keys → b < uf.n_keys →
        (UnionFind.rootOf (uf.join p q) a = UnionFind.rootOf (uf.join p q) b ↔
          UnionFind.rootOf uf a = UnionFind.rootOf uf b)) := by
  have h1 := UnionFind.find_wf hwf hp
  have h2 := UnionFind.find_wf h1.1 (show q < (uf.find p).2.n_keys from hq)
  have e1 : (uf.find p).1 = UnionFind.rootOf uf p := rfl
  have e2 : ((uf.find p).2.find q).1 = UnionFind.rootOf uf q := h1.2 q hq
  refine ⟨?_, ?_, ?_⟩
  · show ((uf.find p).1 == ((uf.find p).2.find q).1) = true ↔ _
    rw [e1, e2, beq_iff_eq]
  · intro hne
    have hcond : ¬ ((uf.find p).1 = ((uf.find p).2.find q).1) := by
      rw [e1, e2]
      exact hne
    have hwf2 := h2.1
    have hr2 := (UnionFind.find2_wf hwf hp hq).2
    have hfixp : ((uf.find p).2.find q).2.parent (UnionFind.rootOf uf p)
        = UnionFind.rootOf uf p := by
      have hx := UnionFind.rootOf_isFix hwf2 (show p < ((uf.find p).2.find q).2.n_keys from hp)
      rw [hr2 p hp] at hx
      exact hx
    have hpos : 1 ≤ uf.n_sets := by
      have hcard := hwf2.2.2
      have hmem : UnionFind.rootOf uf p ∈ (Finset.range uf.n_keys).filter
          (fun x => ((uf.find p).2.find q).2.parent x = x) :=
        Finset.mem_filter.mpr ⟨Finset.mem_range.mpr (UnionFind.rootOf_lt hwf hp), hfixp⟩
      have hlt : 0 < ((Finset.range uf.n_keys).filter
          (fun x => ((uf.find p).2.find q).2.parent x = x)).card :=
        Finset.card_pos.mpr ⟨_, hmem⟩
      calc 1 ≤ ((Finset.range uf.n_keys).filter
            (fun x => ((uf.find p).2.find q).2.parent x = x)).card := hlt
        _ = ((uf.find p).2.find q).2.n_sets := hcard.symm
        _ = uf.n_sets := rfl
    show (uf.join p q).n_sets + 1 = uf.n_sets
    simp only [UnionFind.join]
    rw [if_neg hcond]
    split
    · show uf.n_sets - 1 + 1 = uf.n_sets
      omega
    · show uf.n_sets - 1 + 1 = uf.n_sets
      omega
  · intro heq
    have hcond : (uf.find p).1 = ((uf.find p).2.find q).1 := by
      rw [e1, e2]
      exact heq
    have hj : uf.join p q = ((uf.find p).2.find q).2 := by
      simp only [UnionFind.join]
      rw [if_pos hcond]
    constructor
    · rw [hj]
      rfl
    · intro a b ha hb
      have hr2 := (UnionFind.find2_wf hwf hp hq).2
      rw [hj, hr2 a ha, hr2 b hb]

/-- C7 witness: on the fresh 3-key structure, join(0, 1) drops `n_sets` from
3 to 2, and join(0, 0) (already connected) leaves it at 3. -/
theorem c7_join_merges_or_preserves_witness :
    ((UnionFind.init 3).join 0 1).n_sets + 1 = (UnionFind.init 3).n_sets ∧
    ((UnionFind.init 3).join 0 0).n_sets = (UnionFind.init 3).n_sets :=
  ⟨(c7_join_merges_or_preserves (UnionFind.init 3) 0 1 (UnionFind.WF_init 3)
      (by decide) (by decide)).2.1 (by decide),
   ((c7_join_merges_or_preserves (UnionFind.init 3) 0 0 (UnionFind.WF_init 3)
      (by decide) (by decide)).2.2 (by decide)).1⟩

/-! ## PriorityQueue heap-order lemmas (towards C5, C10) -/

namespace PriorityQueue

variable {α : Type}

theorem swap_count (q : PriorityQueue α) (i j : Nat) : (q.swap i j).count = q.count := rfl

theorem swap_compare (q : PriorityQueue α) (i j : Nat) : (q.swap i j).compare = q.compare := rfl

theorem swap_pq (q : PriorityQueue α) (i j n : Nat) :
    (q.swap i j).pq n = q.pq (if n = j then i else if n = i then j else n) := by
  by_cases h1 : n = j
  · subst h1
    simp [swap]
  · by_cases h2 : n = i
    · subst h2
      simp [swap, h1]
    · simp [swap, h1, h2]

theorem comp_congr {q q' : PriorityQueue α} {a b a' b' : Nat} (h1 : q'.compare = q.compare)
    (ha : q'.pq a = q.pq a') (hb : q'.pq b = q.pq b') : q'.comp a b = q.comp a' b' := by
  unfold comp
  rw [h1, ha, hb]

theorem swap_comp (q : PriorityQueue α) (i j a b : Nat) :
    (q.swap i j).comp a b =
      q.comp (if a = j then i else if a = i then j else a)
        (if b = j then i else if b = i then j else b) :=
  comp_congr rfl (swap_pq q i j a) (swap_pq q i j b)

theorem swap_occ {q : PriorityQueue α} {i j : Nat} (hocc : occ q) (hi1 : 1 ≤ i)
    (hic : i ≤ q.count) (hj1 : 1 ≤ j) (hjc : j ≤ q.count) : occ (q.swap i j) := by
  intro n hn1 hnc
  rw [swap_pq]
  by_cases h1 : n = j
  · subst h1
    rw [if_pos rfl]
    exact hocc i hi1 hic
  · by_cases h2 : n = i
    · subst h2
      rw [if_neg h1, if_pos rfl]
      exact hocc j hj1 hjc
    · rw [if_neg h1, if_neg h2]
      exact hocc n hn1 hnc

theorem comp_true_asymm {q : PriorityQueue α} (hswo : IsSWO q.compare) {a b : Nat}
    (h : q.comp a b = true) : q.comp b a = false := by
  rcases hqa : q.pq a with _ | x <;> rcases hqb : q.pq b with _ | y <;>
      simp [comp, hqa, hqb] at h ⊢
  exact hswo.asymm x y h

theorem comp_true_trans {q : PriorityQueue α} (hswo : IsSWO q.compare) {a b c : Nat}
    (h1 : q.comp a b = true) (h2 : q.comp b c = true) : q.comp a c = true := by
  rcases hqa : q.pq a with _ | x <;> rcases hqb : q.pq b with _ | y <;>
      rcases hqc : q.pq c with _ | z <;> simp [comp, hqa, hqb, hqc] at h1 h2 ⊢
  exact hswo.trans x y z h1 h2

theorem comp_false_negTrans {q : PriorityQueue α} (hswo : IsSWO q.compare) {a b c : Nat}
    (ha : (q.pq a).isSome = true) (hb : (q.pq b).isSome = true) (hc : (q.pq c).isSome = true)
    (h1 : q.comp a b = false) (h2 : q.comp b c = false) : q.comp a c = false := by
  obtain ⟨x, hx⟩ := Option.isSome_iff_exists.mp ha
  obtain ⟨y, hy⟩ := Option.isSome_iff_exists.mp hb
  obtain ⟨z, hz⟩ := Option.isSome_iff_exists.mp hc
  unfold comp at h1 h2 ⊢
  rw [hx, hy] at h1
  rw [hy, hz] at h2
  rw [hx, hz]
  exact hswo.negTrans x y z h1 h2

theorem swimF_count (q : PriorityQueue α) (k : Nat) :
    ∀ fuel, (q.swimF k fuel).count = q.count := by
  intro fuel
  induction fuel generalizing q k with
  | zero => rfl
  | succ n ih =>
    simp only [swimF]
    by_cases hg : 1 < k ∧ q.comp (k / 2) k = true
    · rw [if_pos hg, ih]
      rfl
    · rw [if_neg hg]

theorem swimF_compare (q : PriorityQueue α) (k : Nat) :
    ∀ fuel, (q.swimF k fuel).compare = q.compare := by
  intro fuel
  induction fuel generalizing q k with
  | zero => rfl
  | succ n ih =>
    simp only [swimF]
    by_cases hg : 1 < k ∧ q.comp (k / 2) k = true
    · rw [if_pos hg, ih]
      rfl
    · rw [if_neg hg]

theorem swimF_occ (q : PriorityQueue α) (k : Nat) :
    ∀ fuel, occ q → k ≤ q.count → occ (q.swimF k fuel) := by
  intro fuel
  induction fuel generalizing q k with
  | zero => intro hocc _; exact hocc
  | succ n ih =>
    intro hocc hkc
    simp only [swimF]
    by_cases hg : 1 < k ∧ q.comp (k / 2) k = true
    · rw [if_pos hg]
      exact ih _ _ (swap_occ hocc (by omega) (by omega) (by omega) hkc)
        (show k / 2 ≤ (q.swap (k / 2) k).count by rw [swap_count]; omega)
    · rw [if_neg hg]
      exact hocc

theorem swimF_heapOrd :
    ∀ (fuel : Nat) (q : PriorityQueue α) (k : Nat), IsSWO q.compare → occ q →
    1 ≤ k → k ≤ q.count → k ≤ fuel →
    ExceptAt q k → ParentDom q k → heapOrd (q.swimF k fuel) := by
  intro fuel
  induction fuel with
  | zero =>
    intro q k _ _ hk1 _ hfuel _ _
    omega
  | succ n ih =>
    intro q k hswo hocc hk1 hkc hfuel ha hc
    simp only [swimF]
    by_cases hg : 1 < k ∧ q.comp (k / 2) k = true
    · rw [if_pos hg]
      have hk2 : 2 ≤ k := hg.1
      have hocc' : occ (q.swap (k / 2) k) :=
        swap_occ hocc (by omega) (by omega) (by omega) hkc
      refine ih (q.swap (k / 2) k) (k / 2) hswo hocc' (by omega)
        (show k / 2 ≤ (q.swap (k / 2) k).count by rw [swap_count]; omega)
        (by omega) ?_ ?_
      · -- ExceptAt (swap) (k / 2)
        intro m hm2 hmc hmk'
        rw [swap_count] at hmc
        rw [swap_comp]
        by_cases hmk : m = k
        · subst hmk
          rw [if_pos rfl, if_neg (show ¬ m / 2 = m by omega), if_pos rfl]
          exact comp_true_asymm hswo hg.2
        · by_cases hsib : m / 2 = k / 2
          · rw [if_neg hmk, if_neg (show ¬ m = k / 2 by omega)]
            rw [hsib, if_neg (show ¬ k / 2 = k by omega), if_pos rfl]
            cases hcm : q.comp k m with
            | false => rfl
            | true =>
              exfalso
              have h1 : q.comp (k / 2) m = true := comp_true_trans hswo hg.2 hcm
              have h2 : q.comp (m / 2) m = false := ha m hm2 hmc hmk
              rw [hsib] at h2
              rw [h1] at h2
              exact Bool.true_eq_false.mp h2
          · by_cases hchild : m / 2 = k
            · rw [if_neg hmk, if_neg (show ¬ m = k / 2 by omega)]
              rw [hchild, if_pos rfl]
              exact hc hg.1 m (by omega) hmc
            · rw [if_neg hmk, if_neg (show ¬ m = k / 2 from hmk'),
                if_neg hchild, if_neg hsib]
              exact ha m hm2 hmc hmk
      · -- ParentDom (swap) (k / 2)
        intro hk'2 m hm hmc
        rw [swap_count] at hmc
        rw [swap_comp]
        have hkk : 4 ≤ k := by omega
        rw [if_neg (show ¬ k / 2 / 2 = k by omega), if_neg (show ¬ k / 2 / 2 = k / 2 by omega)]
        have hek' : q.comp (k / 2 / 2) (k / 2) = false := by
          have := ha (k / 2) (by omega) (by omega) (by omega)
          exact this
        by_cases hmk : m = k
        · subst hmk
          rw [if_pos rfl]
          exact hek'
        · rw [if_neg hmk, if_neg (show ¬ m = k / 2 by omega)]
          have hem : q.comp (k / 2) m = false := by
            have := ha m (by omega) hmc hmk
            rw [show m / 2 = k / 2 by omega] at this
            exact this
          exact comp_false_negTrans hswo
            (hocc (k / 2 / 2) (by omega) (by omega))
            (hocc (k / 2) (by omega) (by omega))
            (hocc m (by omega) hmc)
            hek' hem
    · rw [if_neg hg]
      intro m hm2 hmc
      by_cases hmk : m = k
      · subst hmk
        rcases Decidable.not_and_iff_or_not.mp hg with h | h
        · omega
        · exact Bool.not_eq_true _ |>.mp h
      · exact ha m hm2 hmc hmk

theorem sinkF_count (q : PriorityQueue α) (k : Nat) :
    ∀ fuel, (q.sinkF k fuel).count = q.count := by
  intro fuel
  induction fuel generalizing q k with
  | zero => rfl
  | succ n ih =>
    simp only [sinkF]
    by_cases hgd : 2 * k ≤ q.count
    · rw [if_pos hgd]
      by_cases hcc : q.comp (if 2 * k < q.count ∧ q.comp (2 * k) (2 * k + 1) = true
          then 2 * k + 1 else 2 * k) k = true
      · rw [if_pos hcc]
      · rw [if_neg hcc, ih]
        rfl
    · rw [if_neg hgd]

theorem sinkF_compare (q : PriorityQueue α) (k : Nat) :
    ∀ fuel, (q.sinkF k fuel).compare = q.compare := by
  intro fuel
  induction fuel generalizing q k with
  | zero => rfl
  | succ n ih =>
    simp only [sinkF]
    by_cases hgd : 2 * k ≤ q.count
    · rw [if_pos hgd]
      by_cases hcc : q.comp (if 2 * k < q.count ∧ q.comp (2 * k) (2 * k + 1) = true
          then 2 * k + 1 else 2 * k) k = true
      · rw [if_pos hcc]
      · rw [if_neg hcc, ih]
        rfl
    · rw [if_neg hgd]

theorem sinkF_occ (q : PriorityQueue α) (k : Nat) :
    ∀ fuel, occ q → 1 ≤ k → occ (q.sinkF k fuel) := by
  intro fuel
  induction fuel generalizing q k with
  | zero => intro hocc _; exact hocc
  | succ n ih =>
    intro hocc hk1
    simp only [sinkF]
    by_cases hgd : 2 * k ≤ q.count
    · rw [if_pos hgd]
      by_cases hcc : q.comp (if 2 * k < q.count ∧ q.comp (2 * k) (2 * k + 1) = true
          then 2 * k + 1 else 2 * k) k = true
      · rw [if_pos hcc]
        exact hocc
      · rw [if_neg hcc]
        by_cases hcj : 2 * k < q.count ∧ q.comp (2 * k) (2 * k + 1) = true
        · rw [if_pos hcj] at hcc ⊢
          exact ih _ _ (swap_occ hocc (by omega) (by omega) hk1 (by omega)) (by omega)
        · rw [if_neg hcj] at hcc ⊢
          exact ih _ _ (swap_occ hocc (by omega) hgd hk1 (by omega)) (by omega)
    · rw [if_neg hgd]
      exact hocc

theorem sinkF_heapOrd :
    ∀ (fuel : Nat) (q : PriorityQueue α) (k : Nat), IsSWO q.compare → occ q →
    1 ≤ k → q.count + 1 ≤ fuel + k →
    ExceptBelow q k → ParentDom q k → heapOrd (q.sinkF k fuel) := by
  intro fuel
  induction fuel with
  | zero =>
    intro q k _ _ _ hfuel ha _
    show heapOrd q
    intro m hm2 hmc
    exact ha m hm2 hmc (by omega) (by omega)
  | succ n ih =>
    intro q k hswo hocc hk1 hfuel ha hb
    simp only [sinkF]
    by_cases hgd : 2 * k ≤ q.count
    · rw [if_pos hgd]
      by_cases hcj : 2 * k < q.count ∧ q.comp (2 * k) (2 * k + 1) = true
      · -- the right child is preferred: j = 2k + 1
        rw [if_pos hcj]
        by_cases hcc : q.comp (2 * k + 1) k = true
        · rw [if_pos hcc]
          intro m hm2 hmc
          by_cases hmj : m = 2 * k + 1
          · subst hmj
            rw [show (2 * k + 1) / 2 = k by omega]
            exact comp_true_asymm hswo hcc
          · by_cases hmo : m = 2 * k
            · subst hmo
              rw [show 2 * k / 2 = k by omega]
              exact comp_true_asymm hswo (comp_true_trans hswo hcj.2 hcc)
            · exact ha m hm2 hmc hmo hmj
        · rw [if_neg hcc]
          have hcf : q.comp (2 * k + 1) k = false := by
            cases h : q.comp (2 * k + 1) k
            · rfl
            · exact absurd h hcc
          refine ih (q.swap (2 * k + 1) k) (2 * k + 1) hswo
            (swap_occ hocc (by omega) (by omega) hk1 (by omega)) (by omega)
            (show (q.swap (2 * k + 1) k).count + 1 ≤ n + (2 * k + 1) by
              rw [swap_count]; omega) ?_ ?_
          · -- ExceptBelow (swap) (2k + 1)
            intro m hm2 hmc hm1 hm2'
            rw [swap_count] at hmc
            rw [swap_comp]
            by_cases hmj : m = 2 * k + 1
            · subst hmj
              rw [if_neg (show ¬ (2 * k + 1) = k by omega), if_pos rfl,
                show (2 * k + 1) / 2 = k by omega, if_pos rfl]
              exact hcf
            · by_cases hmk : m = k
              · rw [if_pos hmk, if_neg (show ¬ m / 2 = k by omega),
                  if_neg (show ¬ m / 2 = 2 * k + 1 by omega)]
                have hpd := hb (by omega) (2 * k + 1) (by omega) (by omega)
                rw [show m / 2 = k / 2 by omega]
                exact hpd
              · by_cases hmo : m = 2 * k
                · subst hmo
                  rw [if_neg (show ¬ 2 * k = k by omega),
                    if_neg (show ¬ 2 * k = 2 * k + 1 by omega),
                    show 2 * k / 2 = k by omega, if_pos rfl]
                  exact comp_true_asymm hswo hcj.2
                · rw [if_neg hmk, if_neg hmj,
                    if_neg (show ¬ m / 2 = k by omega),
                    if_neg (show ¬ m / 2 = 2 * k + 1 by omega)]
                  exact ha m hm2 hmc hmo hmj
          · -- ParentDom (swap) (2k + 1)
            intro _ m hm hmc
            rw [swap_count] at hmc
            rw [swap_comp]
            rw [show (2 * k + 1) / 2 = k by omega, if_pos rfl,
              if_neg (show ¬ m = k by omega), if_neg (show ¬ m = 2 * k + 1 by omega)]
            have := ha m (by omega) hmc (by omega) (by omega)
            rw [show m / 2 = 2 * k + 1 by omega] at this
            exact this
      · -- the left child is preferred: j = 2k
        rw [if_neg hcj]
        by_cases hcc : q.comp (2 * k) k = true
        · rw [if_pos hcc]
          intro m hm2 hmc
          by_cases hmj : m = 2 * k
          · subst hmj
            rw [show 2 * k / 2 = k by omega]
            exact comp_true_asymm hswo hcc
          · by_cases hmo : m = 2 * k + 1
            · subst hmo
              rw [show (2 * k + 1) / 2 = k by omega]
              have hlt : 2 * k < q.count := by omega
              have hrc : q.comp (2 * k) (2 * k + 1) = false := by
                cases h : q.comp (2 * k) (2 * k + 1)
                · rfl
                · exact absurd ⟨hlt, h⟩ hcj
              cases h : q.comp k (2 * k + 1)
              · rfl
              · exfalso
                have := comp_true_trans hswo hcc h
                rw [this] at hrc
                exact Bool.true_eq_false.mp hrc
            · exact ha m hm2 hmc hmj hmo
        · rw [if_neg hcc]
          have hcf : q.comp (2 * k) k = false := by
            cases h : q.comp (2 * k) k
            · rfl
            · exact absurd h hcc
          refine ih (q.swap (2 * k) k) (2 * k) hswo
            (swap_occ hocc (by omega) hgd hk1 (by omega)) (by omega)
            (show (q.swap (2 * k) k).count + 1 ≤ n + 2 * k by
              rw [swap_count]; omega) ?_ ?_
          · -- ExceptBelow (swap) (2k)
            intro m hm2 hmc hm1 hm2'
            rw [swap_count] at hmc
            rw [swap_comp]
            by_cases hmj : m = 2 * k
            · subst hmj
              rw [if_neg (show ¬ 2 * k = k by omega), if_pos rfl,
                show 2 * k / 2 = k by omega, if_pos rfl]
              exact hcf
            · by_cases hmk : m = k
              · rw [if_pos hmk, if_neg (show ¬ m / 2 = k by omega),
                  if_neg (show ¬ m / 2 = 2 * k by omega)]
                have hpd := hb (by omega) (2 * k) (by omega) (by omega)
                rw [show m / 2 = k / 2 by omega]
                exact hpd
              · by_cases hmo : m = 2 * k + 1
                · subst hmo
                  rw [if_neg (show ¬ 2 * k + 1 = k by omega),
                    if_neg (show ¬ 2 * k + 1 = 2 * k by omega),
                    show (2 * k + 1) / 2 = k by omega, if_pos rfl]
                  have hlt : 2 * k < q.count := by omega
                  have hrc : q.comp (2 * k) (2 * k + 1) = false := by
                    cases h : q.comp (2 * k) (2 * k + 1)
                    · rfl
                    · exact absurd ⟨hlt, h⟩ hcj
                  exact hrc
                · rw [if_neg hmk, if_neg hmj,
                    if_neg (show ¬ m / 2 = k by omega),
                    if_neg (show ¬ m / 2 = 2 * k by omega)]
                  exact ha m hm2 hmc hmj hmo
          · -- ParentDom (swap) (2k)
            intro _ m hm hmc
            rw [swap_count] at hmc
            rw [swap_comp]
            rw [show 2 * k / 2 = k by omega, if_pos rfl,
              if_neg (show ¬ m = k by omega), if_neg (show ¬ m = 2 * k by omega)]
            have := ha m (by omega) hmc (by omega) (by omega)
            rw [show m / 2 = 2 * k by omega] at this
            exact this
    · rw [if_neg hgd]
      intro m hm2 hmc
      exact ha m hm2 hmc (by omega) (by omega)

theorem heapOrd_parentDom {q : PriorityQueue α} (hswo : IsSWO q.compare) (hocc : occ q)
    (hord : heapOrd q) (k : Nat) : ParentDom q k := by
  intro hk2 m hm hmc
  have hkc : k ≤ q.count := by omega
  have h1 : q.comp (k / 2) k = false := hord k hk2 hkc
  have h2 : q.comp k m = false := by
    have := hord m (by omega) hmc
    rw [show m / 2 = k by omega] at this
    exact this
  exact comp_false_negTrans hswo (hocc (k / 2) (by omega) (by omega))
    (hocc k (by omega) hkc) (hocc m (by omega) hmc) h1 h2

theorem sink_heapOrd_full {q : PriorityQueue α} (hswo : IsSWO q.compare) (hocc : occ q)
    (hord : heapOrd q) {k : Nat} (hk1 : 1 ≤ k) : heapOrd (q.sink k) :=
  sinkF_heapOrd (q.count + 1) q k hswo hocc hk1 (by omega)
    (fun m hm2 hmc _ _ => hord m hm2 hmc) (heapOrd_parentDom hswo hocc hord k)

theorem resize_comp (q : PriorityQueue α) (c : Nat) {a b : Nat} (ha1 : 1 ≤ a)
    (hac : a ≤ q.count) (hb1 : 1 ≤ b) (hbc : b ≤ q.count) :
    (q.resize c).comp a b = q.comp a b :=
  comp_congr rfl (by simp [resize, ha1, hac]) (by simp [resize, hb1, hbc])

theorem resize_inv {q : PriorityQueue α} (hocc : occ q) (hord : heapOrd q) (c : Nat) :
    heapOrd (q.resize c) ∧ occ (q.resize c) ∧ (q.resize c).count = q.count ∧
    (q.resize c).compare = q.compare := by
  refine ⟨?_, ?_, rfl, rfl⟩
  · intro m hm2 hmc
    have hmc' : m ≤ q.count := hmc
    rw [resize_comp q c (by omega) (by omega) (by omega) hmc']
    exact hord m hm2 hmc'
  · intro n hn1 hnc
    have hnc' : n ≤ q.count := hnc
    show (if 1 ≤ n ∧ n ≤ q.count then q.pq n else none).isSome = true
    rw [if_pos ⟨hn1, hnc'⟩]
    exact hocc n hn1 hnc'

theorem push_inv {q : PriorityQueue α} (hswo : IsSWO q.compare) (hocc : occ q)
    (hord : heapOrd q) (key : α) :
    heapOrd (q.push key) ∧ occ (q.push key) ∧ (q.push key).count = q.count + 1 ∧
    (q.push key).compare = q.compare := by
  have main : ∀ q0 : PriorityQueue α, IsSWO q0.compare → occ q0 → heapOrd q0 →
      heapOrd ((⟨q0.compare, q0.capacity, q0.count + 1,
          Function.update q0.pq (q0.count + 1) (some key)⟩ : PriorityQueue α).swim
          (q0.count + 1)) ∧
      occ ((⟨q0.compare, q0.capacity, q0.count + 1,
          Function.update q0.pq (q0.count + 1) (some key)⟩ : PriorityQueue α).swim
          (q0.count + 1)) ∧
      ((⟨q0.compare, q0.capacity, q0.count + 1,
          Function.update q0.pq (q0.count + 1) (some key)⟩ : PriorityQueue α).swim
          (q0.count + 1)).count = q0.count + 1 ∧
      ((⟨q0.compare, q0.capacity, q0.count + 1,
          Function.update q0.pq (q0.count + 1) (some key)⟩ : PriorityQueue α).swim
          (q0.count + 1)).compare = q0.compare := by
    intro q0 hswo0 hocc0 hord0
    set q1 : PriorityQueue α := ⟨q0.compare, q0.capacity, q0.count + 1,
      Function.update q0.pq (q0.count + 1) (some key)⟩ with hq1
    have hocc1 : occ q1 := by
      intro n hn1 hnc
      show (Function.update q0.pq (q0.count + 1) (some key) n).isSome = true
      by_cases hn : n = q0.count + 1
      · subst hn
        rw [Function.update_same]
        rfl
      · rw [Function.update_noteq hn]
        exact hocc0 n hn1 (by
          have : n ≤ q0.count + 1 := hnc
          omega)
    have hcomp1 : ∀ a b, 1 ≤ a → a ≤ q0.count → 1 ≤ b → b ≤ q0.count →
        q1.comp a b = q0.comp a b := by
      intro a b ha1 hac hb1 hbc
      exact comp_congr rfl (Function.update_noteq (by omega) _ _)
        (Function.update_noteq (by omega) _ _)
    have ha1 : ExceptAt q1 (q0.count + 1) := by
      intro m hm2 hmc hmk
      have hm' : m ≤ q0.count := by
        have : m ≤ q0.count + 1 := hmc
        omega
      rw [hcomp1 (m / 2) m (by omega) (by omega) (by omega) hm']
      exact hord0 m hm2 hm'
    have hb1 : ParentDom q1 (q0.count + 1) := by
      intro _ m hm hmc
      have : m ≤ q0.count + 1 := hmc
      omega
    have hcount1 : q1.count = q0.count + 1 := rfl
    refine ⟨?_, ?_, ?_, ?_⟩
    · exact swimF_heapOrd (q0.count + 1) q1 (q0.count + 1) hswo0 hocc1 (by omega)
        (by rw [hcount1]) (by omega) ha1 hb1
    · exact swimF_occ q1 (q0.count + 1) (q0.count + 1) hocc1 (by rw [hcount1])
    · rw [show (q1.swim (q0.count+1)) = q1.swimF (q0.count+1) (q0.count+1) from rfl,
        swimF_count, hcount1]
    · rw [show (q1.swim (q0.count+1)) = q1.swimF (q0.count+1) (q0.count+1) from rfl,
        swimF_compare]
  by_cases hcap : q.count = q.capacity - 1
  · have hres := resize_inv hocc hord (2 * q.capacity)
    have h0 := main (q.resize (2 * q.capacity)) (by rw [hres.2.2.2]; exact hswo)
      hres.2.1 hres.1
    show heapOrd _ ∧ _
    simp only [push, if_pos hcap]
    refine ⟨h0.1, h0.2.1, ?_, ?_⟩
    · rw [show (q.resize (2 * q.capacity)).count = q.count from rfl] at h0
      exact h0.2.2.1
    · rw [hres.2.2.2] at h0
      exact h0.2.2.2
  · have h0 := main q hswo hocc hord
    show heapOrd _ ∧ _
    simp only [push, if_neg hcap]
    exact h0

theorem pop_inv {q : PriorityQueue α} (hswo : IsSWO q.compare) (hocc : occ q)
    (hord : heapOrd q) :
    heapOrd q.pop ∧ occ q.pop ∧ q.pop.count = q.count - 1 ∧ q.pop.compare = q.compare := by
  set q1 : PriorityQueue α := { q.swap 1 q.count with count := q.count - 1 } with hq1
  have hocc1 : occ q1 := by
    intro n hn1 hnc
    have hnc' : n ≤ q.count - 1 := hnc
    show ((q.swap 1 q.count).pq n).isSome = true
    rw [swap_pq]
    by_cases h1 : n = q.count
    · omega
    · rw [if_neg h1]
      by_cases h2 : n = 1
      · rw [if_pos h2]
        exact hocc q.count (by omega) (by omega)
      · rw [if_neg h2]
        exact hocc n hn1 (by omega)
  have hcomp1 : ∀ a b, 1 ≤ a → a ≤ q.count - 1 → 1 ≤ b → b ≤ q.count - 1 → 2 ≤ b →
      q1.comp a b = q.comp a b ∨ (a = 1 ∨ b = 1) := by
    intro a b ha1 hac hb1 hbc hb2
    by_cases ha : a = 1
    · right; left; exact ha
    · left
      show (q.swap 1 q.count).comp a b = q.comp a b
      rw [swap_comp, if_neg (by omega), if_neg ha, if_neg (by omega), if_neg (by omega)]
  have ha1 : ExceptBelow q1 1 := by
    intro m hm2 hmc hm21 hm22
    have hmc' : m ≤ q.count - 1 := hmc
    show (q.swap 1 q.count).comp (m / 2) m = false
    rw [swap_comp, if_neg (show ¬ m / 2 = q.count by omega),
      if_neg (show ¬ m / 2 = 1 by omega), if_neg (show ¬ m = q.count by omega),
      if_neg (show ¬ m = 1 by omega)]
    exact hord m hm2 (by omega)
  have hb1 : ParentDom q1 1 := by
    intro h11
    omega
  have h2 : heapOrd (q1.sink 1) :=
    sinkF_heapOrd (q1.count + 1) q1 1 hswo hocc1 (by omega) (by omega) ha1 hb1
  have h2occ : occ (q1.sink 1) := sinkF_occ q1 1 (q1.count + 1) hocc1 (by omega)
  have h2count : (q1.sink 1).count = q.count - 1 := by
    rw [show q1.sink 1 = q1.sinkF 1 (q1.count + 1) from rfl, sinkF_count]
  have h2compare : (q1.sink 1).compare = q.compare := by
    rw [show q1.sink 1 = q1.sinkF 1 (q1.count + 1) from rfl, sinkF_compare]
    rfl
  show heapOrd _ ∧ _
  simp only [pop]
  by_cases hsh : 0 < (q1.sink 1).count ∧ (q1.sink 1).count = ((q1.sink 1).capacity - 1) / 4
  · rw [if_pos hsh]
    have hres := resize_inv h2occ h2 ((q1.sink 1).capacity / 2)
    refine ⟨hres.1, hres.2.1, ?_, ?_⟩
    · rw [hres.2.2.1, h2count]
    · rw [hres.2.2.2, h2compare]
  · rw [if_neg hsh]
    exact ⟨h2, h2occ, h2count, h2compare⟩

/-- The state invariant carried along any operation sequence. -/
theorem runOp_inv {q : PriorityQueue α} (h : IsSWO q.compare ∧ heapOrd q ∧ occ q)
    (op : PQOp α) :
    IsSWO (q.runOp op).compare ∧ heapOrd (q.runOp op) ∧ occ (q.runOp op) := by
  obtain ⟨hswo, hord, hocc⟩ := h
  cases op with
  | push key =>
    have hp := push_inv hswo hocc hord key
    exact ⟨by rw [show (runOp q (PQOp.push key)) = q.push key from rfl, hp.2.2.2]; exact hswo,
      hp.1, hp.2.1⟩
  | pop =>
    simp only [runOp]
    by_cases he : q.is_empty
    · rw [if_pos he]
      exact ⟨hswo, hord, hocc⟩
    · rw [if_neg he]
      have hp := pop_inv hswo hocc hord
      exact ⟨by rw [hp.2.2.2]; exact hswo, hp.1, hp.2.1⟩

theorem runOps_inv {q : PriorityQueue α} (h : IsSWO q.compare ∧ heapOrd q ∧ occ q)
    (ops : List (PQOp α)) :
    IsSWO (q.runOps ops).compare ∧ heapOrd (q.runOps ops) ∧ occ (q.runOps ops) := by
  induction ops generalizing q with
  | nil => exact h
  | cons op rest ih => exact ih (runOp_inv h op)

theorem init_inv {capacity : Nat} {cmp : α → α → Bool} (hswo : IsSWO cmp) :
    IsSWO (init capacity cmp : PriorityQueue α).compare ∧
    heapOrd (init capacity cmp : PriorityQueue α) ∧
    occ (init capacity cmp : PriorityQueue α) := by
  refine ⟨hswo, ?_, ?_⟩
  · intro m hm2 hmc
    have : m ≤ 0 := hmc
    omega
  · intro n hn1 hnc
    have : n ≤ 0 := hnc
    omega

end PriorityQueue

/-! ## PriorityIndexQueue heap-order lemmas (towards C5, C6, C10) -/

namespace PriorityIndexQueue

variable {α : Type}

theorem swap_count_ix (q : PriorityIndexQueue α) (i j : Nat) : (q.swap i j).count = q.count := rfl

theorem swap_compare_ix (q : PriorityIndexQueue α) (i j : Nat) :
    (q.swap i j).compare = q.compare := rfl

theorem swap_keys (q : PriorityIndexQueue α) (i j : Nat) : (q.swap i j).keys = q.keys := rfl

theorem swap_pq_ix (q : PriorityIndexQueue α) (i j n : Nat) :
    (q.swap i j).pq n = q.pq (if n = j then i else if n = i then j else n) := by
  by_cases h1 : n = j
  · subst h1
    by_cases h2 : n = i <;> simp [swap, h2]
  · by_cases h2 : n = i
    · subst h2
      simp [swap, h1]
    · simp [swap, h1, h2]

theorem comp_congr_ix {q q' : PriorityIndexQueue α} {a b a' b' : Nat}
    (h1 : q'.compare = q.compare) (ha : q'.keys (q'.pq a) = q.keys (q.pq a'))
    (hb : q'.keys (q'.pq b) = q.keys (q.pq b')) : q'.comp a b = q.comp a' b' := by
  unfold comp
  rw [h1, ha, hb]

theorem swap_comp_ix (q : PriorityIndexQueue α) (i j a b : Nat) :
    (q.swap i j).comp a b =
      q.comp (if a = j then i else if a = i then j else a)
        (if b = j then i else if b = i then j else b) :=
  comp_congr_ix rfl (by rw [swap_keys, swap_pq_ix]) (by rw [swap_keys, swap_pq_ix])

theorem swap_occK {q : PriorityIndexQueue α} {i j : Nat} (hocc : occK q) (hi1 : 1 ≤ i)
    (hic : i ≤ q.count) (hj1 : 1 ≤ j) (hjc : j ≤ q.count) : occK (q.swap i j) := by
  intro n hn1 hnc
  rw [swap_keys, swap_pq_ix]
  by_cases h1 : n = j
  · rw [if_pos h1]
    exact hocc i hi1 hic
  · rw [if_neg h1]
    by_cases h2 : n = i
    · rw [if_pos h2]
      exact hocc j hj1 hjc
    · rw [if_neg h2]
      exact hocc n hn1 hnc

theorem comp_true_asymm_ix {q : PriorityIndexQueue α} (hswo : IsSWO q.compare) {a b : Nat}
    (h : q.comp a b = true) : q.comp b a = false := by
  rcases hqa : q.keys (q.pq a) with _ | x <;> rcases hqb : q.keys (q.pq b) with _ | y <;>
      simp [comp, hqa, hqb] at h ⊢
  exact hswo.asymm x y h

theorem comp_true_trans_ix {q : PriorityIndexQueue α} (hswo : IsSWO q.compare) {a b c : Nat}
    (h1 : q.comp a b = true) (h2 : q.comp b c = true) : q.comp a c = true := by
  rcases hqa : q.keys (q.pq a) with _ | x <;> rcases hqb : q.keys (q.pq b) with _ | y <;>
      rcases hqc : q.keys (q.pq c) with _ | z <;> simp [comp, hqa, hqb, hqc] at h1 h2 ⊢
  exact hswo.trans x y z h1 h2

theorem comp_false_negTrans_ix {q : PriorityIndexQueue α} (hswo : IsSWO q.compare) {a b c : Nat}
    (ha : (q.keys (q.pq a)).isSome = true) (hb : (q.keys (q.pq b)).isSome = true)
    (hc : (q.keys (q.pq c)).isSome = true)
    (h1 : q.comp a b = false) (h2 : q.comp b c = false) : q.comp a c = false := by
  obtain ⟨x, hx⟩ := Option.isSome_iff_exists.mp ha
  obtain ⟨y, hy⟩ := Option.isSome_iff_exists.mp hb
  obtain ⟨z, hz⟩ := Option.isSome_iff_exists.mp hc
  unfold comp at h1 h2 ⊢
  rw [hx, hy] at h1
  rw [hy, hz] at h2
  rw [hx, hz]
  exact hswo.negTrans x y z h1 h2

theorem swimF_count_ix (q : PriorityIndexQueue α) (k : Nat) :
    ∀ fuel, (q.swimF k fuel).count = q.count := by
  intro fuel
  induction fuel generalizing q k with
  | zero => rfl
  | succ n ih =>
    simp only [swimF]
    by_cases hg : 1 < k ∧ q.comp (k / 2) k = true
    · rw [if_pos hg, ih]
      rfl
    · rw [if_neg hg]

theorem swimF_compare_ix (q : PriorityIndexQueue α) (k : Nat) :
    ∀ fuel, (q.swimF k fuel).compare = q.compare := by
  intro fuel
  induction fuel generalizing q k with
  | zero => rfl
  | succ n ih =>
    simp only [swimF]
    by_cases hg : 1 < k ∧ q.comp (k / 2) k = true
    · rw [if_pos hg, ih]
      rfl
    · rw [if_neg hg]

theorem swimF_keys (q : PriorityIndexQueue α) (k : Nat) :
    ∀ fuel, (q.swimF k fuel).keys = q.keys := by
  intro fuel
  induction fuel generalizing q k with
  | zero => rfl
  | succ n ih =>
    simp only [swimF]
    by_cases hg : 1 < k ∧ q.comp (k / 2) k = true
    · rw [if_pos hg, ih]
      rfl
    · rw [if_neg hg]

theorem swimF_occK (q : PriorityIndexQueue α) (k : Nat) :
    ∀ fuel, occK q → k ≤ q.count → occK (q.swimF k fuel) := by
  intro fuel
  induction fuel generalizing q k with
  | zero => intro hocc _; exact hocc
  | succ n ih =>
    intro hocc hkc
    simp only [swimF]
    by_cases hg : 1 < k ∧ q.comp (k / 2) k = true
    · rw [if_pos hg]
      exact ih _ _ (swap_occK hocc (by omega) (by omega) (by omega) hkc)
        (show k / 2 ≤ (q.swap (k / 2) k).count by rw [swap_count_ix]; omega)
    · rw [if_neg hg]
      exact hocc

theorem sinkF_count_ix (q : PriorityIndexQueue α) (k : Nat) :
    ∀ fuel, (q.sinkF k fuel).count = q.count := by
  intro fuel
  induction fuel generalizing q k with
  | zero => rfl
  | succ n ih =>
    simp only [sinkF]
    by_cases hgd : 2 * k ≤ q.count
    · rw [if_pos hgd]
      by_cases hcc : q.comp (if 2 * k < q.count ∧ q.comp (2 * k) (2 * k + 1) = true
          then 2 * k + 1 else 2 * k) k = true
      · rw [if_pos hcc]
      · rw [if_neg hcc, ih]
        rfl
    · rw [if_neg hgd]

theorem sinkF_compare_ix (q : PriorityIndexQueue α) (k : Nat) :
    ∀ fuel, (q.sinkF k fuel).compare = q.compare := by
  intro fuel
  induction fuel generalizing q k with
  | zero => rfl
  | succ n ih =>
    simp only [sinkF]
    by_cases hgd : 2 * k ≤ q.count
    · rw [if_pos hgd]
      by_cases hcc : q.comp (if 2 * k < q.count ∧ q.comp (2 * k) (2 * k + 1) = true
          then 2 * k + 1 else 2 * k) k = true
      · rw [if_pos hcc]
      · rw [if_neg hcc, ih]
        rfl
    · rw [if_neg hgd]

theorem sinkF_keys (q : PriorityIndexQueue α) (k : Nat) :
    ∀ fuel, (q.sinkF k fuel).keys = q.keys := by
  intro fuel
  induction fuel generalizing q k with
  | zero => rfl
  | succ n ih =>
    simp only [sinkF]
    by_cases hgd : 2 * k ≤ q.count
    · rw [if_pos hgd]
      by_cases hcc : q.comp (if 2 * k < q.count ∧ q.comp (2 * k) (2 * k + 1) = true
          then 2 * k + 1 else 2 * k) k = true
      · rw [if_pos hcc]
      · rw [if_neg hcc, ih]
        rfl
    · rw [if_neg hgd]

theorem sinkF_occK (q : PriorityIndexQueue α) (k : Nat) :
    ∀ fuel, occK q → 1 ≤ k → occK (q.sinkF k fuel) := by
  intro fuel
  induction fuel generalizing q k with
  | zero => intro hocc _; exact hocc
  | succ n ih =>
    intro hocc hk1
    simp only [sinkF]
    by_cases hgd : 2 * k ≤ q.count
    · rw [if_pos hgd]
      by_cases hcc : q.comp (if 2 * k < q.count ∧ q.comp (2 * k) (2 * k + 1) = true
          then 2 * k + 1 else 2 * k) k = true
      · rw [if_pos hcc]
        exact hocc
      · rw [if_neg hcc]
        by_cases hcj : 2 * k < q.count ∧ q.comp (2 * k) (2 * k + 1) = true
        · rw [if_pos hcj] at hcc ⊢
          exact ih _ _ (swap_occK hocc (by omega) (by omega) hk1 (by omega)) (by omega)
        · rw [if_neg hcj] at hcc ⊢
          exact ih _ _ (swap_occK hocc (by omega) hgd hk1 (by omega)) (by omega)
    · rw [if_neg hgd]
      exact hocc

theorem swimF_heapOrd_ix :
    ∀ (fuel : Nat) (q : PriorityIndexQueue α) (k : Nat), IsSWO q.compare → occK q →
    1 ≤ k → k ≤ q.count → k ≤ fuel →
    ExceptAt q k → ParentDom q k → heapOrd (q.swimF k fuel) := by
  intro fuel
  induction fuel with
  | zero =>
    intro q k _ _ hk1 _ hfuel _ _
    omega
  | succ n ih =>
    intro q k hswo hocc hk1 hkc hfuel ha hc
    simp only [swimF]
    by_cases hg : 1 < k ∧ q.comp (k / 2) k = true
    · rw [if_pos hg]
      have hk2 : 2 ≤ k := hg.1
      have hocc' : occK (q.swap (k / 2) k) :=
        swap_occK hocc (by omega) (by omega) (by omega) hkc
      refine ih (q.swap (k / 2) k) (k / 2) hswo hocc' (by omega)
        (show k / 2 ≤ (q.swap (k / 2) k).count by rw [swap_count_ix]; omega)
        (by omega) ?_ ?_
      · intro m hm2 hmc hmk'
        rw [swap_count_ix] at hmc
        rw [swap_comp_ix]
        by_cases hmk : m = k
        · subst hmk
          rw [if_pos rfl, if_neg (show ¬ m / 2 = m by omega), if_pos rfl]
          exact comp_true_asymm_ix hswo hg.2
        · by_cases hsib : m / 2 = k / 2
          · rw [if_neg hmk, if_neg (show ¬ m = k / 2 by omega)]
            rw [hsib, if_neg (show ¬ k / 2 = k by omega), if_pos rfl]
            cases hcm : q.comp k m with
            | false => rfl
            | true =>
              exfalso
              have h1 : q.comp (k / 2) m = true := comp_true_trans_ix hswo hg.2 hcm
              have h2 : q.comp (m / 2) m = false := ha m hm2 hmc hmk
              rw [hsib] at h2
              rw [h1] at h2
              exact Bool.true_eq_false.mp h2
          · by_cases hchild : m / 2 = k
            · rw [if_neg hmk, if_neg (show ¬ m = k / 2 by omega)]
              rw [hchild, if_pos rfl]
              exact hc hg.1 m (by omega) hmc
            · rw [if_neg hmk, if_neg (show ¬ m = k / 2 from hmk'),
                if_neg hchild, if_neg hsib]
              exact ha m hm2 hmc hmk
      · intro hk'2 m hm hmc
        rw [swap_count_ix] at hmc
        rw [swap_comp_ix]
        have hkk : 4 ≤ k := by omega
        rw [if_neg (show ¬ k / 2 / 2 = k by omega), if_neg (show ¬ k / 2 / 2 = k / 2 by omega)]
        have hek' : q.comp (k / 2 / 2) (k / 2) = false := ha (k / 2) (by omega) (by omega)
          (by omega)
        by_cases hmk : m = k
        · subst hmk
          rw [if_pos rfl]
          exact hek'
        · rw [if_neg hmk, if_neg (show ¬ m = k / 2 by omega)]
          have hem : q.comp (k / 2) m = false := by
            have := ha m (by omega) hmc hmk
            rw [show m / 2 = k / 2 by omega] at this
            exact this
          exact comp_false_negTrans_ix hswo
            (hocc (k / 2 / 2) (by omega) (by omega))
            (hocc (k / 2) (by omega) (by omega))
            (hocc m (by omega) hmc)
            hek' hem
    · rw [if_neg hg]
      intro m hm2 hmc
      by_cases hmk : m = k
      · subst hmk
        rcases Decidable.not_and_iff_or_not.mp hg with h | h
        · omega
        · exact Bool.not_eq_true _ |>.mp h
      · exact ha m hm2 hmc hmk

theorem sinkF_heapOrd_ix :
    ∀ (fuel : Nat) (q : PriorityIndexQueue α) (k : Nat), IsSWO q.compare → occK q →
    1 ≤ k → q.count + 1 ≤ fuel + k →
    ExceptBelow q k → ParentDom q k → heapOrd (q.sinkF k fuel) := by
  intro fuel
  induction fuel with
  | zero =>
    intro q k _ _ _ hfuel ha _
    show heapOrd q
    intro m hm2 hmc
    exact ha m hm2 hmc (by omega) (by omega)
  | succ n ih =>
    intro q k hswo hocc hk1 hfuel ha hb
    simp only [sinkF]
    by_cases hgd : 2 * k ≤ q.count
    · rw [if_pos hgd]
      by_cases hcj : 2 * k < q.count ∧ q.comp (2 * k) (2 * k + 1) = true
      · rw [if_pos hcj]
        by_cases hcc : q.comp (2 * k + 1) k = true
        · rw [if_pos hcc]
          intro m hm2 hmc
          by_cases hmj : m = 2 * k + 1
          · subst hmj
            rw [show (2 * k + 1) / 2 = k by omega]
            exact comp_true_asymm_ix hswo hcc
          · by_cases hmo : m = 2 * k
            · subst hmo
              rw [show 2 * k / 2 = k by omega]
              exact comp_true_asymm_ix hswo (comp_true_trans_ix hswo hcj.2 hcc)
            · exact ha m hm2 hmc hmo hmj
        · rw [if_neg hcc]
          have hcf : q.comp (2 * k + 1) k = false := by
            cases h : q.comp (2 * k + 1) k
            · rfl
            · exact absurd h hcc
          refine ih (q.swap (2 * k + 1) k) (2 * k + 1) hswo
            (swap_occK hocc (by omega) (by omega) hk1 (by omega)) (by omega)
            (show (q.swap (2 * k + 1) k).count + 1 ≤ n + (2 * k + 1) by
              rw [swap_count_ix]; omega) ?_ ?_
          · intro m hm2 hmc hm1 hm2'
            rw [swap_count_ix] at hmc
            rw [swap_comp_ix]
            by_cases hmj : m = 2 * k + 1
            · subst hmj
              rw [if_neg (show ¬ (2 * k + 1) = k by omega), if_pos rfl,
                show (2 * k + 1) / 2 = k by omega, if_pos rfl]
              exact hcf
            · by_cases hmk : m = k
              · rw [if_pos hmk, if_neg (show ¬ m / 2 = k by omega),
                  if_neg (show ¬ m / 2 = 2 * k + 1 by omega)]
                have hpd := hb (by omega) (2 * k + 1) (by omega) (by omega)
                rw [show m / 2 = k / 2 by omega]
                exact hpd
              · by_cases hmo : m = 2 * k
                · subst hmo
                  rw [if_neg (show ¬ 2 * k = k by omega),
                    if_neg (show ¬ 2 * k = 2 * k + 1 by omega),
                    show 2 * k / 2 = k by omega, if_pos rfl]
                  exact comp_true_asymm_ix hswo hcj.2
                · rw [if_neg hmk, if_neg hmj,
                    if_neg (show ¬ m / 2 = k by omega),
                    if_neg (show ¬ m / 2 = 2 * k + 1 by omega)]
                  exact ha m hm2 hmc hmo hmj
          · intro _ m hm hmc
            rw [swap_count_ix] at hmc
            rw [swap_comp_ix]
            rw [show (2 * k + 1) / 2 = k by omega, if_pos rfl,
              if_neg (show ¬ m = k by omega), if_neg (show ¬ m = 2 * k + 1 by omega)]
            have := ha m (by omega) hmc (by omega) (by omega)
            rw [show m / 2 = 2 * k + 1 by omega] at this
            exact this
      · rw [if_neg hcj]
        by_cases hcc : q.comp (2 * k) k = true
        · rw [if_pos hcc]
          intro m hm2 hmc
          by_cases hmj : m = 2 * k
          · subst hmj
            rw [show 2 * k / 2 = k by omega]
            exact comp_true_asymm_ix hswo hcc
          · by_cases hmo : m = 2 * k + 1
            · subst hmo
              rw [show (2 * k + 1) / 2 = k by omega]
              have hlt : 2 * k < q.count := by omega
              have hrc : q.comp (2 * k) (2 * k + 1) = false := by
                cases h : q.comp (2 * k) (2 * k + 1)
                · rfl
                · exact absurd ⟨hlt, h⟩ hcj
              cases h : q.comp k (2 * k + 1)
              · rfl
              · exfalso
                have := comp_true_trans_ix hswo hcc h
                rw [this] at hrc
                exact Bool.true_eq_false.mp hrc
            · exact ha m hm2 hmc hmj hmo
        · rw [if_neg hcc]
          have hcf : q.comp (2 * k) k = false := by
            cases h : q.comp (2 * k) k
            · rfl
            · exact absurd h hcc
          refine ih (q.swap (2 * k) k) (2 * k) hswo
            (swap_occK hocc (by omega) hgd hk1 (by omega)) (by omega)
            (show (q.swap (2 * k) k).count + 1 ≤ n + 2 * k by
              rw [swap_count_ix]; omega) ?_ ?_
          · intro m hm2 hmc hm1 hm2'
            rw [swap_count_ix] at hmc
            rw [swap_comp_ix]
            by_cases hmj : m = 2 * k
            · subst hmj
              rw [if_neg (show ¬ 2 * k = k by omega), if_pos rfl,
                show 2 * k / 2 = k by omega, if_pos rfl]
              exact hcf
            · by_cases hmk : m = k
              · rw [if_pos hmk, if_neg (show ¬ m / 2 = k by omega),
                  if_neg (show ¬ m / 2 = 2 * k by omega)]
                have hpd := hb (by omega) (2 * k) (by omega) (by omega)
                rw [show m / 2 = k / 2 by omega]
                exact hpd
              · by_cases hmo : m = 2 * k + 1
                · subst hmo
                  rw [if_neg (show ¬ 2 * k + 1 = k by omega),
                    if_neg (show ¬ 2 * k + 1 = 2 * k by omega),
                    show (2 * k + 1) / 2 = k by omega, if_pos rfl]
                  have hlt : 2 * k < q.count := by omega
                  cases h : q.comp (2 * k) (2 * k + 1)
                  · rfl
                  · exact absurd ⟨hlt, h⟩ hcj
                · rw [if_neg hmk, if_neg hmj,
                    if_neg (show ¬ m / 2 = k by omega),
                    if_neg (show ¬ m / 2 = 2 * k by omega)]
                  exact ha m hm2 hmc hmj hmo
          · intro _ m hm hmc
            rw [swap_count_ix] at hmc
            rw [swap_comp_ix]
            rw [show 2 * k / 2 = k by omega, if_pos rfl,
              if_neg (show ¬ m = k by omega), if_neg (show ¬ m = 2 * k by omega)]
            have := ha m (by omega) hmc (by omega) (by omega)
            rw [show m / 2 = 2 * k by omega] at this
            exact this
    · rw [if_neg hgd]
      intro m hm2 hmc
      exact ha m hm2 hmc (by omega) (by omega)

theorem heapOrd_parentDom_ix {q : PriorityIndexQueue α} (hswo : IsSWO q.compare) (hocc : occK q)
    (hord : heapOrd q) (k : Nat) : ParentDom q k := by
  intro hk2 m hm hmc
  have hkc : k ≤ q.count := by omega
  have h1 : q.comp (k / 2) k = false := hord k hk2 hkc
  have h2 : q.comp k m = false := by
    have := hord m (by omega) hmc
    rw [show m / 2 = k by omega] at this
    exact this
  exact comp_false_negTrans_ix hswo (hocc (k / 2) (by omega) (by omega))
    (hocc k (by omega) hkc) (hocc m (by omega) hmc) h1 h2

theorem sink_heapOrd_full_ix {q : PriorityIndexQueue α} (hswo : IsSWO q.compare) (hocc : occK q)
    (hord : heapOrd q) {k : Nat} (hk1 : 1 ≤ k) : heapOrd (q.sink k) :=
  sinkF_heapOrd_ix (q.count + 1) q k hswo hocc hk1 (by omega)
    (fun m hm2 hmc _ _ => hord m hm2 hmc) (heapOrd_parentDom_ix hswo hocc hord k)

theorem posInvOn_occK {q : PriorityIndexQueue α} {good : Int → Prop}
    (hpos : posInvOn q good) : occK q := by
  intro s hs1 hsc
  obtain ⟨h1, _, h3⟩ := hpos
  have hh := h1 s hs1 hsc
  refine h3 (q.pq s) hh.1 ?_
  rw [hh.2]
  omega

theorem swap_qp (q : PriorityIndexQueue α) (i j : Nat) (x : Int) :
    (q.swap i j).qp x =
      if x = q.pq i then (j : Int) else if x = q.pq j then (i : Int) else q.qp x := by
  simp only [swap, Function.update_apply]
  by_cases hij : i = j
  · subst hij
    by_cases hx : x = q.pq i <;> simp [hx]
  · simp only [if_neg hij, eq_self_iff_true, if_true]

theorem swap_posInvOn {q : PriorityIndexQueue α} {good : Int → Prop} {i j : Nat}
    (hpos : posInvOn q good) (hi1 : 1 ≤ i) (hic : i ≤ q.count) (hj1 : 1 ≤ j)
    (hjc : j ≤ q.count) : posInvOn (q.swap i j) good := by
  obtain ⟨h1, h2, h3⟩ := hpos
  have hinj : ∀ s t, 1 ≤ s → s ≤ q.count → 1 ≤ t → t ≤ q.count → q.pq s = q.pq t →
      s = t := by
    intro s t hs1 hsc ht1 htc he
    have e1 := (h1 s hs1 hsc).2
    have e2 := (h1 t ht1 htc).2
    rw [he, e2] at e1
    omega
  refine ⟨?_, ?_, ?_⟩
  · intro s hs1 hsc
    have hsc' : s ≤ q.count := hsc
    rw [swap_pq_ix, swap_qp]
    by_cases hsj : s = j
    · rw [if_pos hsj, if_pos rfl]
      exact ⟨(h1 i hi1 hic).1, by rw [hsj]⟩
    · rw [if_neg hsj]
      by_cases hsi : s = i
      · rw [if_pos hsi]
        have hne : q.pq j ≠ q.pq i := by
          intro he
          exact hsj (by rw [hsi, hinj j i hj1 hjc hi1 hic he])
        rw [if_neg hne, if_pos rfl]
        exact ⟨(h1 j hj1 hjc).1, by rw [hsi]⟩
      · rw [if_neg hsi]
        have hne1 : q.pq s ≠ q.pq i := fun he => hsi (hinj s i hs1 hsc' hi1 hic he)
        have hne2 : q.pq s ≠ q.pq j := fun he => hsj (hinj s j hs1 hsc' hj1 hjc he)
        rw [if_neg hne1, if_neg hne2]
        exact h1 s hs1 hsc'
  · intro x hgx hne
    rw [swap_qp] at hne ⊢
    by_cases hx1 : x = q.pq i
    · refine ⟨j, hj1, hjc, ?_, ?_⟩
      · rw [if_pos hx1]
      · rw [swap_pq_ix, if_pos rfl]
        exact hx1.symm
    · rw [if_neg hx1] at hne ⊢
      by_cases hx2 : x = q.pq j
      · refine ⟨i, hi1, hic, ?_, ?_⟩
        · rw [if_pos hx2]
        · rw [swap_pq_ix]
          by_cases hij : i = j
          · rw [if_pos hij, hij]
            exact hx2.symm
          · rw [if_neg hij, if_pos rfl]
            exact hx2.symm
      · rw [if_neg hx2] at hne ⊢
        obtain ⟨s, hs1, hsc, hqs, hps⟩ := h2 x hgx hne
        have hsi : s ≠ i := fun he => hx1 (by rw [← hps, he])
        have hsj : s ≠ j := fun he => hx2 (by rw [← hps, he])
        refine ⟨s, hs1, hsc, hqs, ?_⟩
        rw [swap_pq_ix, if_neg hsj, if_neg hsi]
        exact hps
  · intro x hgx hne
    rw [show (q.swap i j).keys = q.keys from rfl]
    rw [swap_qp] at hne
    by_cases hx1 : x = q.pq i
    · refine h3 x hgx ?_
      rw [hx1, (h1 i hi1 hic).2]
      omega
    · rw [if_neg hx1] at hne
      by_cases hx2 : x = q.pq j
      · refine h3 x hgx ?_
        rw [hx2, (h1 j hj1 hjc).2]
        omega
      · rw [if_neg hx2] at hne
        exact h3 x hgx hne

theorem swimF_posInvOn {good : Int → Prop} (q : PriorityIndexQueue α) (k : Nat) :
    ∀ fuel, posInvOn q good → k ≤ q.count → posInvOn (q.swimF k fuel) good := by
  intro fuel
  induction fuel generalizing q k with
  | zero => intro h _; exact h
  | succ n ih =>
    intro h hkc
    simp only [swimF]
    by_cases hg : 1 < k ∧ q.comp (k / 2) k = true
    · rw [if_pos hg]
      exact ih _ _ (swap_posInvOn h (by omega) (by omega) (by omega) hkc)
        (show k / 2 ≤ (q.swap (k / 2) k).count by rw [swap_count_ix]; omega)
    · rw [if_neg hg]
      exact h

theorem sinkF_posInvOn {good : Int → Prop} (q : PriorityIndexQueue α) (k : Nat) :
    ∀ fuel, posInvOn q good → 1 ≤ k → posInvOn (q.sinkF k fuel) good := by
  intro fuel
  induction fuel generalizing q k with
  | zero => intro h _; exact h
  | succ n ih =>
    intro h hk1
    simp only [sinkF]
    by_cases hgd : 2 * k ≤ q.count
    · rw [if_pos hgd]
      by_cases hcc : q.comp (if 2 * k < q.count ∧ q.comp (2 * k) (2 * k + 1) = true
          then 2 * k + 1 else 2 * k) k = true
      · rw [if_pos hcc]
        exact h
      · rw [if_neg hcc]
        by_cases hcj : 2 * k < q.count ∧ q.comp (2 * k) (2 * k + 1) = true
        · rw [if_pos hcj] at hcc ⊢
          exact ih _ _ (swap_posInvOn h (by omega) (by omega) hk1 (by omega)) (by omega)
        · rw [if_neg hcj] at hcc ⊢
          exact ih _ _ (swap_posInvOn h (by omega) hgd hk1 (by omega)) (by omega)
    · rw [if_neg hgd]
      exact h

theorem posInvOn_inj {q : PriorityIndexQueue α} {good : Int → Prop} (hpos : posInvOn q good)
    {s t : Nat} (hs1 : 1 ≤ s) (hsc : s ≤ q.count) (ht1 : 1 ≤ t) (htc : t ≤ q.count)
    (he : q.pq s = q.pq t) : s = t := by
  have e1 := (hpos.1 s hs1 hsc).2
  have e2 := (hpos.1 t ht1 htc).2
  rw [he, e2] at e1
  omega

theorem posInvOn_congr {q : PriorityIndexQueue α} {good good' : Int → Prop}
    (hpos : posInvOn q good) (h : ∀ x, good x ↔ good' x) : posInvOn q good' := by
  obtain ⟨h1, h2, h3⟩ := hpos
  exact ⟨fun s hs1 hsc => ⟨(h _).mp (h1 s hs1 hsc).1, (h1 s hs1 hsc).2⟩,
    fun x hgx hne => h2 x ((h x).mpr hgx) hne,
    fun x hgx hne => h3 x ((h x).mpr hgx) hne⟩

theorem shrink_posInvOn {q : PriorityIndexQueue α} {good : Int → Prop}
    (hpos : posInvOn q good) (hc1 : 1 ≤ q.count) :
    posInvOn { q with count := q.count - 1 } (fun x => good x ∧ x ≠ q.pq q.count) := by
  refine ⟨?_, ?_, ?_⟩
  · intro s hs1 hsc
    have hsc' : s ≤ q.count - 1 := hsc
    have hh := hpos.1 s hs1 (by omega)
    refine ⟨⟨hh.1, fun he => ?_⟩, hh.2⟩
    have := posInvOn_inj hpos hs1 (by omega) hc1 (Nat.le_refl _) he
    omega
  · intro x hgx hne
    obtain ⟨s, hs1, hsc, hqx, hps⟩ := hpos.2.1 x hgx.1 hne
    have hsc' : s ≤ q.count - 1 := by
      rcases Nat.lt_or_ge s q.count with h | h
      · omega
      · exfalso
        exact hgx.2 (by rw [← hps, show s = q.count by omega])
    exact ⟨s, hs1, hsc', hqx, hps⟩
  · intro x hgx hne
    exact hpos.2.2 x hgx.1 hne

theorem setKey_posInvOn {q : PriorityIndexQueue α} {i : Int} {key : α} {good : Int → Prop}
    (hpos : posInvOn q good) :
    posInvOn { q with keys := Function.update q.keys i (some key) } good := by
  obtain ⟨h1, h2, h3⟩ := hpos
  refine ⟨h1, h2, ?_⟩
  intro x hgx hne
  show (Function.update q.keys i (some key) x).isSome = true
  by_cases hx : x = i
  · subst hx
    rw [Function.update_same]
    rfl
  · rw [Function.update_noteq hx]
    exact h3 x hgx hne

theorem swap_qp_ne {q : PriorityIndexQueue α} {i j : Nat} {x : Int} (h : q.qp x ≠ -1) :
    (q.swap i j).qp x ≠ -1 := by
  rw [swap_qp]
  by_cases h1 : x = q.pq i
  · rw [if_pos h1]
    omega
  · rw [if_neg h1]
    by_cases h2 : x = q.pq j
    · rw [if_pos h2]
      omega
    · rw [if_neg h2]
      exact h

theorem swimF_qp_ne (q : PriorityIndexQueue α) (k : Nat) {x : Int} :
    ∀ fuel, q.qp x ≠ -1 → (q.swimF k fuel).qp x ≠ -1 := by
  intro fuel
  induction fuel generalizing q k with
  | zero => intro h; exact h
  | succ n ih =>
    intro h
    simp only [swimF]
    by_cases hg : 1 < k ∧ q.comp (k / 2) k = true
    · rw [if_pos hg]
      exact ih _ _ (swap_qp_ne h)
    · rw [if_neg hg]
      exact h

theorem sinkF_qp_ne (q : PriorityIndexQueue α) (k : Nat) {x : Int} :
    ∀ fuel, q.qp x ≠ -1 → (q.sinkF k fuel).qp x ≠ -1 := by
  intro fuel
  induction fuel generalizing q k with
  | zero => intro h; exact h
  | succ n ih =>
    intro h
    simp only [sinkF]
    by_cases hgd : 2 * k ≤ q.count
    · rw [if_pos hgd]
      by_cases hcc : q.comp (if 2 * k < q.count ∧ q.comp (2 * k) (2 * k + 1) = true
          then 2 * k + 1 else 2 * k) k = true
      · rw [if_pos hcc]
        exact h
      · rw [if_neg hcc]
        exact ih _ _ (swap_qp_ne h)
    · rw [if_neg hgd]
      exact h

theorem cleanup_inv {Q : PriorityIndexQueue α} {i : Int} (hord : heapOrd Q)
    (hpos : posInvOn Q (fun x => x ≠ i)) :
    heapOrd (⟨Q.compare, Q.capacity, Q.count, Function.update Q.keys i none, Q.pq,
        Function.update Q.qp i (-1)⟩ : PriorityIndexQueue α) ∧
    posInvOn (⟨Q.compare, Q.capacity, Q.count, Function.update Q.keys i none, Q.pq,
        Function.update Q.qp i (-1)⟩ : PriorityIndexQueue α) (fun _ => True) := by
  have hA : ∀ s, 1 ≤ s → s ≤ Q.count → Q.pq s ≠ i := fun s h1 h2 => (hpos.1 s h1 h2).1
  constructor
  · intro k hk2 hkc
    have hkc' : k ≤ Q.count := hkc
    have ec : (⟨Q.compare, Q.capacity, Q.count, Function.update Q.keys i none, Q.pq,
        Function.update Q.qp i (-1)⟩ : PriorityIndexQueue α).comp (k / 2) k
        = Q.comp (k / 2) k := by
      refine comp_congr_ix rfl ?_ ?_
      · show Function.update Q.keys i none (Q.pq (k / 2)) = Q.keys (Q.pq (k / 2))
        rw [Function.update_noteq (hA (k / 2) (by omega) (by omega))]
      · show Function.update Q.keys i none (Q.pq k) = Q.keys (Q.pq k)
        rw [Function.update_noteq (hA k (by omega) hkc')]
    rw [ec]
    exact hord k hk2 hkc'
  · refine ⟨?_, ?_, ?_⟩
    · intro s hs1 hsc
      have hsc' : s ≤ Q.count := hsc
      refine ⟨trivial, ?_⟩
      show Function.update Q.qp i (-1) (Q.pq s) = (s : Int)
      rw [Function.update_noteq (hA s hs1 hsc')]
      exact (hpos.1 s hs1 hsc').2
    · intro x _ hxne
      have hxi : x ≠ i := by
        intro he
        refine hxne ?_
        show Function.update Q.qp i (-1) x = -1
        rw [he, Function.update_same]
      have hxq : Q.qp x ≠ -1 := by
        intro hq
        refine hxne ?_
        show Function.update Q.qp i (-1) x = -1
        rw [Function.update_noteq hxi, hq]
      obtain ⟨s, hs1, hsc, hqx, hps⟩ := hpos.2.1 x hxi hxq
      refine ⟨s, hs1, hsc, ?_, hps⟩
      show Function.update Q.qp i (-1) x = (s : Int)
      rw [Function.update_noteq hxi]
      exact hqx
    · intro x _ hxne
      have hxi : x ≠ i := by
        intro he
        refine hxne ?_
        show Function.update Q.qp i (-1) x = -1
        rw [he, Function.update_same]
      show (Function.update Q.keys i none x).isSome = true
      rw [Function.update_noteq hxi]
      refine hpos.2.2 x hxi ?_
      intro hq
      refine hxne ?_
      show Function.update Q.qp i (-1) x = -1
      rw [Function.update_noteq hxi, hq]

theorem posInv_of_posInvOn {q : PriorityIndexQueue α} (h : posInvOn q (fun _ => True)) :
    posInv q :=
  ⟨fun s hs1 hsc => (h.1 s hs1 hsc).2, fun j hne => h.2.1 j trivial hne,
    fun j hne => h.2.2 j trivial hne⟩

theorem swim_repair {q : PriorityIndexQueue α} {k : Nat} (hswo : IsSWO q.compare)
    (hocc : occK q) (hk1 : 1 ≤ k) (hkc : k ≤ q.count)
    (ha : ExceptAround q k) (hc : ParentDom q k) :
    heapOrd (q.swim k) ∨ (q.swim k = q ∧ ExceptBelow q k) := by
  have hunf : q.swim k = if 1 < k ∧ q.comp (k / 2) k = true
      then (q.swap (k / 2) k).swimF (k / 2) (k - 1) else q := by
    show q.swimF k k = _
    nth_rewrite 2 [show k = (k - 1) + 1 by omega]
    rfl
  rw [hunf]
  by_cases hg : 1 < k ∧ q.comp (k / 2) k = true
  · rw [if_pos hg]
    left
    have hk2 : 2 ≤ k := hg.1
    have hocc' : occK (q.swap (k / 2) k) :=
      swap_occK hocc (by omega) (by omega) (by omega) hkc
    refine swimF_heapOrd_ix (k - 1) (q.swap (k / 2) k) (k / 2) hswo hocc' (by omega)
      (show k / 2 ≤ (q.swap (k / 2) k).count by rw [swap_count_ix]; omega)
      (by omega) ?_ ?_
    · intro m hm2 hmc hmk'
      rw [swap_count_ix] at hmc
      rw [swap_comp_ix]
      by_cases hmk : m = k
      · subst hmk
        rw [if_pos rfl, if_neg (show ¬ m / 2 = m by omega), if_pos rfl]
        exact comp_true_asymm_ix hswo hg.2
      · by_cases hsib : m / 2 = k / 2
        · rw [if_neg hmk, if_neg (show ¬ m = k / 2 by omega)]
          rw [hsib, if_neg (show ¬ k / 2 = k by omega), if_pos rfl]
          cases hcm : q.comp k m with
          | false => rfl
          | true =>
            exfalso
            have h1 : q.comp (k / 2) m = true := comp_true_trans_ix hswo hg.2 hcm
            have h2 : q.comp (m / 2) m = false :=
              ha m hm2 hmc hmk (by omega) (by omega)
            rw [hsib] at h2
            rw [h1] at h2
            exact Bool.true_eq_false.mp h2
        · by_cases hchild : m / 2 = k
          · rw [if_neg hmk, if_neg (show ¬ m = k / 2 by omega)]
            rw [hchild, if_pos rfl]
            exact hc hg.1 m (by omega) hmc
          · rw [if_neg hmk, if_neg (show ¬ m = k / 2 from hmk'),
              if_neg hchild, if_neg hsib]
            exact ha m hm2 hmc hmk (by omega) (by omega)
    · intro hk'2 m hm hmc
      rw [swap_count_ix] at hmc
      rw [swap_comp_ix]
      have hkk : 4 ≤ k := by omega
      rw [if_neg (show ¬ k / 2 / 2 = k by omega), if_neg (show ¬ k / 2 / 2 = k / 2 by omega)]
      have hek' : q.comp (k / 2 / 2) (k / 2) = false :=
        ha (k / 2) (by omega) (by omega) (by omega) (by omega) (by omega)
      by_cases hmk : m = k
      · subst hmk
        rw [if_pos rfl]
        exact hek'
      · rw [if_neg hmk, if_neg (show ¬ m = k / 2 by omega)]
        have hem : q.comp (k / 2) m = false := by
          have := ha m (by omega) hmc hmk (by omega) (by omega)
          rw [show m / 2 = k / 2 by omega] at this
          exact this
        exact comp_false_negTrans_ix hswo
          (hocc (k / 2 / 2) (by omega) (by omega))
          (hocc (k / 2) (by omega) (by omega))
          (hocc m (by omega) hmc)
          hek' hem
  · rw [if_neg hg]
    right
    refine ⟨rfl, ?_⟩
    intro m hm2 hmc hm2k hm2k1
    by_cases hmk : m = k
    · subst hmk
      rcases Decidable.not_and_iff_or_not.mp hg with h | h
      · omega
      · exact Bool.not_eq_true _ |>.mp h
    · exact ha m hm2 hmc hmk hm2k hm2k1

theorem push_inv_ix {q : PriorityIndexQueue α} {i : Int} {key : α} (hswo : IsSWO q.compare)
    (hord : heapOrd q) (hpos : posInvOn q (fun _ => True)) (hnc : q.qp i = -1) :
    heapOrd (q.push i key) ∧ posInvOn (q.push i key) (fun _ => True) ∧
    (q.push i key).count = q.count + 1 ∧ (q.push i key).compare = q.compare := by
  set q2 : PriorityIndexQueue α :=
    ⟨q.compare, q.capacity, q.count + 1, Function.update q.keys i (some key),
     Function.update q.pq (q.count + 1) i,
     Function.update q.qp i ((q.count + 1 : Nat) : Int)⟩ with hq2
  have hpush : q.push i key = q2.swimF (q.count + 1) (q.count + 1) := rfl
  have hpqne : ∀ s, 1 ≤ s → s ≤ q.count → q.pq s ≠ i := by
    intro s hs1 hsc he
    have h := (hpos.1 s hs1 hsc).2
    rw [he, hnc] at h
    omega
  have hpos2 : posInvOn q2 (fun _ => True) := by
    refine ⟨?_, ?_, ?_⟩
    · intro s hs1 hsc
      have hsc' : s ≤ q.count + 1 := hsc
      refine ⟨trivial, ?_⟩
      show Function.update q.qp i ((q.count + 1 : Nat) : Int)
          (Function.update q.pq (q.count + 1) i s) = (s : Int)
      by_cases hs : s = q.count + 1
      · subst hs
        rw [Function.update_same, Function.update_same]
      · rw [Function.update_noteq hs, Function.update_noteq (hpqne s hs1 (by omega))]
        exact (hpos.1 s hs1 (by omega)).2
    · intro x _ hne
      by_cases hx : x = i
      · subst hx
        refine ⟨q.count + 1, by omega, Nat.le_refl _, ?_, ?_⟩
        · show Function.update q.qp x ((q.count + 1 : Nat) : Int) x = ((q.count + 1 : Nat) : Int)
          rw [Function.update_same]
        · show Function.update q.pq (q.count + 1) x (q.count + 1) = x
          rw [Function.update_same]
      · have hne' : q.qp x ≠ -1 := by
          have e : q2.qp x = q.qp x := Function.update_noteq hx _ _
          rw [e] at hne
          exact hne
        obtain ⟨s, hs1, hsc, hqx, hps⟩ := hpos.2.1 x trivial hne'
        refine ⟨s, hs1, by show s ≤ q.count + 1; omega, ?_, ?_⟩
        · show Function.update q.qp i ((q.count + 1 : Nat) : Int) x = (s : Int)
          rw [Function.update_noteq hx]
          exact hqx
        · show Function.update q.pq (q.count + 1) i s = x
          rw [Function.update_noteq (by omega)]
          exact hps
    · intro x _ hne
      by_cases hx : x = i
      · subst hx
        show (Function.update q.keys x (some key) x).isSome = true
        rw [Function.update_same]
        rfl
      · show (Function.update q.keys i (some key) x).isSome = true
        rw [Function.update_noteq hx]
        refine hpos.2.2 x trivial ?_
        have e : q2.qp x = q.qp x := Function.update_noteq hx _ _
        rw [e] at hne
        exact hne
  have hocc2 : occK q2 := posInvOn_occK hpos2
  have hA : ExceptAt q2 (q.count + 1) := by
    intro m hm2 hmc hmk
    have hm' : m ≤ q.count := by
      have h : m ≤ q.count + 1 := hmc
      omega
    have ec : q2.comp (m / 2) m = q.comp (m / 2) m := by
      refine comp_congr_ix rfl ?_ ?_
      · show Function.update q.keys i (some key)
            (Function.update q.pq (q.count + 1) i (m / 2)) = q.keys (q.pq (m / 2))
        rw [Function.update_noteq (show m / 2 ≠ q.count + 1 by omega),
          Function.update_noteq (hpqne (m / 2) (by omega) (by omega))]
      · show Function.update q.keys i (some key)
            (Function.update q.pq (q.count + 1) i m) = q.keys (q.pq m)
        rw [Function.update_noteq hmk, Function.update_noteq (hpqne m (by omega) hm')]
    rw [ec]
    exact hord m hm2 hm'
  have hP : ParentDom q2 (q.count + 1) := by
    intro _ m hm hmc
    have h : m ≤ q.count + 1 := hmc
    omega
  rw [hpush]
  refine ⟨?_, ?_, ?_, ?_⟩
  · exact swimF_heapOrd_ix (q.count + 1) q2 (q.count + 1) hswo hocc2 (by omega)
      (Nat.le_refl _) (Nat.le_refl _) hA hP
  · exact swimF_posInvOn q2 (q.count + 1) (q.count + 1) hpos2 (Nat.le_refl _)
  · rw [swimF_count_ix]
  · rw [swimF_compare_ix]

theorem pop_inv_ix {q : PriorityIndexQueue α} (hswo : IsSWO q.compare) (hord : heapOrd q)
    (hpos : posInvOn q (fun _ => True)) (hne : 1 ≤ q.count) :
    heapOrd q.pop ∧ posInvOn q.pop (fun _ => True) ∧ q.pop.count = q.count - 1 ∧
    q.pop.compare = q.compare := by
  have hposs : posInvOn (q.swap 1 q.count) (fun _ => True) :=
    swap_posInvOn hpos (Nat.le_refl 1) hne hne (Nat.le_refl _)
  set q1 : PriorityIndexQueue α := { q.swap 1 q.count with count := q.count - 1 } with hq1
  have hppq : (q.swap 1 q.count).pq q.count = q.pq 1 := by
    rw [swap_pq_ix, if_pos rfl]
  have hpos1 : posInvOn q1 (fun x => x ≠ q.pq 1) := by
    refine posInvOn_congr (shrink_posInvOn hposs hne) ?_
    intro x
    rw [swap_count_ix, hppq]
    simp
  have hocc1 : occK q1 := posInvOn_occK hpos1
  have hEB : ExceptBelow q1 1 := by
    intro m hm2 hmc hm21 hm22
    have hmc' : m ≤ q.count - 1 := hmc
    show (q.swap 1 q.count).comp (m / 2) m = false
    rw [swap_comp_ix, if_neg (show ¬ m / 2 = q.count by omega),
      if_neg (show ¬ m / 2 = 1 by omega), if_neg (show ¬ m = q.count by omega),
      if_neg (show ¬ m = 1 by omega)]
    exact hord m hm2 (by omega)
  have hPD : ParentDom q1 1 := by
    intro h11
    omega
  have h2ord : heapOrd (q1.sink 1) :=
    sinkF_heapOrd_ix (q1.count + 1) q1 1 hswo hocc1 (Nat.le_refl 1) (by omega) hEB hPD
  have hpos2 : posInvOn (q1.sink 1) (fun x => x ≠ q.pq 1) :=
    sinkF_posInvOn q1 1 (q1.count + 1) hpos1 (Nat.le_refl 1)
  have hcnt2 : (q1.sink 1).count = q.count - 1 := sinkF_count_ix q1 1 (q1.count + 1)
  have hcmp2 : (q1.sink 1).compare = q.compare := sinkF_compare_ix q1 1 (q1.count + 1)
  set q2 : PriorityIndexQueue α := q1.sink 1 with hq2
  have hA : ∀ s, 1 ≤ s → s ≤ q2.count → q2.pq s ≠ q.pq 1 :=
    fun s hs1 hsc => (hpos2.1 s hs1 hsc).1
  set res : PriorityIndexQueue α :=
    ⟨q2.compare, q2.capacity, q2.count, Function.update q2.keys (q.pq 1) none,
     Function.update q2.pq (q2.count + 1) 0,
     Function.update q2.qp (q.pq 1) (-1)⟩ with hresd
  have hpop : q.pop = res := rfl
  rw [hpop]
  refine ⟨?_, ?_, ?_, ?_⟩
  · intro k hk2 hkc
    have hkk : k ≤ q2.count := hkc
    have ec : res.comp (k / 2) k = q2.comp (k / 2) k := by
      refine comp_congr_ix rfl ?_ ?_
      · show Function.update q2.keys (q.pq 1) none
            (Function.update q2.pq (q2.count + 1) 0 (k / 2)) = q2.keys (q2.pq (k / 2))
        rw [Function.update_noteq (show k / 2 ≠ q2.count + 1 by omega),
          Function.update_noteq (hA (k / 2) (by omega) (by omega))]
      · show Function.update q2.keys (q.pq 1) none
            (Function.update q2.pq (q2.count + 1) 0 k) = q2.keys (q2.pq k)
        rw [Function.update_noteq (show k ≠ q2.count + 1 by omega),
          Function.update_noteq (hA k (by omega) hkk)]
    rw [ec]
    exact h2ord k hk2 hkk
  · refine ⟨?_, ?_, ?_⟩
    · intro s hs1 hsc
      have hss : s ≤ q2.count := hsc
      refine ⟨trivial, ?_⟩
      show Function.update q2.qp (q.pq 1) (-1)
          (Function.update q2.pq (q2.count + 1) 0 s) = (s : Int)
      rw [Function.update_noteq (show s ≠ q2.count + 1 by omega),
        Function.update_noteq (hA s hs1 hss)]
      exact (hpos2.1 s hs1 hss).2
    · intro x _ hxne
      have hxm : x ≠ q.pq 1 := by
        intro he
        refine hxne ?_
        show Function.update q2.qp (q.pq 1) (-1) x = -1
        rw [he, Function.update_same]
      have hxq : q2.qp x ≠ -1 := by
        intro hq
        refine hxne ?_
        show Function.update q2.qp (q.pq 1) (-1) x = -1
        rw [Function.update_noteq hxm, hq]
      obtain ⟨s, hs1, hsc, hqx, hps⟩ := hpos2.2.1 x hxm hxq
      refine ⟨s, hs1, hsc, ?_, ?_⟩
      · show Function.update q2.qp (q.pq 1) (-1) x = (s : Int)
        rw [Function.update_noteq hxm]
        exact hqx
      · show Function.update q2.pq (q2.count + 1) 0 s = x
        rw [Function.update_noteq (show s ≠ q2.count + 1 by omega)]
        exact hps
    · intro x _ hxne
      have hxm : x ≠ q.pq 1 := by
        intro he
        refine hxne ?_
        show Function.update q2.qp (q.pq 1) (-1) x = -1
        rw [he, Function.update_same]
      show (Function.update q2.keys (q.pq 1) none x).isSome = true
      rw [Function.update_noteq hxm]
      refine hpos2.2.2 x hxm ?_
      intro hq
      refine hxne ?_
      show Function.update q2.qp (q.pq 1) (-1) x = -1
      rw [Function.update_noteq hxm, hq]
  · exact hcnt2
  · exact hcmp2

theorem change_inv {q : PriorityIndexQueue α} {i : Int} {key : α} (hswo : IsSWO q.compare)
    (hord : heapOrd q) (hpos : posInvOn q (fun _ => True)) (hc : q.qp i ≠ -1) :
    heapOrd (q.change i key) ∧ posInvOn (q.change i key) (fun _ => True) ∧
    (q.change i key).count = q.count ∧ (q.change i key).compare = q.compare := by
  obtain ⟨s0, hs01, hs0c, hqpi, hpqs0⟩ := hpos.2.1 i trivial hc
  set q1 : PriorityIndexQueue α := { q with keys := Function.update q.keys i (some key) }
    with hq1
  have hpos1 : posInvOn q1 (fun _ => True) := setKey_posInvOn hpos
  have hocc1 : occK q1 := posInvOn_occK hpos1
  have hoccq : occK q := posInvOn_occK hpos
  have hslot : (q1.qp i).toNat = s0 := by
    show (q.qp i).toNat = s0
    rw [hqpi]
    exact Int.toNat_natCast s0
  have hpqne : ∀ a, 1 ≤ a → a ≤ q.count → a ≠ s0 → q.pq a ≠ i := by
    intro a ha1 hac hane he
    have h := (hpos.1 a ha1 hac).2
    rw [he, hqpi] at h
    exact hane (by omega)
  have hcomp1 : ∀ a b, 1 ≤ a → a ≤ q.count → 1 ≤ b → b ≤ q.count → a ≠ s0 → b ≠ s0 →
      q1.comp a b = q.comp a b := by
    intro a b ha1 hac hb1 hbc has hbs
    refine comp_congr_ix rfl ?_ ?_
    · show Function.update q.keys i (some key) (q.pq a) = q.keys (q.pq a)
      rw [Function.update_noteq (hpqne a ha1 hac has)]
    · show Function.update q.keys i (some key) (q.pq b) = q.keys (q.pq b)
      rw [Function.update_noteq (hpqne b hb1 hbc hbs)]
  have hEA : ExceptAround q1 s0 := by
    intro m hm2 hmc hms hm2s hm2s1
    have hmc' : m ≤ q.count := hmc
    rw [hcomp1 (m / 2) m (by omega) (by omega) (by omega) hmc' (by omega) hms]
    exact hord m hm2 hmc'
  have hPD : ParentDom q1 s0 := by
    intro hs02 m hm hmc
    have hmc' : m ≤ q.count := hmc
    have h1 : q.comp (s0 / 2) s0 = false := hord s0 (by omega) hs0c
    have h2 : q.comp s0 m = false := by
      have h := hord m (by omega) hmc'
      rw [show m / 2 = s0 by omega] at h
      exact h
    rw [hcomp1 (s0 / 2) m (by omega) (by omega) (by omega) hmc' (by omega) (by omega)]
    exact comp_false_negTrans_ix hswo (hoccq (s0 / 2) (by omega) (by omega))
      (hoccq s0 hs01 hs0c) (hoccq m (by omega) hmc') h1 h2
  have hrep := @swim_repair α q1 s0 hswo hocc1 hs01 hs0c hEA hPD
  have hchange : q.change i key =
      (q1.swim (q1.qp i).toNat).sink ((q1.swim (q1.qp i).toNat).qp i).toNat := rfl
  rw [hchange, hslot]
  have hqi1 : q1.qp i ≠ -1 := hc
  have hswpres : (q1.swim s0).qp i ≠ -1 := swimF_qp_ne q1 s0 s0 hqi1
  have hswpos : posInvOn (q1.swim s0) (fun _ => True) := swimF_posInvOn q1 s0 s0 hpos1 hs0c
  have hswocc : occK (q1.swim s0) := posInvOn_occK hswpos
  obtain ⟨t, ht1, htc, hqt, hpt⟩ := hswpos.2.1 i trivial hswpres
  have htslot : ((q1.swim s0).qp i).toNat = t := by
    rw [hqt]
    exact Int.toNat_natCast t
  rw [htslot]
  rcases hrep with hh | ⟨heq, hEB⟩
  · have hswoS : IsSWO (q1.swim s0).compare := by
      have e : (q1.swim s0).compare = q.compare := swimF_compare_ix q1 s0 s0
      rw [e]
      exact hswo
    refine ⟨sink_heapOrd_full_ix hswoS hswocc hh ht1, ?_, ?_, ?_⟩
    · exact sinkF_posInvOn (q1.swim s0) t ((q1.swim s0).count + 1) hswpos ht1
    · have e1 : ((q1.swim s0).sink t).count = (q1.swim s0).count :=
        sinkF_count_ix (q1.swim s0) t ((q1.swim s0).count + 1)
      have e2 : (q1.swim s0).count = q.count := swimF_count_ix q1 s0 s0
      rw [e1, e2]
    · have e1 : ((q1.swim s0).sink t).compare = (q1.swim s0).compare :=
        sinkF_compare_ix (q1.swim s0) t ((q1.swim s0).count + 1)
      have e2 : (q1.swim s0).compare = q.compare := swimF_compare_ix q1 s0 s0
      rw [e1, e2]
  · rw [heq] at hqt ⊢
    have hts : t = s0 := by
      have h : q.qp i = (t : Int) := hqt
      rw [hqpi] at h
      omega
    subst hts
    refine ⟨?_, ?_, ?_, ?_⟩
    · exact sinkF_heapOrd_ix (q1.count + 1) q1 t hswo hocc1 ht1 (by omega) hEB hPD
    · exact sinkF_posInvOn q1 t (q1.count + 1) hpos1 ht1
    · exact sinkF_count_ix q1 t (q1.count + 1)
    · exact sinkF_compare_ix q1 t (q1.count + 1)

theorem delete_inv {q : PriorityIndexQueue α} {i : Int} (hswo : IsSWO q.compare)
    (hord : heapOrd q) (hpos : posInvOn q (fun _ => True)) (hc : q.qp i ≠ -1) :
    heapOrd (q.delete i) ∧ posInvOn (q.delete i) (fun _ => True) ∧
    (q.delete i).count = q.count - 1 ∧ (q.delete i).compare = q.compare := by
  obtain ⟨s0, hs01, hs0c, hqpi, hpqs0⟩ := hpos.2.1 i trivial hc
  have hoccq : occK q := posInvOn_occK hpos
  have hslot : (q.qp i).toNat = s0 := by
    rw [hqpi]
    exact Int.toNat_natCast s0
  have hposs : posInvOn (q.swap s0 q.count) (fun _ => True) :=
    swap_posInvOn hpos hs01 hs0c (by omega) (Nat.le_refl _)
  set q1 : PriorityIndexQueue α := { q.swap s0 q.count with count := q.count - 1 } with hq1d
  have hppq : (q.swap s0 q.count).pq q.count = i := by
    rw [swap_pq_ix, if_pos rfl]
    exact hpqs0
  have hpos1 : posInvOn q1 (fun x => x ≠ i) := by
    refine posInvOn_congr (shrink_posInvOn hposs (show 1 ≤ q.count by omega)) ?_
    intro x
    rw [swap_count_ix, hppq]
    simp
  have hocc1 : occK q1 := posInvOn_occK hpos1
  have hdel : q.delete i =
      ⟨((q1.swim s0).sink s0).compare, ((q1.swim s0).sink s0).capacity,
       ((q1.swim s0).sink s0).count,
       Function.update ((q1.swim s0).sink s0).keys i none,
       ((q1.swim s0).sink s0).pq,
       Function.update ((q1.swim s0).sink s0).qp i (-1)⟩ := by
    simp only [delete]
    rw [hslot]
  by_cases hcase : s0 = q.count
  · -- deleting the bottom slot: swim and sink are both identities
    have hord1 : heapOrd q1 := by
      intro m hm2 hmc
      have hmc' : m ≤ q.count - 1 := hmc
      show (q.swap s0 q.count).comp (m / 2) m = false
      rw [swap_comp_ix, if_neg (show ¬ m / 2 = q.count by omega),
        if_neg (show ¬ m / 2 = s0 by omega), if_neg (show ¬ m = q.count by omega),
        if_neg (show ¬ m = s0 by omega)]
      exact hord m hm2 (by omega)
    have hsw : q1.swim s0 = q1 := by
      show q1.swimF s0 s0 = q1
      have hg : ¬(1 < s0 ∧ q1.comp (s0 / 2) s0 = true) := by
        rintro ⟨hs02, hcmp⟩
        have hfalse : q1.comp (s0 / 2) s0 = false := by
          show (q.swap s0 q.count).comp (s0 / 2) s0 = false
          rw [swap_comp_ix, if_neg (show ¬ s0 / 2 = q.count by omega),
            if_neg (show ¬ s0 / 2 = s0 by omega), if_pos hcase]
          rw [show (q.swap s0 q.count).pq = (q.swap s0 s0).pq by rw [hcase]] at hppq
          exact hord s0 (by omega) hs0c
        rw [hfalse] at hcmp
        exact Bool.false_ne_true hcmp
      nth_rewrite 2 [show s0 = (s0 - 1) + 1 by omega]
      show (if 1 < s0 ∧ q1.comp (s0 / 2) s0 = true
          then (q1.swap (s0 / 2) s0).swimF (s0 / 2) (s0 - 1) else q1) = q1
      rw [if_neg hg]
    have hsk : q1.sink s0 = q1 := by
      show q1.sinkF s0 (q1.count + 1) = q1
      have hn : q1.count + 1 = q1.count + 1 := rfl
      show (if 2 * s0 ≤ q1.count then
          (if q1.comp (if 2 * s0 < q1.count ∧ q1.comp (2 * s0) (2 * s0 + 1) = true
            then 2 * s0 + 1 else 2 * s0) s0 = true then q1
           else (q1.swap (if 2 * s0 < q1.count ∧ q1.comp (2 * s0) (2 * s0 + 1) = true
            then 2 * s0 + 1 else 2 * s0) s0).sinkF
            (if 2 * s0 < q1.count ∧ q1.comp (2 * s0) (2 * s0 + 1) = true
            then 2 * s0 + 1 else 2 * s0) q1.count)
          else q1) = q1
      rw [if_neg (show ¬ 2 * s0 ≤ q1.count from by
        show ¬ 2 * s0 ≤ q.count - 1
        omega)]
    have hcl := cleanup_inv hord1 hpos1
    rw [hdel, hsw, hsk]
    exact ⟨hcl.1, hcl.2, rfl, rfl⟩
  · -- deleting an interior slot: swap brought a key to s0; swim and sink repair
    have hs0c' : s0 ≤ q.count - 1 := by omega
    have hcomp1 : ∀ a b, 1 ≤ a → a ≤ q.count - 1 → 1 ≤ b → b ≤ q.count - 1 →
        a ≠ s0 → b ≠ s0 → q1.comp a b = q.comp a b := by
      intro a b ha1 hac hb1 hbc has hbs
      show (q.swap s0 q.count).comp a b = q.comp a b
      rw [swap_comp_ix, if_neg (show ¬ a = q.count by omega), if_neg has,
        if_neg (show ¬ b = q.count by omega), if_neg hbs]
    have hEA : ExceptAround q1 s0 := by
      intro m hm2 hmc hms hm2s hm2s1
      have hmc' : m ≤ q.count - 1 := hmc
      rw [hcomp1 (m / 2) m (by omega) (by omega) (by omega) hmc' (by omega) hms]
      exact hord m hm2 (by omega)
    have hPD : ParentDom q1 s0 := by
      intro hs02 m hm hmc
      have hmc' : m ≤ q.count - 1 := hmc
      have h1 : q.comp (s0 / 2) s0 = false := hord s0 (by omega) hs0c
      have h2 : q.comp s0 m = false := by
        have h := hord m (by omega) (by omega)
        rw [show m / 2 = s0 by omega] at h
        exact h
      rw [hcomp1 (s0 / 2) m (by omega) (by omega) (by omega) hmc' (by omega) (by omega)]
      exact comp_false_negTrans_ix hswo (hoccq (s0 / 2) (by omega) (by omega))
        (hoccq s0 hs01 hs0c) (hoccq m (by omega) (by omega)) h1 h2
    have hle : s0 ≤ q1.count := by
      show s0 ≤ q.count - 1
      omega
    have hrep := @swim_repair α q1 s0 hswo hocc1 hs01 hle hEA hPD
    have hswpos : posInvOn (q1.swim s0) (fun x => x ≠ i) :=
      swimF_posInvOn q1 s0 s0 hpos1 hle
    have hpos2 : posInvOn ((q1.swim s0).sink s0) (fun x => x ≠ i) :=
      sinkF_posInvOn (q1.swim s0) s0 ((q1.swim s0).count + 1) hswpos hs01
    have hord2 : heapOrd ((q1.swim s0).sink s0) := by
      rcases hrep with hh | ⟨heq, hEB⟩
      · have hswoS : IsSWO (q1.swim s0).compare := by
          have e : (q1.swim s0).compare = q.compare := swimF_compare_ix q1 s0 s0
          rw [e]
          exact hswo
        exact sink_heapOrd_full_ix hswoS (posInvOn_occK hswpos) hh hs01
      · rw [heq]
        exact sinkF_heapOrd_ix (q1.count + 1) q1 s0 hswo hocc1 hs01 (by omega) hEB hPD
    have hcl := cleanup_inv hord2 hpos2
    rw [hdel]
    refine ⟨hcl.1, hcl.2, ?_, ?_⟩
    · show ((q1.swim s0).sink s0).count = q.count - 1
      have e1 : ((q1.swim s0).sink s0).count = (q1.swim s0).count :=
        sinkF_count_ix (q1.swim s0) s0 ((q1.swim s0).count + 1)
      have e2 : (q1.swim s0).count = q.count - 1 := swimF_count_ix q1 s0 s0
      rw [e1, e2]
    · show ((q1.swim s0).sink s0).compare = q.compare
      have e1 : ((q1.swim s0).sink s0).compare = (q1.swim s0).compare :=
        sinkF_compare_ix (q1.swim s0) s0 ((q1.swim s0).count + 1)
      have e2 : (q1.swim s0).compare = q.compare := swimF_compare_ix q1 s0 s0
      rw [e1, e2]

/-- The state invariant carried along any operation sequence on a
`PriorityIndexQueue`. -/
theorem runOp_inv_ix {q : PriorityIndexQueue α}
    (h : IsSWO q.compare ∧ heapOrd q ∧ posInvOn q (fun _ => True)) (op : PIQOp α) :
    IsSWO (q.runOp op).compare ∧ heapOrd (q.runOp op) ∧
    posInvOn (q.runOp op) (fun _ => True) := by
  obtain ⟨hswo, hord, hpos⟩ := h
  cases op with
  | push i key =>
    simp only [runOp]
    by_cases hg : q.is_valid i ∧ ¬q.contains i
    · rw [if_pos hg]
      have hnc : q.qp i = -1 := by
        have h := hg.2
        simp [contains] at h
        exact h
      have hp := @push_inv_ix α q i key hswo hord hpos hnc
      exact ⟨by rw [hp.2.2.2]; exact hswo, hp.1, hp.2.1⟩
    · rw [if_neg hg]
      exact ⟨hswo, hord, hpos⟩
  | pop =>
    simp only [runOp]
    by_cases he : q.is_empty
    · rw [if_pos he]
      exact ⟨hswo, hord, hpos⟩
    · rw [if_neg he]
      have hne : 1 ≤ q.count := by
        simp [is_empty] at he
        omega
      have hp := pop_inv_ix hswo hord hpos hne
      exact ⟨by rw [hp.2.2.2]; exact hswo, hp.1, hp.2.1⟩
  | change i key =>
    simp only [runOp]
    by_cases hg : q.is_valid i ∧ q.contains i
    · rw [if_pos hg]
      have hcn : q.qp i ≠ -1 := by
        have h := hg.2
        simp [contains] at h
        exact h
      have hp := @change_inv α q i key hswo hord hpos hcn
      exact ⟨by rw [hp.2.2.2]; exact hswo, hp.1, hp.2.1⟩
    · rw [if_neg hg]
      exact ⟨hswo, hord, hpos⟩
  | delete i =>
    simp only [runOp]
    by_cases hg : q.is_valid i ∧ q.contains i
    · rw [if_pos hg]
      have hcn : q.qp i ≠ -1 := by
        have h := hg.2
        simp [contains] at h
        exact h
      have hp := delete_inv hswo hord hpos hcn
      exact ⟨by rw [hp.2.2.2]; exact hswo, hp.1, hp.2.1⟩
    · rw [if_neg hg]
      exact ⟨hswo, hord, hpos⟩

theorem runOps_inv_ix {q : PriorityIndexQueue α}
    (h : IsSWO q.compare ∧ heapOrd q ∧ posInvOn q (fun _ => True)) (ops : List (PIQOp α)) :
    IsSWO (q.runOps ops).compare ∧ heapOrd (q.runOps ops) ∧
    posInvOn (q.runOps ops) (fun _ => True) := by
  induction ops generalizing q with
  | nil => exact h
  | cons op rest ih => exact ih (runOp_inv_ix h op)

theorem init_inv_ix {capacity : Nat} {cmp : α → α → Bool} (hswo : IsSWO cmp) :
    IsSWO (init capacity cmp : PriorityIndexQueue α).compare ∧
    heapOrd (init capacity cmp : PriorityIndexQueue α) ∧
    posInvOn (init capacity cmp : PriorityIndexQueue α) (fun _ => True) := by
  refine ⟨hswo, ?_, ?_, ?_, ?_⟩
  · intro m hm2 hmc
    have h : m ≤ 0 := hmc
    omega
  · intro s hs1 hsc
    have h : s ≤ 0 := hsc
    omega
  · intro x _ hne
    exact absurd rfl hne
  · intro x _ hne
    exact absurd rfl hne

theorem slotUnique_of_posInvOn {q : PriorityIndexQueue α}
    (h : posInvOn q (fun _ => True)) : slotUnique q := by
  intro x hne
  obtain ⟨s, hs1, hsc, hqx, hps⟩ := h.2.1 x trivial hne
  refine ⟨s, ⟨hs1, hsc, hps⟩, ?_⟩
  rintro t ⟨ht1, htc, hpt⟩
  exact posInvOn_inj h ht1 htc hs1 hsc (by rw [hpt, hps])

end PriorityIndexQueue

theorem qlt_isSWO : IsSWO qlt := by
  refine ⟨?_, ?_, ?_⟩
  · intro a b h
    exact decide_eq_false (lt_asymm (of_decide_eq_true h))
  · intro a b c h1 h2
    exact decide_eq_true (lt_trans (of_decide_eq_true h1) (of_decide_eq_true h2))
  · intro a b c h1 h2
    exact decide_eq_false (not_lt.mpr ((not_lt.mp (of_decide_eq_false h2)).trans
      (not_lt.mp (of_decide_eq_false h1))))

/-- C5 (amended): after any sequence of `push`/`pop` operations on a
`PriorityQueue`, or `push`/`pop`/`change`/`delete` operations on a
`PriorityIndexQueue`, constructed with a strict-weak-order comparator, every
occupied non-root heap slot `k` (`2 ≤ k ≤ count`) satisfies
`compare(key at parent slot k/2, key at slot k) = FALSE`: the code maintains
the NEGATION of the claimed polarity (`swim` swaps exactly while
`compare(parent, child)` holds, so it stops when it is false). -/
theorem c5_heap_order_negated_polarity {α : Type} (cmp : α → α → Bool) (hswo : IsSWO cmp)
    (cap : Nat) (ops : List (PriorityQueue.PQOp α))
    (iops : List (PriorityIndexQueue.PIQOp α)) :
    PriorityQueue.heapOrd (PriorityQueue.runOps (PriorityQueue.init cap cmp) ops) ∧
    PriorityIndexQueue.heapOrd
      (PriorityIndexQueue.runOps (PriorityIndexQueue.init cap cmp) iops) :=
  ⟨(PriorityQueue.runOps_inv (PriorityQueue.init_inv hswo) ops).2.1,
   (PriorityIndexQueue.runOps_inv_ix (PriorityIndexQueue.init_inv_ix hswo) iops).2.1⟩

theorem c5_heap_order_negated_polarity_witness :
    PriorityQueue.heapOrd (PriorityQueue.runOps (PriorityQueue.init 3 qlt)
      [.push 1, .push 2]) ∧
    PriorityIndexQueue.heapOrd (PriorityIndexQueue.runOps (PriorityIndexQueue.init 3 qlt)
      [.push 0 1, .push 1 2]) :=
  c5_heap_order_negated_polarity qlt qlt_isSWO 3 [.push 1, .push 2] [.push 0 1, .push 1 2]

/-- C6: after any sequence of `push`/`pop`/`change`/`delete` operations on a
`PriorityIndexQueue` constructed with a strict-weak-order comparator, the
position arrays form a bijection: `qp[pq[s]] = s` for every occupied heap
slot `s` (`1 ≤ s ≤ count`), every external index whose `qp` entry is not
`-1` sits in exactly one occupied heap slot of `pq` (which points back at
it), and its `keys` entry is present. -/
theorem c6_position_arrays_bijective {α : Type} (cmp : α → α → Bool) (hswo : IsSWO cmp)
    (cap : Nat) (ops : List (PriorityIndexQueue.PIQOp α)) :
    PriorityIndexQueue.posInv
      (PriorityIndexQueue.runOps (PriorityIndexQueue.init cap cmp) ops) ∧
    PriorityIndexQueue.slotUnique
      (PriorityIndexQueue.runOps (PriorityIndexQueue.init cap cmp) ops) :=
  ⟨PriorityIndexQueue.posInv_of_posInvOn
      (PriorityIndexQueue.runOps_inv_ix (PriorityIndexQueue.init_inv_ix hswo) ops).2.2,
   PriorityIndexQueue.slotUnique_of_posInvOn
      (PriorityIndexQueue.runOps_inv_ix (PriorityIndexQueue.init_inv_ix hswo) ops).2.2⟩

theorem c6_position_arrays_bijective_witness :
    PriorityIndexQueue.posInv (PriorityIndexQueue.runOps (PriorityIndexQueue.init 4 qlt)
      [.push 0 5, .push 1 2, .push 2 8, .change 0 1, .pop, .delete 1]) ∧
    PriorityIndexQueue.slotUnique (PriorityIndexQueue.runOps (PriorityIndexQueue.init 4 qlt)
      [.push 0 5, .push 1 2, .push 2 8, .change 0 1, .pop, .delete 1]) :=
  c6_position_arrays_bijective qlt qlt_isSWO 4
    [.push 0 5, .push 1 2, .push 2 8, .change 0 1, .pop, .delete 1]

/-- Mapping over `0..n-1` is invariant under precomposition with a
transposition of two indices below `n`. -/
theorem map_range_swap {β : Type} (f : ℕ → β) {i j n : ℕ} (hi : i < n) (hj : j < n) :
    Multiset.map (fun x => f ((Equiv.swap i j) x)) (List.range n : Multiset ℕ) =
      Multiset.map f (List.range n : Multiset ℕ) := by
  have hemb : Finset.map ⟨⇑(Equiv.swap i j), (Equiv.swap i j).injective⟩ (Finset.range n)
      = Finset.range n := by
    ext x
    simp only [Finset.mem_map, Finset.mem_range, Function.Embedding.coeFn_mk]
    constructor
    · rintro ⟨y, hy, rfl⟩
      rcases eq_or_ne y i with h | hne1
      · subst h
        rw [Equiv.swap_apply_left]
        omega
      rcases eq_or_ne y j with h | hne2
      · subst h
        rw [Equiv.swap_apply_right]
        omega
      · rw [Equiv.swap_apply_of_ne_of_ne hne1 hne2]
        omega
    · intro hx
      refine ⟨(Equiv.swap i j) x, ?_, ?_⟩
      · rcases eq_or_ne x i with h | hne1
        · subst h
          rw [Equiv.swap_apply_left]
          omega
        rcases eq_or_ne x j with h | hne2
        · subst h
          rw [Equiv.swap_apply_right]
          omega
        · rw [Equiv.swap_apply_of_ne_of_ne hne1 hne2]
          omega
      · rw [Equiv.swap_apply_self]
  calc Multiset.map (fun x => f ((Equiv.swap i j) x)) (List.range n : Multiset ℕ)
      = Multiset.map f (Multiset.map (⇑(Equiv.swap i j)) (List.range n : Multiset ℕ)) := by
        rw [Multiset.map_map]
        rfl
    _ = Multiset.map f (Finset.range n).val := by
        have h := congrArg Finset.val hemb
        rw [Finset.map_val] at h
        simp only [Function.Embedding.coeFn_mk] at h
        show Multiset.map f (Multiset.map (fun x => (Equiv.swap i j) x) (Finset.range n).val)
            = Multiset.map f (Finset.range n).val
        rw [h]
    _ = Multiset.map f (List.range n : Multiset ℕ) := rfl

namespace PriorityQueue

theorem swap_contents (q : PriorityQueue α) {i j : Nat} (hi1 : 1 ≤ i) (hic : i ≤ q.count)
    (hj1 : 1 ≤ j) (hjc : j ≤ q.count) : contents (q.swap i j) = contents q := by
  have hfun : ∀ n, n < q.count →
      (q.swap i j).pq (n + 1) = q.pq ((Equiv.swap (j - 1) (i - 1)) n + 1) := by
    intro n hn
    rw [swap_pq]
    rcases eq_or_ne n (j - 1) with h | hne1
    · subst h
      rw [Equiv.swap_apply_left, if_pos (by omega)]
      congr 1
      omega
    rcases eq_or_ne n (i - 1) with h | hne2
    · subst h
      rw [Equiv.swap_apply_right, if_neg (by omega), if_pos (by omega)]
      congr 1
      omega
    · rw [Equiv.swap_apply_of_ne_of_ne hne1 hne2, if_neg (by omega), if_neg (by omega)]
  calc contents (q.swap i j)
      = Multiset.map (fun n => q.pq ((Equiv.swap (j - 1) (i - 1)) n + 1))
          (List.range q.count : Multiset ℕ) := by
        show Multiset.map (fun n => (q.swap i j).pq (n + 1)) (List.range q.count : Multiset ℕ)
            = Multiset.map (fun n => q.pq ((Equiv.swap (j - 1) (i - 1)) n + 1))
              (List.range q.count : Multiset ℕ)
        refine Multiset.map_congr rfl ?_
        intro n hn
        exact hfun n (by simpa using hn)
    _ = Multiset.map (fun n => q.pq (n + 1)) (List.range q.count : Multiset ℕ) :=
        map_range_swap (fun n => q.pq (n + 1)) (by omega) (by omega)
    _ = contents q := rfl

theorem sinkF_contents (q : PriorityQueue α) (k : Nat) :
    ∀ fuel, 1 ≤ k → contents (q.sinkF k fuel) = contents q := by
  intro fuel
  induction fuel generalizing q k with
  | zero => intro _; rfl
  | succ n ih =>
    intro hk1
    simp only [sinkF]
    by_cases hgd : 2 * k ≤ q.count
    · rw [if_pos hgd]
      by_cases hcc : q.comp (if 2 * k < q.count ∧ q.comp (2 * k) (2 * k + 1) = true
          then 2 * k + 1 else 2 * k) k = true
      · rw [if_pos hcc]
      · rw [if_neg hcc]
        by_cases hcj : 2 * k < q.count ∧ q.comp (2 * k) (2 * k + 1) = true
        · rw [if_pos hcj] at hcc ⊢
          rw [ih _ _ (by omega)]
          exact swap_contents q (by omega) (by omega) hk1 (by omega)
        · rw [if_neg hcj] at hcc ⊢
          rw [ih _ _ (by omega)]
          exact swap_contents q (by omega) hgd hk1 (by omega)
    · rw [if_neg hgd]

theorem coe_append_singleton {β : Type} (A : List β) (a : β) :
    ((A ++ [a] : List β) : Multiset β) = a ::ₘ (A : Multiset β) := by
  induction A with
  | nil => rfl
  | cons b B ih =>
    show ((b :: (B ++ [a]) : List β) : Multiset β) = a ::ₘ ((b :: B : List β) : Multiset β)
    rw [show ((b :: (B ++ [a]) : List β) : Multiset β)
        = b ::ₘ ((B ++ [a] : List β) : Multiset β) from rfl, ih]
    exact (Multiset.cons_swap a b (B : Multiset β)).symm

theorem contents_shrink (q : PriorityQueue α) (h : 1 ≤ q.count) :
    contents q = q.pq q.count ::ₘ contents { q with count := q.count - 1 } := by
  obtain ⟨c, hc⟩ : ∃ c, q.count = c + 1 := ⟨q.count - 1, by omega⟩
  show ((List.range q.count).map (fun n => q.pq (n + 1)) : Multiset (Option α)) =
    q.pq q.count ::ₘ ((List.range (q.count - 1)).map (fun n => q.pq (n + 1)) : Multiset (Option α))
  rw [hc, Nat.add_sub_cancel, List.range_succ, List.map_append]
  exact coe_append_singleton ((List.range c).map (fun n => q.pq (n + 1))) (q.pq (c + 1))

theorem resize_contents (q : PriorityQueue α) (c : Nat) : contents (q.resize c) = contents q := by
  show Multiset.map (fun n => (q.resize c).pq (n + 1)) (List.range q.count : Multiset ℕ)
      = Multiset.map (fun n => q.pq (n + 1)) (List.range q.count : Multiset ℕ)
  refine Multiset.map_congr rfl ?_
  intro n hn
  have hn' : n < q.count := by simpa using hn
  show (if 1 ≤ n + 1 ∧ n + 1 ≤ q.count then q.pq (n + 1) else none) = q.pq (n + 1)
  rw [if_pos ⟨by omega, by omega⟩]

end PriorityQueue

/-- C10: `pop` on a non-empty `PriorityQueue` removes one occurrence of the
top key from the stored multiset and shrinks the count; `pop` on a non-empty
`PriorityIndexQueue` removes the top index (its `qp` entry becomes `-1`, its
key entry `None`) while every other index keeps its key. In the embedding
their `pop` returns only the successor state — the Python methods return
`None` — so the extremal key/index is observable only via `top()`/`top_ix()`
before the pop; `Stack.pop` and `Queue.pop` by contrast return the removed
item (their `top()`) alongside the shrunken container. -/
theorem c10_pop_discards_top_silently {α : Type} (q : PriorityQueue α)
    (qi : PriorityIndexQueue α) (s : Stack α) (t : Queue α) (hq : 1 ≤ q.count)
    (hqi : 1 ≤ qi.count) (hs : s.is_empty = false) (ht : t.is_empty = false) :
    PriorityQueue.contents q = q.top ::ₘ PriorityQueue.contents q.pop ∧
    q.pop.count = q.count - 1 ∧
    qi.pop.count = qi.count - 1 ∧
    qi.pop.contains qi.top_ix = false ∧
    qi.pop.key_of qi.top_ix = none ∧
    PriorityIndexQueue.agreesExcept qi qi.pop qi.top_ix ∧
    s.pop = (s.top, { n_items := s.n_items - 1, items := s.items.dropLast }) ∧
    t.pop = (t.top, { n_items := t.n_items - 1, items := t.items.tail }) := by
  set q1 : PriorityQueue α := { q.swap 1 q.count with count := q.count - 1 } with hq1
  have e0 : PriorityQueue.contents (q.swap 1 q.count) = PriorityQueue.contents q :=
    PriorityQueue.swap_contents q (by omega) hq hq (Nat.le_refl _)
  have e1 : PriorityQueue.contents (q.swap 1 q.count)
      = (q.swap 1 q.count).pq q.count ::ₘ PriorityQueue.contents q1 :=
    PriorityQueue.contents_shrink (q.swap 1 q.count) hq
  have e2 : (q.swap 1 q.count).pq q.count = q.top := by
    rw [PriorityQueue.swap_pq, if_pos rfl]
    rfl
  have e3 : PriorityQueue.contents (q1.sink 1) = PriorityQueue.contents q1 :=
    PriorityQueue.sinkF_contents q1 1 (q1.count + 1) (Nat.le_refl 1)
  have hc2 : (q1.sink 1).count = q.count - 1 := PriorityQueue.sinkF_count q1 1 (q1.count + 1)
  have e4 : PriorityQueue.contents q.pop = PriorityQueue.contents q1 := by
    show PriorityQueue.contents (if 0 < (q1.sink 1).count ∧
        (q1.sink 1).count = ((q1.sink 1).capacity - 1) / 4
        then (q1.sink 1).resize ((q1.sink 1).capacity / 2) else (q1.sink 1)) = _
    by_cases hsh : 0 < (q1.sink 1).count ∧ (q1.sink 1).count = ((q1.sink 1).capacity - 1) / 4
    · rw [if_pos hsh, PriorityQueue.resize_contents, e3]
    · rw [if_neg hsh, e3]
  set qi1 : PriorityIndexQueue α := { qi.swap 1 qi.count with count := qi.count - 1 } with hqi1
  set qi2 : PriorityIndexQueue α := qi1.sink 1 with hqi2
  set resi : PriorityIndexQueue α :=
    ⟨qi2.compare, qi2.capacity, qi2.count, Function.update qi2.keys (qi.pq 1) none,
     Function.update qi2.pq (qi2.count + 1) 0, Function.update qi2.qp (qi.pq 1) (-1)⟩
    with hresi
  have hpopi : qi.pop = resi := rfl
  have hkeys2 : qi2.keys = qi.keys := PriorityIndexQueue.sinkF_keys qi1 1 (qi1.count + 1)
  have hcnti : qi2.count = qi.count - 1 := PriorityIndexQueue.sinkF_count_ix qi1 1 (qi1.count + 1)
  refine ⟨?_, ?_, ?_, ?_, ?_, ?_, ?_, ?_⟩
  · rw [e4, ← e2, ← e0]
    exact e1
  · show (if 0 < (q1.sink 1).count ∧ (q1.sink 1).count = ((q1.sink 1).capacity - 1) / 4
        then (q1.sink 1).resize ((q1.sink 1).capacity / 2) else (q1.sink 1)).count
        = q.count - 1
    by_cases hsh : 0 < (q1.sink 1).count ∧ (q1.sink 1).count = ((q1.sink 1).capacity - 1) / 4
    · rw [if_pos hsh]
      exact hc2
    · rw [if_neg hsh]
      exact hc2
  · rw [hpopi]
    exact hcnti
  · rw [hpopi]
    show (Function.update qi2.qp (qi.pq 1) (-1) (qi.pq 1) != -1) = false
    rw [Function.update_same]
    rfl
  · rw [hpopi]
    show Function.update qi2.keys (qi.pq 1) none (qi.pq 1) = none
    rw [Function.update_same]
  · intro x hx
    have hx' : x ≠ qi.pq 1 := hx
    rw [hpopi]
    show Function.update qi2.keys (qi.pq 1) none x = qi.keys x
    rw [Function.update_noteq hx', hkeys2]
  · simp [Stack.pop, Stack.top, hs]
  · simp [Queue.pop, Queue.top, ht]

theorem c10_pop_discards_top_silently_witness :
    PriorityQueue.contents (PriorityQueue.runOps (PriorityQueue.init 3 qlt)
        [.push 1, .push 2])
      = (PriorityQueue.runOps (PriorityQueue.init 3 qlt) [.push 1, .push 2]).top ::ₘ
        PriorityQueue.contents (PriorityQueue.runOps (PriorityQueue.init 3 qlt)
          [.push 1, .push 2]).pop ∧
    (PriorityQueue.runOps (PriorityQueue.init 3 qlt) [.push 1, .push 2]).pop.count
      = (PriorityQueue.runOps (PriorityQueue.init 3 qlt) [.push 1, .push 2]).count - 1 ∧
    (PriorityIndexQueue.runOps (PriorityIndexQueue.init 3 qlt)
        [.push 0 5, .push 1 2]).pop.count
      = (PriorityIndexQueue.runOps (PriorityIndexQueue.init 3 qlt)
        [.push 0 5, .push 1 2]).count - 1 ∧
    (PriorityIndexQueue.runOps (PriorityIndexQueue.init 3 qlt)
        [.push 0 5, .push 1 2]).pop.contains
      (PriorityIndexQueue.runOps (PriorityIndexQueue.init 3 qlt)
        [.push 0 5, .push 1 2]).top_ix = false ∧
    (PriorityIndexQueue.runOps (PriorityIndexQueue.init 3 qlt)
        [.push 0 5, .push 1 2]).pop.key_of
      (PriorityIndexQueue.runOps (PriorityIndexQueue.init 3 qlt)
        [.push 0 5, .push 1 2]).top_ix = none ∧
    PriorityIndexQueue.agreesExcept
      (PriorityIndexQueue.runOps (PriorityIndexQueue.init 3 qlt) [.push 0 5, .push 1 2])
      (PriorityIndexQueue.runOps (PriorityIndexQueue.init 3 qlt) [.push 0 5, .push 1 2]).pop
      (PriorityIndexQueue.runOps (PriorityIndexQueue.init 3 qlt) [.push 0 5, .push 1 2]).top_ix ∧
    (⟨2, [1, 2]⟩ : Stack ℚ).pop = ((⟨2, [1, 2]⟩ : Stack ℚ).top, ⟨1, [1]⟩) ∧
    (⟨2, [1, 2]⟩ : Queue ℚ).pop = ((⟨2, [1, 2]⟩ : Queue ℚ).top, ⟨1, [2]⟩) :=
  c10_pop_discards_top_silently
    (PriorityQueue.runOps (PriorityQueue.init 3 qlt) [.push 1, .push 2])
    (PriorityIndexQueue.runOps (PriorityIndexQueue.init 3 qlt) [.push 0 5, .push 1 2])
    (⟨2, [1, 2]⟩ : Stack ℚ) (⟨2, [1, 2]⟩ : Queue ℚ)
    (by decide) (by decide) (by decide) (by decide)

theorem isWalk_extend {g : Graph} {u vv w : Nat} {ws : List Nat}
    (h : Graph.IsWalk g u vv ws) (hw : w ∈ g.adj vv) : Graph.IsWalk g u w (ws ++ [w]) := by
  induction ws generalizing u with
  | nil =>
    have hu : u = vv := h
    subst hu
    exact ⟨hw, rfl⟩
  | cons a ws ih =>
    obtain ⟨ha, hrest⟩ := h
    exact ⟨ha, ih hrest⟩

namespace BreadthFirstPaths

theorem foldl_visit (g : Graph) (v : Nat) (d : ℕ∞) :
    ∀ (l : List Nat) (acc : State), acc.state v = true → acc.dist_to v = d →
    ∃ news : List Nat,
      ((l.foldl (visitStep g v) acc).q.items = acc.q.items ++ news ∧
       (l.foldl (visitStep g v) acc).q.n_items = acc.q.n_items + news.length) ∧
      (∀ x ∈ news, x ∈ l ∧ (l.foldl (visitStep g v) acc).dist_to x = d + 1) ∧
      (∀ x, acc.state x = true → (l.foldl (visitStep g v) acc).state x = true ∧
        (l.foldl (visitStep g v) acc).dist_to x = acc.dist_to x) ∧
      (∀ x, (l.foldl (visitStep g v) acc).state x = true →
        acc.state x = true ∨ (x ∈ news ∧ (l.foldl (visitStep g v) acc).dist_to x = d + 1)) ∧
      (∀ w ∈ l, (l.foldl (visitStep g v) acc).state w = true) ∧
      (∀ x, (l.foldl (visitStep g v) acc).state x = false →
        acc.state x = false ∧ (l.foldl (visitStep g v) acc).dist_to x = acc.dist_to x) ∧
      ((∀ w ∈ l, w < g.n_vertices) →
        (l.foldl (visitStep g v) acc).q.items.length
          + unvisitedCount g (l.foldl (visitStep g v) acc)
          = acc.q.items.length + unvisitedCount g acc) := by
  intro l
  induction l with
  | nil =>
    intro acc hv hd
    refine ⟨[], ⟨(List.append_nil _).symm, rfl⟩, ?_, ?_, ?_, ?_, ?_, ?_⟩
    · intro x hx
      exact absurd hx (List.not_mem_nil x)
    · intro x hx
      exact ⟨hx, rfl⟩
    · intro x hx
      exact Or.inl hx
    · intro x hx
      exact absurd hx (List.not_mem_nil x)
    · intro x hx
      exact ⟨hx, rfl⟩
    · intro _
      rfl
  | cons w l ih =>
    intro acc hv hd
    rw [List.foldl_cons]
    by_cases hw : acc.state w = true
    · have hid : visitStep g v acc w = acc := by
        unfold visitStep
        rw [if_pos hw]
      rw [hid]
      obtain ⟨news, hq, hnews, hold, hclass, hall, hunv, hcnt⟩ := ih acc hv hd
      refine ⟨news, hq, ?_, hold, hclass, ?_, hunv,
        fun hb => hcnt (fun x hx => hb x (List.mem_cons_of_mem w hx))⟩
      · intro x hx
        obtain ⟨h1, h2⟩ := hnews x hx
        exact ⟨List.mem_cons_of_mem w h1, h2⟩
      · intro x hx
        rcases List.mem_cons.mp hx with h | h
        · subst h
          exact (hold x hw).1
        · exact hall x h
    · have hw' : acc.state w = false := by
        simp at hw
        exact hw
      set acc' : State := ⟨Function.update acc.state w true, Function.update acc.edge_to w v,
        Function.update acc.dist_to w (acc.dist_to v + 1), acc.q.push w⟩ with hacc'
      have hstep : visitStep g v acc w = acc' := by
        unfold visitStep
        rw [if_neg (by rw [hw']; exact Bool.false_ne_true)]
      rw [hstep]
      have hvw : v ≠ w := fun he => by rw [he, hw'] at hv; exact Bool.false_ne_true hv
      have hv' : acc'.state v = true := by
        show Function.update acc.state w true v = true
        rw [Function.update_noteq hvw]
        exact hv
      have hd' : acc'.dist_to v = d := by
        show Function.update acc.dist_to w (acc.dist_to v + 1) v = d
        rw [Function.update_noteq hvw]
        exact hd
      obtain ⟨news, ⟨hqi, hqn⟩, hnews, hold, hclass, hall, hunv, hcnt⟩ := ih acc' hv' hd'
      have hwacc' : acc'.state w = true := by
        show Function.update acc.state w true w = true
        rw [Function.update_same]
      have hwd : acc'.dist_to w = d + 1 := by
        show Function.update acc.dist_to w (acc.dist_to v + 1) w = d + 1
        rw [Function.update_same, hd]
      have hwres : (l.foldl (visitStep g v) acc').state w = true ∧
          (l.foldl (visitStep g v) acc').dist_to w = d + 1 := by
        have h := hold w hwacc'
        exact ⟨h.1, by rw [h.2]; exact hwd⟩
      refine ⟨w :: news, ⟨?_, ?_⟩, ?_, ?_, ?_, ?_, ?_, ?_⟩
      · rw [hqi]
        show (acc.q.items ++ [w]) ++ news = acc.q.items ++ (w :: news)
        rw [List.append_assoc]
        rfl
      · rw [hqn]
        show acc.q.n_items + 1 + news.length = acc.q.n_items + (news.length + 1)
        omega
      · intro x hx
        rcases List.mem_cons.mp hx with h | h
        · subst h
          exact ⟨List.mem_cons_self _ _, hwres.2⟩
        · obtain ⟨h1, h2⟩ := hnews x h
          exact ⟨List.mem_cons_of_mem w h1, h2⟩
      · intro x hx
        have hxw : x ≠ w := fun he => by rw [he, hw'] at hx; exact Bool.false_ne_true hx
        have h1 : acc'.state x = true := by
          show Function.update acc.state w true x = true
          rw [Function.update_noteq hxw]
          exact hx
        have h2 := hold x h1
        refine ⟨h2.1, ?_⟩
        rw [h2.2]
        show Function.update acc.dist_to w (acc.dist_to v + 1) x = acc.dist_to x
        rw [Function.update_noteq hxw]
      · intro x hx
        rcases hclass x hx with h | ⟨h1, h2⟩
        · by_cases hxw : x = w
          · subst hxw
            exact Or.inr ⟨List.mem_cons_self _ _, hwres.2⟩
          · left
            have h3 : Function.update acc.state w true x = true := h
            rw [Function.update_noteq hxw] at h3
            exact h3
        · exact Or.inr ⟨List.mem_cons_of_mem w h1, h2⟩
      · intro x hx
        rcases List.mem_cons.mp hx with h | h
        · subst h
          exact hwres.1
        · exact hall x h
      · intro x hx
        obtain ⟨h1, h2⟩ := hunv x hx
        have hxw : x ≠ w := by
          intro he
          rw [he, hwacc'] at h1
          exact Bool.true_eq_false.mp h1
        have h1' : acc.state x = false := by
          have h3 : Function.update acc.state w true x = false := h1
          rw [Function.update_noteq hxw] at h3
          exact h3
        refine ⟨h1', ?_⟩
        rw [h2]
        show Function.update acc.dist_to w (acc.dist_to v + 1) x = acc.dist_to x
        rw [Function.update_noteq hxw]
      · intro hb
        have hwn : w < g.n_vertices := hb w (List.mem_cons_self _ _)
        have h8 := hcnt (fun x hx => hb x (List.mem_cons_of_mem w hx))
        have hlen : acc'.q.items.length = acc.q.items.length + 1 := by
          show (acc.q.items ++ [w]).length = acc.q.items.length + 1
          rw [List.length_append]
          rfl
        have hfil : (Finset.range g.n_vertices).filter (fun x => acc'.state x = false)
            = ((Finset.range g.n_vertices).filter (fun x => acc.state x = false)).erase w := by
          ext x
          simp only [Finset.mem_filter, Finset.mem_erase, Finset.mem_range]
          constructor
          · rintro ⟨hxr, hxs⟩
            have hxs0 : acc'.state x = false := hxs
            have hxw : x ≠ w := by
              intro he
              rw [he, hwacc'] at hxs0
              exact Bool.true_eq_false.mp hxs0
            have hxs' : acc.state x = false := by
              have h3 : Function.update acc.state w true x = false := hxs
              rw [Function.update_noteq hxw] at h3
              exact h3
            exact ⟨hxw, hxr, hxs'⟩
          · rintro ⟨hxw, hxr, hxs⟩
            refine ⟨hxr, ?_⟩
            show Function.update acc.state w true x = false
            rw [Function.update_noteq hxw]
            exact hxs
        have hwmem : w ∈ (Finset.range g.n_vertices).filter (fun x => acc.state x = false) := by
          simp only [Finset.mem_filter, Finset.mem_range]
          exact ⟨hwn, hw'⟩
        have hcard : unvisitedCount g acc' = unvisitedCount g acc - 1 := by
          unfold unvisitedCount
          rw [hfil, Finset.card_erase_of_mem hwmem]
        have hpos : 1 ≤ unvisitedCount g acc := by
          unfold unvisitedCount
          exact Finset.card_pos.mpr ⟨w, hwmem⟩
        rw [h8, hlen, hcard]
        omega

end BreadthFirstPaths

namespace BreadthFirstPaths

theorem loop_inv (g : Graph) (s : Nat) (hwf : Graph.WFg g) :
    ∀ fuel st, Inv g s st → Phi g st ≤ fuel →
      Inv g s (loop g fuel st) ∧ (loop g fuel st).q.items = [] := by
  intro fuel
  induction fuel with
  | zero =>
    intro st hI hPhi
    have h0 : st.q.items.length = 0 := by
      unfold Phi at hPhi
      omega
    exact ⟨hI, List.length_eq_zero.mp h0⟩
  | succ fuel ih =>
    intro st hI hPhi
    by_cases hemp : st.q.is_empty = true
    · have hn0 : st.q.n_items = 0 := by
        simp [Queue.is_empty] at hemp
        exact hemp
      have hnil : st.q.items = [] := by
        have h := hI.1
        rw [hn0] at h
        exact List.length_eq_zero.mp h.symm
      have hloop : loop g (fuel + 1) st = st := by
        simp only [loop]
        rw [if_pos hemp]
      rw [hloop]
      exact ⟨hI, hnil⟩
    · have hemp' : st.q.is_empty = false := by
        simp at hemp
        exact hemp
      obtain ⟨v, tail, hitems⟩ : ∃ v tail, st.q.items = v :: tail := by
        rcases hcase : st.q.items with _ | ⟨v, tail⟩
        · exfalso
          have h1 := hI.1
          rw [hcase] at h1
          unfold Queue.is_empty at hemp'
          rw [h1] at hemp'
          simp at hemp'
        · exact ⟨v, tail, rfl⟩
      have hpop : st.q.pop = (some v, ⟨st.q.n_items - 1, tail⟩) := by
        unfold Queue.pop
        rw [if_neg (by rw [hemp']; exact Bool.false_ne_true), hitems]
        rfl
      set st1 : State := ⟨st.state, st.edge_to, st.dist_to, ⟨st.q.n_items - 1, tail⟩⟩ with hst1
      have hloop : loop g (fuel + 1) st = loop g fuel ((g.adj v).foldl (visitStep g v) st1) := by
        simp only [loop]
        rw [if_neg (by rw [hemp']; exact Bool.false_ne_true), hpop]
      obtain ⟨hQ0, hA, hB, hC, hD, hE, hF, hG, hH1, hH2⟩ := hI
      have hvmem : v ∈ st.q.items := by
        rw [hitems]
        exact List.mem_cons_self _ _
      have hvvis : st.state v = true := (hE v hvmem).1
      have hvlt : v < g.n_vertices := (hE v hvmem).2
      set d : ℕ∞ := st.dist_to v with hdd
      obtain ⟨news, ⟨hqi, hqn⟩, hnews, hold, hclass, hall, hunvp, hcnt⟩ :=
        foldl_visit g v d (g.adj v) st1 hvvis rfl
      set res : State := (g.adj v).foldl (visitStep g v) st1 with hres
      have hresitems : res.q.items = tail ++ news := hqi
      have hnewsvis : ∀ x ∈ news, res.state x = true := fun x hx => hall x (hnews x hx).1
      have htailvis : ∀ x ∈ tail, st.state x = true := fun x hx =>
        (hE x (by rw [hitems]; exact List.mem_cons_of_mem v hx)).1
      have htailfacts : ∀ x ∈ tail, res.state x = true ∧ res.dist_to x = st.dist_to x :=
        fun x hx => hold x (htailvis x hx)
      have htail_ge : ∀ x ∈ tail, d ≤ st.dist_to x := by
        intro x hx
        have hp := hH1
        rw [hitems] at hp
        exact (List.pairwise_cons.mp hp).1 x hx
      have htail_le : ∀ x ∈ tail, st.dist_to x ≤ d + 1 := by
        intro x hx
        exact hH2 v hvmem x (by rw [hitems]; exact List.mem_cons_of_mem v hx)
      have hInvres : Inv g s res := by
        refine ⟨?_, ?_, ?_, ?_, ?_, ?_, ?_, ?_, ?_, ?_⟩
        · have hc1 : st.q.n_items = tail.length + 1 := by
            rw [hQ0, hitems]
            rfl
          rw [hqn, hresitems, List.length_append]
          show st.q.n_items - 1 + news.length = tail.length + news.length
          omega
        · exact (hold s hA).1
        · rw [(hold s hA).2]
          exact hB
        · intro x hx
          rcases hclass x hx with hxo | ⟨hxn, hxd⟩
          · obtain ⟨ws, hws, hlen⟩ := hC x hxo
            exact ⟨ws, hws, by rw [(hold x hxo).2]; exact hlen⟩
          · obtain ⟨ws, hws, hlen⟩ := hC v hvvis
            refine ⟨ws ++ [x], isWalk_extend hws (hnews x hxn).1, ?_⟩
            rw [hxd, List.length_append, List.length_singleton,
              show d = (ws.length : ℕ∞) from hlen]
            push_cast
            ring
        · intro x hx
          obtain ⟨h1, h2⟩ := hunvp x hx
          rw [h2]
          exact hD x h1
        · intro x hx
          rw [hresitems] at hx
          rcases List.mem_append.mp hx with h | h
          · exact ⟨(htailfacts x h).1, (hE x (by rw [hitems]; exact List.mem_cons_of_mem v h)).2⟩
          · exact ⟨hnewsvis x h, hwf.2 v hvlt x (hnews x h).1⟩
        · intro x hx hxq w' hw'
          rw [hresitems] at hxq
          have hxq' : x ∉ tail ∧ x ∉ news := by
            rw [List.mem_append] at hxq
            exact not_or.mp hxq
          rcases hclass x hx with hxo | ⟨hxn, hxd⟩
          · by_cases hxv : x = v
            · subst hxv
              refine ⟨hall w' hw', ?_⟩
              have hdx : res.dist_to x = d := (hold x hxo).2
              rw [hdx]
              rcases hclass w' (hall w' hw') with hw'o | ⟨_, hw'd⟩
              · rw [(hold w' hw'o).2]
                exact hG w' hw'o x hvmem
              · rw [hw'd]
            · have hxq'' : x ∉ st.q.items := by
                rw [hitems]
                intro hmem
                rcases List.mem_cons.mp hmem with h | h
                · exact hxv h
                · exact hxq'.1 h
              have hFx := hF x hxo hxq'' w' hw'
              refine ⟨(hold w' hFx.1).1, ?_⟩
              rw [(hold w' hFx.1).2, (hold x hxo).2]
              exact hFx.2
          · exact absurd hxn hxq'.2
        · intro u hu x hx
          rw [hresitems] at hx
          rcases List.mem_append.mp hx with hxt | hxn
          · have hxres : res.dist_to x = st.dist_to x := (htailfacts x hxt).2
            rcases hclass u hu with huo | ⟨hun, hud⟩
            · rw [(hold u huo).2, hxres]
              exact hG u huo x (by rw [hitems]; exact List.mem_cons_of_mem v hxt)
            · rw [hud, hxres]
              exact add_le_add_right (htail_ge x hxt) 1
          · have hxd : res.dist_to x = d + 1 := (hnews x hxn).2
            rcases hclass u hu with huo | ⟨hun, hud⟩
            · rw [(hold u huo).2, hxd]
              exact le_trans (hG u huo v hvmem) le_self_add
            · rw [hud, hxd]
              exact le_self_add
        · rw [hresitems]
          apply List.pairwise_append.mpr
          refine ⟨?_, ?_, ?_⟩
          · have hp := hH1
            rw [hitems] at hp
            have hp2 := (List.pairwise_cons.mp hp).2
            refine List.Pairwise.imp_of_mem ?_ hp2
            intro a b ha hb hab
            rw [(htailfacts a ha).2, (htailfacts b hb).2]
            exact hab
          · refine List.pairwise_of_forall_mem_list ?_
            intro a ha b hb
            rw [(hnews a ha).2, (hnews b hb).2]
          · intro a ha b hb
            rw [(htailfacts a ha).2, (hnews b hb).2]
            exact htail_le a ha
        · intro a ha b hb
          rw [hresitems] at ha hb
          have hble : res.dist_to b ≤ d + 1 := by
            rcases List.mem_append.mp hb with h | h
            · rw [(htailfacts b h).2]
              exact htail_le b h
            · rw [(hnews b h).2]
          have hage : d ≤ res.dist_to a := by
            rcases List.mem_append.mp ha with h | h
            · rw [(htailfacts a h).2]
              exact htail_ge a h
            · rw [(hnews a h).2]
              exact le_self_add
          exact le_trans hble (add_le_add_right hage 1)
      have hPhires : Phi g res ≤ fuel := by
        have hcount := hcnt (fun w' hw' => hwf.2 v hvlt w' hw')
        have hunvis1 : unvisitedCount g st1 = unvisitedCount g st := rfl
        have hlen1 : st1.q.items.length = tail.length := rfl
        unfold Phi at hPhi ⊢
        rw [hitems, List.length_cons] at hPhi
        rw [hcount, hlen1, hunvis1]
        omega
      rw [hloop]
      exact ih res hInvres hPhires

theorem loop_min (g : Graph) (s : Nat) (st : State) (hI : Inv g s st)
    (hq : st.q.items = []) :
    ∀ (ws : List Nat) (u vv : Nat), st.state u = true → Graph.IsWalk g u vv ws →
      st.dist_to vv ≤ st.dist_to u + (ws.length : ℕ∞) := by
  intro ws
  induction ws with
  | nil =>
    intro u vv hu hwk
    have h : u = vv := hwk
    subst h
    simp
  | cons w ws ih =>
    intro u vv hu hwk
    obtain ⟨hadj, hrest⟩ := hwk
    have hF := hI.2.2.2.2.2.2.1 u hu (by rw [hq]; exact List.not_mem_nil u) w hadj
    have h2 := ih w vv hF.1 hrest
    calc st.dist_to vv ≤ st.dist_to w + (ws.length : ℕ∞) := h2
      _ ≤ (st.dist_to u + 1) + (ws.length : ℕ∞) := add_le_add_right hF.2 _
      _ = st.dist_to u + (((w :: ws).length : ℕ∞)) := by
          rw [List.length_cons]
          push_cast
          ring

end BreadthFirstPaths

/-- C4: for a well-formed graph and a valid source `s`, whenever
`BreadthFirstPaths(graph, s)` marks a vertex `v` visited, `dist_to(v)`
equals the minimum number of edges over all walks (hence over all paths)
from `s` to `v`: the distance is realised by some walk, and no walk is
shorter. The graph type is modelled from the spec (`ds/graph.py` is absent
from `src/`). -/
theorem c4_bfs_dist_is_min_edge_count (g : Graph) (s v : Nat) (hwf : Graph.WFg g)
    (hs : s < g.n_vertices)
    (hv : BreadthFirstPaths.is_visited (BreadthFirstPaths.run g s) v = true) :
    BreadthFirstPaths.distIsMinWalk g s v ((BreadthFirstPaths.run g s).dist_to v) := by
  set st1 : BreadthFirstPaths.State :=
    ⟨Function.update (fun _ => false) s true, fun _ => 0,
     Function.update (fun _ => (⊤ : ℕ∞)) s 0, ⟨1, [s]⟩⟩ with hst1
  have hrun : BreadthFirstPaths.run g s = BreadthFirstPaths.loop g (g.n_vertices + 1) st1 := rfl
  have hInv : BreadthFirstPaths.Inv g s st1 := by
    refine ⟨rfl, ?_, ?_, ?_, ?_, ?_, ?_, ?_, ?_, ?_⟩
    · show Function.update (fun _ => false) s true s = true
      rw [Function.update_same]
    · show Function.update (fun _ => (⊤ : ℕ∞)) s 0 s = 0
      rw [Function.update_same]
    · intro x hx
      by_cases hxs : x = s
      · subst hxs
        refine ⟨[], rfl, ?_⟩
        show Function.update (fun _ => (⊤ : ℕ∞)) x 0 x = (([] : List Nat).length : ℕ∞)
        rw [Function.update_same]
        rfl
      · exfalso
        have h : Function.update (fun _ => false) s true x = true := hx
        rw [Function.update_noteq hxs] at h
        exact Bool.false_ne_true h
    · intro x hx
      have hxs : x ≠ s := by
        intro he
        have h2 : st1.state s = true := by
          show Function.update (fun _ => false) s true s = true
          rw [Function.update_same]
        rw [he, h2] at hx
        exact Bool.true_eq_false.mp hx
      show Function.update (fun _ => (⊤ : ℕ∞)) s 0 x = ⊤
      rw [Function.update_noteq hxs]
    · intro x hx
      have hxs : x = s := List.mem_singleton.mp hx
      subst hxs
      refine ⟨?_, hs⟩
      show Function.update (fun _ => false) x true x = true
      rw [Function.update_same]
    · intro x hx hxq w hw
      exfalso
      by_cases hxs : x = s
      · subst hxs
        exact hxq (List.mem_singleton.mpr rfl)
      · have h : Function.update (fun _ => false) s true x = true := hx
        rw [Function.update_noteq hxs] at h
        exact Bool.false_ne_true h
    · intro u hu x hx
      have hus : u = s := by
        by_contra hne
        have h : Function.update (fun _ => false) s true u = true := hu
        rw [Function.update_noteq hne] at h
        exact Bool.false_ne_true h
      have hxs : x = s := List.mem_singleton.mp hx
      subst hus
      subst hxs
      exact le_self_add
    · exact List.pairwise_singleton _ _
    · intro a ha b hb
      have ha' : a = s := List.mem_singleton.mp ha
      have hb' : b = s := List.mem_singleton.mp hb
      subst ha'
      subst hb'
      exact le_self_add
  have hPhi : BreadthFirstPaths.Phi g st1 ≤ g.n_vertices + 1 := by
    unfold BreadthFirstPaths.Phi BreadthFirstPaths.unvisitedCount
    have hcard : (((Finset.range g.n_vertices).filter (fun x => st1.state x = false))).card
        ≤ g.n_vertices := by
      refine le_trans (Finset.card_filter_le _ _) ?_
      rw [Finset.card_range]
    have hlen : st1.q.items.length = 1 := rfl
    omega
  obtain ⟨hIfin, hqfin⟩ := BreadthFirstPaths.loop_inv g s hwf (g.n_vertices + 1) st1 hInv hPhi
  rw [hrun] at hv ⊢
  constructor
  · exact hIfin.2.2.2.1 v hv
  · intro ws hws
    have h := BreadthFirstPaths.loop_min g s _ hIfin hqfin ws s v hIfin.2.1 hws
    rw [hIfin.2.2.1] at h
    simpa using h

theorem c4_bfs_dist_is_min_edge_count_witness :
    Graph.WFg c4graph ∧ 0 < c4graph.n_vertices ∧
    BreadthFirstPaths.is_visited (BreadthFirstPaths.run c4graph 0) 2 = true ∧
    BreadthFirstPaths.distIsMinWalk c4graph 0 2 ((BreadthFirstPaths.run c4graph 0).dist_to 2) :=
  ⟨⟨by decide, by decide⟩, by decide, by decide,
   c4_bfs_dist_is_min_edge_count c4graph 0 2 ⟨by decide, by decide⟩ (by decide) (by decide)⟩

theorem pairGt_isSWO : IsSWO pairGt := by
  refine ⟨?_, ?_, ?_⟩
  · intro a b h
    exact decide_eq_false (lt_asymm (of_decide_eq_true h))
  · intro a b c h1 h2
    exact decide_eq_true (lt_trans (of_decide_eq_true h2) (of_decide_eq_true h1))
  · intro a b c h1 h2
    refine decide_eq_false ?_
    exact not_lt.mpr (le_trans (not_lt.mp (of_decide_eq_false h1))
      (not_lt.mp (of_decide_eq_false h2)))

theorem pairGt_irrefl (x : Pair) : pairGt x x = false := decide_eq_false (lt_irrefl _)

theorem pairGt_false_iff (x y : Pair) : pairGt x y = false ↔ x.weight ≤ y.weight := by
  unfold pairGt
  rw [decide_eq_false_iff_not]
  exact not_lt

namespace PriorityQueue

theorem comp_of_entries {q : PriorityQueue α} {a b : Nat} {x y : α} (hx : q.pq a = some x)
    (hy : q.pq b = some y) : q.comp a b = q.compare x y := by
  unfold comp
  rw [hx, hy]

theorem comp_one_min {q : PriorityQueue α} (hswo : IsSWO q.compare)
    (hirr : ∀ x, q.compare x x = false) (hocc : occ q) (hord : heapOrd q) :
    ∀ k, 1 ≤ k → k ≤ q.count → q.comp 1 k = false := by
  intro k
  induction k using Nat.strong_induction_on with
  | _ k ih =>
    intro hk1 hkc
    rcases Nat.lt_or_ge k 2 with h2 | h2
    · have hk : k = 1 := by omega
      subst hk
      obtain ⟨x, hx⟩ := Option.isSome_iff_exists.mp (hocc 1 (by omega) hkc)
      rw [comp_of_entries hx hx]
      exact hirr x
    · have hstep : q.comp (k / 2) k = false := hord k h2 hkc
      have hup : q.comp 1 (k / 2) = false := ih (k / 2) (by omega) (by omega) (by omega)
      exact comp_false_negTrans hswo (hocc 1 (by omega) (by omega))
        (hocc (k / 2) (by omega) (by omega)) (hocc k hk1 hkc) hup hstep

theorem mem_contents_iff {q : PriorityQueue α} {o : Option α} :
    o ∈ contents q ↔ ∃ n, n < q.count ∧ q.pq (n + 1) = o := by
  show o ∈ ((List.range q.count).map (fun n => q.pq (n + 1)) : Multiset (Option α)) ↔ _
  rw [Multiset.mem_coe, List.mem_map]
  constructor
  · rintro ⟨n, hn, he⟩
    exact ⟨n, List.mem_range.mp hn, he⟩
  · rintro ⟨n, hn, he⟩
    exact ⟨n, List.mem_range.mpr hn, he⟩

theorem top_min_contents {q : PriorityQueue α} (hswo : IsSWO q.compare)
    (hirr : ∀ x, q.compare x x = false) (hocc : occ q) (hord : heapOrd q)
    {t : α} (htop : q.pq 1 = some t) :
    ∀ x : α, some x ∈ contents q → q.compare t x = false := by
  intro x hx
  obtain ⟨n, hn, hxe⟩ := mem_contents_iff.mp hx
  have hcomp : q.comp 1 (n + 1) = false :=
    comp_one_min hswo hirr hocc hord (n + 1) (by omega) (by omega)
  rw [comp_of_entries htop hxe] at hcomp
  exact hcomp

theorem top_mem_contents (q : PriorityQueue α) (h : 1 ≤ q.count) : q.top ∈ contents q :=
  mem_contents_iff.mpr ⟨0, by omega, rfl⟩

theorem contents_card (q : PriorityQueue α) : Multiset.card (contents q) = q.count := by
  show Multiset.card ((List.range q.count).map (fun n => q.pq (n + 1)) : Multiset (Option α)) = _
  rw [Multiset.coe_card, List.length_map, List.length_range]

theorem swimF_contents (q : PriorityQueue α) (k : Nat) :
    ∀ fuel, 1 ≤ k → k ≤ q.count → contents (q.swimF k fuel) = contents q := by
  intro fuel
  induction fuel generalizing q k with
  | zero => intro _ _; rfl
  | succ n ih =>
    intro hk1 hkc
    simp only [swimF]
    by_cases hg : 1 < k ∧ q.comp (k / 2) k = true
    · rw [if_pos hg]
      rw [ih _ _ (by omega) (show k / 2 ≤ (q.swap (k / 2) k).count by rw [swap_count]; omega)]
      exact swap_contents q (by omega) (by omega) hk1 hkc
    · rw [if_neg hg]

theorem push_count (q : PriorityQueue α) (key : α) : (q.push key).count = q.count + 1 := by
  have main : ∀ q0 : PriorityQueue α, q0.count = q.count →
      ((⟨q0.compare, q0.capacity, q0.count + 1,
        Function.update q0.pq (q0.count + 1) (some key)⟩ : PriorityQueue α).swim
        (q0.count + 1)).count = q.count + 1 := by
    intro q0 h0
    have h := swimF_count (⟨q0.compare, q0.capacity, q0.count + 1,
      Function.update q0.pq (q0.count + 1) (some key)⟩ : PriorityQueue α)
      (q0.count + 1) (q0.count + 1)
    exact h.trans (by show q0.count + 1 = q.count + 1; omega)
  by_cases hcap : q.count = q.capacity - 1
  · simp only [push]
    rw [if_pos hcap]
    exact main (q.resize (2 * q.capacity)) rfl
  · simp only [push]
    rw [if_neg hcap]
    exact main q rfl

theorem push_contents (q : PriorityQueue α) (key : α) :
    contents (q.push key) = some key ::ₘ contents q := by
  have main : ∀ q0 : PriorityQueue α, contents q0 = contents q → q0.count = q.count →
      contents ((⟨q0.compare, q0.capacity, q0.count + 1,
        Function.update q0.pq (q0.count + 1) (some key)⟩ : PriorityQueue α).swim
        (q0.count + 1)) = some key ::ₘ contents q := by
    intro q0 hc0 hn0
    set q1 : PriorityQueue α := ⟨q0.compare, q0.capacity, q0.count + 1,
      Function.update q0.pq (q0.count + 1) (some key)⟩ with hq1
    have h1 : contents q1 = some key ::ₘ contents q0 := by
      show ((List.range (q0.count + 1)).map (fun n => q1.pq (n + 1)) : Multiset (Option α)) = _
      rw [List.range_succ, List.map_append, List.map_singleton, coe_append_singleton]
      congr 1
      · show Function.update q0.pq (q0.count + 1) (some key) (q0.count + 1) = some key
        rw [Function.update_same]
      · show Multiset.map (fun n => q1.pq (n + 1)) (List.range q0.count : Multiset ℕ)
            = contents q0
        refine Multiset.map_congr rfl ?_
        intro n hn
        have hn' : n < q0.count := by simpa using hn
        show Function.update q0.pq (q0.count + 1) (some key) (n + 1) = q0.pq (n + 1)
        rw [Function.update_noteq (by omega)]
    have h2 : contents (q1.swim (q0.count + 1)) = contents q1 :=
      swimF_contents q1 (q0.count + 1) (q0.count + 1) (by omega) (Nat.le_refl _)
    rw [h2, h1, hc0]
  by_cases hcap : q.count = q.capacity - 1
  · simp only [push]
    rw [if_pos hcap]
    exact main (q.resize (2 * q.capacity)) (resize_contents q _) rfl
  · simp only [push]
    rw [if_neg hcap]
    exact main q rfl rfl

theorem pop_contents (q : PriorityQueue α) (h : 1 ≤ q.count) :
    contents q = q.top ::ₘ contents q.pop := by
  set q1 : PriorityQueue α := { q.swap 1 q.count with count := q.count - 1 } with hq1
  have e0 : contents (q.swap 1 q.count) = contents q :=
    swap_contents q (by omega) h h (Nat.le_refl _)
  have e1 : contents (q.swap 1 q.count)
      = (q.swap 1 q.count).pq q.count ::ₘ contents q1 :=
    contents_shrink (q.swap 1 q.count) h
  have e2 : (q.swap 1 q.count).pq q.count = q.top := by
    rw [swap_pq, if_pos rfl]
    rfl
  have e3 : contents (q1.sink 1) = contents q1 :=
    sinkF_contents q1 1 (q1.count + 1) (Nat.le_refl 1)
  have e4 : contents q.pop = contents q1 := by
    show contents (if 0 < (q1.sink 1).count ∧
        (q1.sink 1).count = ((q1.sink 1).capacity - 1) / 4
        then (q1.sink 1).resize ((q1.sink 1).capacity / 2) else (q1.sink 1)) = _
    by_cases hsh : 0 < (q1.sink 1).count ∧ (q1.sink 1).count = ((q1.sink 1).capacity - 1) / 4
    · rw [if_pos hsh, resize_contents, e3]
    · rw [if_neg hsh, e3]
  rw [e4, ← e2, ← e0]
  exact e1

end PriorityQueue

namespace EdgeWeightedDiGraph

theorem isWalkD_extend {g : EdgeWeightedDiGraph} {u vv : Nat} {e : DiEdge} {ws : List DiEdge}
    (h : g.IsWalk u vv ws) (he : e ∈ g.adj vv) : g.IsWalk u e.to_vertex (ws ++ [e]) := by
  induction ws generalizing u with
  | nil =>
    have hu : u = vv := h
    subst hu
    exact ⟨he, rfl⟩
  | cons a ws ih =>
    obtain ⟨ha, hrest⟩ := h
    exact ⟨ha, ih hrest⟩

theorem walkWeight_append (ws : List DiEdge) (e : DiEdge) :
    walkWeight (ws ++ [e]) = walkWeight ws + e.weight := by
  unfold walkWeight
  rw [List.map_append, List.sum_append, List.map_singleton, List.sum_singleton]

theorem walkWeight_cons (e : DiEdge) (ws : List DiEdge) :
    walkWeight (e :: ws) = e.weight + walkWeight ws := by
  unfold walkWeight
  rw [List.map_cons, List.sum_cons]

theorem mem_edges_of_mem_adj {g : EdgeWeightedDiGraph} {v : Nat} {e : DiEdge}
    (hv : v < g.n_vertices) (he : e ∈ g.adj v) : e ∈ g.edges := by
  unfold edges
  rw [List.mem_flatten]
  exact ⟨g.adj v, List.mem_map.mpr ⟨v, List.mem_range.mpr hv, rfl⟩, he⟩

theorem walk_nonneg {g : EdgeWeightedDiGraph} (hwf : WFg g)
    (hnn : ∀ e ∈ g.edges, 0 ≤ e.weight) :
    ∀ (ws : List DiEdge) (u x : Nat), u < g.n_vertices → g.IsWalk u x ws →
      0 ≤ walkWeight ws ∧ x < g.n_vertices := by
  intro ws
  induction ws with
  | nil =>
    intro u x hu hwk
    have h : u = x := hwk
    subst h
    exact ⟨le_refl _, hu⟩
  | cons e es ih =>
    intro u x hu hwk
    obtain ⟨he, hrest⟩ := hwk
    have hto : e.to_vertex < g.n_vertices := (hwf.2.1 u hu e he).2
    have hrec := ih e.to_vertex x hto hrest
    refine ⟨?_, hrec.2⟩
    rw [walkWeight_cons]
    have hw : 0 ≤ e.weight := hnn e (mem_edges_of_mem_adj hu he)
    linarith [hrec.1]

theorem sum_getD_length : ∀ (l : List (List DiEdge)),
    ∑ v in Finset.range l.length, (l.getD v []).length = (l.map List.length).sum := by
  intro l
  induction l with
  | nil => simp
  | cons a t ih =>
    rw [List.length_cons, Finset.sum_range_succ']
    simp only [List.getD_cons_succ, List.getD_cons_zero]
    rw [ih, List.map_cons, List.sum_cons]
    omega

theorem sum_adj_len (g : EdgeWeightedDiGraph) (hwf : WFg g) :
    ∑ v in Finset.range g.n_vertices, (g.adj v).length = g.n_edges := by
  have h1 : ∀ v, (g.adj v).length = (g.adjRaw.getD v []).length := by
    intro v
    show ((g.adjRaw.getD v []).reverse).length = _
    rw [List.length_reverse]
  calc ∑ v in Finset.range g.n_vertices, (g.adj v).length
      = ∑ v in Finset.range g.adjRaw.length, (g.adjRaw.getD v []).length := by
        rw [hwf.1]
        exact Finset.sum_congr rfl (fun v _ => h1 v)
    _ = (g.adjRaw.map List.length).sum := sum_getD_length g.adjRaw
    _ = g.n_edges := hwf.2.2

end EdgeWeightedDiGraph

namespace PathDijkstra

theorem not_gt_self_add {d : WithTop ℚ} {w : ℚ} (hw : 0 ≤ w) :
    ¬(d > d + (w : WithTop ℚ)) :=
  not_lt.mpr (le_add_of_nonneg_right (by exact_mod_cast hw))

theorem relax_fold (v : Nat) :
    ∀ (l : List DiEdge) (acc : State), (∀ e ∈ l, 0 ≤ e.weight) →
    IsSWO acc.pq.compare → PriorityQueue.heapOrd acc.pq → PriorityQueue.occ acc.pq →
    ∀ res, res = l.foldl (relaxStep v) acc →
      res.state = acc.state ∧
      (∀ x, res.dist_to x ≤ acc.dist_to x) ∧
      res.dist_to v = acc.dist_to v ∧
      (∀ x, res.dist_to x = acc.dist_to x ∨
        (res.dist_to x < acc.dist_to x ∧ ∃ e ∈ l, e.to_vertex = x ∧
          res.dist_to x = acc.dist_to v + (e.weight : WithTop ℚ) ∧
          some (⟨e, acc.dist_to v + (e.weight : WithTop ℚ)⟩ : Pair)
            ∈ PriorityQueue.contents res.pq)) ∧
      (∃ pushed : List Pair,
        PriorityQueue.contents res.pq
          = PriorityQueue.contents acc.pq
            + ((pushed.map some : List (Option Pair)) : Multiset (Option Pair)) ∧
        (∀ p ∈ pushed, p.edge ∈ l ∧
          p.weight = acc.dist_to v + (p.edge.weight : WithTop ℚ) ∧
          res.dist_to p.edge.to_vertex ≤ p.weight) ∧
        res.pq.count = acc.pq.count + pushed.length ∧ pushed.length ≤ l.length) ∧
      (∀ e ∈ l, res.dist_to e.to_vertex ≤ res.dist_to v + (e.weight : WithTop ℚ)) ∧
      (PriorityQueue.heapOrd res.pq ∧ PriorityQueue.occ res.pq ∧
        res.pq.compare = acc.pq.compare) := by
  intro l
  induction l with
  | nil =>
    intro acc hnn hswo hord hocc res hres
    have hra : res = acc := hres
    clear hres
    subst hra
    refine ⟨rfl, fun x => le_refl _, rfl, fun x => Or.inl rfl, ⟨[], ?_, ?_, rfl, le_refl _⟩,
      ?_, hord, hocc, rfl⟩
    · show PriorityQueue.contents res.pq
        = PriorityQueue.contents res.pq + (([] : List (Option Pair)) : Multiset (Option Pair))
      rw [show (([] : List (Option Pair)) : Multiset (Option Pair)) = 0 from rfl, add_zero]
    · intro p hp
      exact absurd hp (List.not_mem_nil p)
    · intro e he
      exact absurd he (List.not_mem_nil e)
  | cons e l ih =>
    intro acc hnn hswo hord hocc res hres
    rw [List.foldl_cons] at hres
    have hnn' : ∀ e' ∈ l, 0 ≤ e'.weight := fun e' he' => hnn e' (List.mem_cons_of_mem e he')
    have hew : 0 ≤ e.weight := hnn e (List.mem_cons_self _ _)
    by_cases hg : acc.dist_to e.to_vertex > acc.dist_to v + (e.weight : WithTop ℚ)
    · -- improving edge: update and push
      set val : WithTop ℚ := acc.dist_to v + (e.weight : WithTop ℚ) with hval
      set pair : Pair := ⟨e, val⟩ with hpair
      set acc' : State := ⟨acc.pq.push pair, acc.state,
        Function.update acc.dist_to e.to_vertex val,
        Function.update acc.edge_to e.to_vertex (some e)⟩ with hacc'
      have hstep : relaxStep v acc e = acc' := by
        unfold relaxStep
        rw [if_pos hg]
      rw [hstep] at hres
      have hvne : e.to_vertex ≠ v := by
        intro heq
        rw [heq] at hg
        exact not_gt_self_add hew hg
      have hdv : acc'.dist_to v = acc.dist_to v := by
        show Function.update acc.dist_to e.to_vertex val v = acc.dist_to v
        rw [Function.update_noteq (Ne.symm hvne)]
      have hdto : acc'.dist_to e.to_vertex = val := by
        show Function.update acc.dist_to e.to_vertex val e.to_vertex = val
        rw [Function.update_same]
      have hp := PriorityQueue.push_inv hswo hocc hord pair
      have hcont' : PriorityQueue.contents acc'.pq
          = some pair ::ₘ PriorityQueue.contents acc.pq :=
        PriorityQueue.push_contents acc.pq pair
      have hswo' : IsSWO acc'.pq.compare := by
        rw [show acc'.pq.compare = acc.pq.compare from hp.2.2.2]
        exact hswo
      have hstep_le : ∀ x, acc'.dist_to x ≤ acc.dist_to x := by
        intro x
        by_cases hx : x = e.to_vertex
        · subst hx
          rw [hdto]
          exact le_of_lt hg
        · show Function.update acc.dist_to e.to_vertex val x ≤ acc.dist_to x
          rw [Function.update_noteq hx]
      obtain ⟨g1, g2, g3, g4, ⟨pushed, h5a, h5b, h5c, h5d⟩, g6, g7⟩ :=
        ih acc' hnn' hswo' hp.1 hp.2.1 res hres
      have hmempair : some pair ∈ PriorityQueue.contents res.pq := by
        rw [h5a, hcont']
        exact Multiset.mem_add.mpr (Or.inl (Multiset.mem_cons_self _ _))
      refine ⟨g1, ?_, ?_, ?_, ⟨pair :: pushed, ?_, ?_, ?_, ?_⟩, ?_, g7.1, g7.2.1,
        g7.2.2.trans hp.2.2.2⟩
      · intro x
        exact le_trans (g2 x) (hstep_le x)
      · rw [g3]
        exact hdv
      · intro x
        rcases g4 x with h | ⟨hlt, e', he', hto, hv', hmem⟩
        · by_cases hx : x = e.to_vertex
          · subst hx
            right
            rw [h, hdto]
            exact ⟨hg, e, List.mem_cons_self _ _, rfl, rfl, hmempair⟩
          · left
            rw [h]
            show Function.update acc.dist_to e.to_vertex val x = acc.dist_to x
            rw [Function.update_noteq hx]
        · right
          rw [hdv] at hv' hmem
          exact ⟨lt_of_lt_of_le hlt (hstep_le x), e', List.mem_cons_of_mem e he', hto,
            hv', hmem⟩
      · rw [h5a, hcont', List.map_cons]
        rw [show ((some pair :: pushed.map some : List (Option Pair)) : Multiset (Option Pair))
          = some pair ::ₘ ((pushed.map some : List (Option Pair)) : Multiset (Option Pair))
          from rfl]
        rw [Multiset.cons_add, Multiset.add_cons]
      · intro p hp'
        rcases List.mem_cons.mp hp' with h | h
        · subst h
          refine ⟨List.mem_cons_self _ _, rfl, ?_⟩
          rw [show (pair : Pair).edge = e from rfl]
          calc res.dist_to e.to_vertex ≤ acc'.dist_to e.to_vertex := g2 _
            _ = val := hdto
            _ = pair.weight := rfl
        · obtain ⟨h1, h2, h3⟩ := h5b p h
          refine ⟨List.mem_cons_of_mem e h1, ?_, h3⟩
          rw [h2, hdv]
      · rw [h5c, show acc'.pq.count = acc.pq.count + 1 from PriorityQueue.push_count acc.pq pair]
        rw [List.length_cons]
        omega
      · simp only [List.length_cons]
        omega
      · intro e' he'
        rcases List.mem_cons.mp he' with h | h
        · subst h
          calc res.dist_to e'.to_vertex ≤ acc'.dist_to e'.to_vertex := g2 _
            _ = val := hdto
            _ = res.dist_to v + (e'.weight : WithTop ℚ) := by rw [g3, hdv]
        · exact g6 e' h
    · -- non-improving edge: no change
      have hstep : relaxStep v acc e = acc := by
        unfold relaxStep
        rw [if_neg hg]
      rw [hstep] at hres
      obtain ⟨g1, g2, g3, g4, ⟨pushed, h5a, h5b, h5c, h5d⟩, g6, g7⟩ :=
        ih acc hnn' hswo hord hocc res hres
      refine ⟨g1, g2, g3, ?_, ⟨pushed, h5a, ?_, h5c, ?_⟩, ?_, g7⟩
      · intro x
        rcases g4 x with h | ⟨hlt, e', he', hto, hv', hmem⟩
        · exact Or.inl h
        · exact Or.inr ⟨hlt, e', List.mem_cons_of_mem e he', hto, hv', hmem⟩
      · intro p hp'
        obtain ⟨h1, h2, h3⟩ := h5b p hp'
        exact ⟨List.mem_cons_of_mem e h1, h2, h3⟩
      · simp only [List.length_cons]
        omega
      · intro e' he'
        rcases List.mem_cons.mp he' with h | h
        · subst h
          calc res.dist_to e'.to_vertex ≤ acc.dist_to e'.to_vertex := g2 _
            _ ≤ acc.dist_to v + (e'.weight : WithTop ℚ) := not_lt.mp hg
            _ = res.dist_to v + (e'.weight : WithTop ℚ) := by rw [g3]
        · exact g6 e' h

end PathDijkstra

namespace PathDijkstra

open EdgeWeightedDiGraph

theorem relax_establishes (g : EdgeWeightedDiGraph) (src : Nat) (hwf : WFg g)
    (hnn : ∀ e ∈ g.edges, 0 ≤ e.weight)
    (st : State) (w : Nat) (hwlt : w < g.n_vertices)
    (hCP : st.pq.compare = pairGt)
    (hHO : PriorityQueue.heapOrd st.pq) (hOC : PriorityQueue.occ st.pq)
    (hsrcv : st.state src = true ∨ src = w)
    (hS2 : st.dist_to src = 0)
    (hN : ∀ x, 0 ≤ st.dist_to x)
    (hFv : ∀ x, st.state x = true → st.dist_to x < ⊤)
    (hA : ∀ x, st.dist_to x < ⊤ →
      ∃ ws, g.IsWalk src x ws ∧ st.dist_to x = (walkWeight ws : WithTop ℚ))
    (hQ1 : ∀ p : Pair, some p ∈ PriorityQueue.contents st.pq →
      st.dist_to p.edge.to_vertex ≤ p.weight ∧ p.weight < ⊤ ∧
        p.edge.to_vertex < g.n_vertices)
    (hQ2 : ∀ x, st.state x = true → ∀ e ∈ g.adj x,
      st.dist_to e.to_vertex ≤ st.dist_to x + (e.weight : WithTop ℚ))
    (hQ3 : ∀ x, x ≠ w → st.state x = false → st.dist_to x < ⊤ →
      ∃ p : Pair, some p ∈ PriorityQueue.contents st.pq ∧ p.edge.to_vertex = x ∧
        p.weight = st.dist_to x)
    (hVM : ∀ x, st.state x = true → ∀ ws, g.IsWalk src x ws →
      st.dist_to x ≤ (walkWeight ws : WithTop ℚ))
    (hstw : st.state w = false)
    (hdw : st.dist_to w < ⊤)
    (hminw : ∀ ws, g.IsWalk src w ws → st.dist_to w ≤ (walkWeight ws : WithTop ℚ)) :
    Inv g src (relax g st w) ∧
    (relax g st w).pq.count ≤ st.pq.count + (g.adj w).length ∧
    (relax g st w).state = Function.update st.state w true ∧
    (relax g st w).dist_to w = st.dist_to w := by
  set st1 : State := ⟨st.pq, Function.update st.state w true, st.dist_to, st.edge_to⟩
    with hst1d
  have hnnadj : ∀ e ∈ g.adj w, 0 ≤ e.weight :=
    fun e he => hnn e (mem_edges_of_mem_adj hwlt he)
  have hswo1 : IsSWO st1.pq.compare := by
    show IsSWO st.pq.compare
    rw [hCP]
    exact pairGt_isSWO
  obtain ⟨g1, g2, g3, g4, ⟨pushed, h5a, h5b, h5c, h5d⟩, g6, g7a, g7b, g7c⟩ :=
    relax_fold w (g.adj w) st1 hnnadj hswo1 hHO hOC (relax g st w) rfl
  have hg2 : ∀ x, (relax g st w).dist_to x ≤ st.dist_to x := g2
  have hg3 : (relax g st w).dist_to w = st.dist_to w := g3
  have hnochange : ∀ x, st1.state x = true → (relax g st w).dist_to x = st.dist_to x := by
    intro x hx
    rcases g4 x with h | ⟨hlt, e, he, hto, hv', hmem⟩
    · exact h
    · exfalso
      obtain ⟨wsw, hwsw, hlenw⟩ := hA w hdw
      have hwalk := isWalkD_extend hwsw he
      rw [hto] at hwalk
      have hweq : (walkWeight (wsw ++ [e]) : WithTop ℚ)
          = st.dist_to w + (e.weight : WithTop ℚ) := by
        rw [walkWeight_append]
        push_cast
        rw [← hlenw]
      have hv'' : (relax g st w).dist_to x = st.dist_to w + (e.weight : WithTop ℚ) := hv'
      by_cases hxw : x = w
      · subst hxw
        rw [hg3] at hlt
        exact lt_irrefl _ hlt
      · have hxs : st.state x = true := by
          have h2 : Function.update st.state w true x = true := hx
          rw [Function.update_noteq hxw] at h2
          exact h2
        have hle := hVM x hxs (wsw ++ [e]) hwalk
        rw [hweq, ← hv''] at hle
        have hlt' : (relax g st w).dist_to x < st.dist_to x := hlt
        exact lt_irrefl _ (lt_of_le_of_lt hle hlt')
  have hst1state : ∀ x, st1.state x = Function.update st.state w true x := fun _ => rfl
  have hstate_res : ∀ x, (relax g st w).state x = Function.update st.state w true x := by
    intro x
    rw [show (relax g st w).state = st1.state from g1]
  have hwvis : (relax g st w).state w = true := by
    rw [hstate_res, Function.update_same]
  refine ⟨⟨?_, g7a, g7b, ?_, ?_, ?_, ?_, ?_, ?_, ?_, ?_, ?_⟩, ?_, ?_, hg3⟩
  · exact g7c.trans hCP
  · -- source visited
    rw [hstate_res]
    by_cases hsw : src = w
    · rw [hsw, Function.update_same]
    · rw [Function.update_noteq hsw]
      rcases hsrcv with h | h
      · exact h
      · exact absurd h hsw
  · -- dist src = 0
    by_cases hsw : src = w
    · rw [hsw, hg3, ← hsw]
      exact hS2
    · have hsv : st1.state src = true := by
        rw [hst1state, Function.update_noteq hsw]
        rcases hsrcv with h | h
        · exact h
        · exact absurd h hsw
      rw [hnochange src hsv]
      exact hS2
  · -- nonnegativity
    intro x
    rcases g4 x with h | ⟨_, e, _, _, hv', _⟩
    · rw [show (relax g st w).dist_to x = st.dist_to x from h]
      exact hN x
    · have hv'' : (relax g st w).dist_to x = st.dist_to w + (e.weight : WithTop ℚ) := hv'
      rw [hv'']
      exact add_nonneg (hN w) (by exact_mod_cast hnnadj e (by assumption))
  · -- visited distances finite
    intro x hx
    have hx1 : st1.state x = true := by
      rw [show st1.state = (relax g st w).state from g1.symm]
      exact hx
    rw [hnochange x hx1]
    by_cases hxw : x = w
    · subst hxw
      exact hdw
    · refine hFv x ?_
      have h2 : Function.update st.state w true x = true := hx1
      rw [Function.update_noteq hxw] at h2
      exact h2
  · -- realizability
    intro x hx
    rcases g4 x with h | ⟨_, e, he, hto, hv', _⟩
    · have hxe : (relax g st w).dist_to x = st.dist_to x := h
      rw [hxe] at hx ⊢
      exact hA x hx
    · have hv'' : (relax g st w).dist_to x = st.dist_to w + (e.weight : WithTop ℚ) := hv'
      obtain ⟨wsw, hwsw, hlenw⟩ := hA w hdw
      have hwalk := isWalkD_extend hwsw he
      rw [hto] at hwalk
      refine ⟨wsw ++ [e], hwalk, ?_⟩
      rw [hv'', walkWeight_append]
      push_cast
      rw [← hlenw]
  · -- queue entries bound
    intro p hp
    rw [h5a] at hp
    rcases Multiset.mem_add.mp hp with h | h
    · have hmem : some p ∈ PriorityQueue.contents st.pq := h
      obtain ⟨hb1, hb2, hb3⟩ := hQ1 p hmem
      exact ⟨le_trans (hg2 _) hb1, hb2, hb3⟩
    · have hmem : some p ∈ (pushed.map some : List (Option Pair)) := by
        rw [← Multiset.mem_coe]
        exact h
      obtain ⟨p', hp', hpe⟩ := List.mem_map.mp hmem
      have hpp : p' = p := Option.some_injective _ hpe
      subst hpp
      obtain ⟨hb1, hb2, hb3⟩ := h5b p' hp'
      have hb2' : p'.weight = st.dist_to w + (p'.edge.weight : WithTop ℚ) := hb2
      refine ⟨hb3, ?_, (hwf.2.1 w hwlt p'.edge hb1).2⟩
      rw [hb2']
      exact WithTop.add_lt_top.mpr ⟨hdw, WithTop.coe_lt_top _⟩
  · -- relaxed closure
    intro x hx e he
    by_cases hxw : x = w
    · subst hxw
      exact g6 e he
    · have hx1 : st1.state x = true := by
        rw [show st1.state = (relax g st w).state from g1.symm]
        exact hx
      have hxs : st.state x = true := by
        have h2 : Function.update st.state w true x = true := hx1
        rw [Function.update_noteq hxw] at h2
        exact h2
      rw [hnochange x hx1]
      exact le_trans (hg2 _) (hQ2 x hxs e he)
  · -- unvisited finite distances are queued
    intro x hx hdx
    have hx1 : st1.state x = false := by
      rw [show st1.state = (relax g st w).state from g1.symm]
      exact hx
    have hxw : x ≠ w := by
      intro he
      rw [he] at hx1
      have h2 : Function.update st.state w true w = true := Function.update_same _ _ _
      rw [show st1.state w = Function.update st.state w true w from rfl, h2] at hx1
      exact Bool.true_eq_false.mp hx1
    have hxs : st.state x = false := by
      have h2 : Function.update st.state w true x = false := hx1
      rw [Function.update_noteq hxw] at h2
      exact h2
    rcases g4 x with h | ⟨_, e, _, hto, hv', hmem⟩
    · have hxe : (relax g st w).dist_to x = st.dist_to x := h
      rw [hxe] at hdx ⊢
      obtain ⟨p, hp1, hp2, hp3⟩ := hQ3 x hxw hxs hdx
      refine ⟨p, ?_, hp2, hp3⟩
      rw [h5a]
      exact Multiset.mem_add.mpr (Or.inl hp1)
    · have hv'' : (relax g st w).dist_to x = st.dist_to w + (e.weight : WithTop ℚ) := hv'
      refine ⟨⟨e, st.dist_to w + (e.weight : WithTop ℚ)⟩, ?_, hto, hv''.symm⟩
      exact hmem
  · -- visited minimality
    intro x hx ws hws
    have hx1 : st1.state x = true := by
      rw [show st1.state = (relax g st w).state from g1.symm]
      exact hx
    rw [hnochange x hx1]
    by_cases hxw : x = w
    · subst hxw
      exact hminw ws hws
    · refine hVM x ?_ ws hws
      have h2 : Function.update st.state w true x = true := hx1
      rw [Function.update_noteq hxw] at h2
      exact h2
  · -- count bound
    have h5c' : (relax g st w).pq.count = st.pq.count + pushed.length := h5c
    omega
  · -- state shape
    funext x
    exact hstate_res x

end PathDijkstra

namespace PathDijkstra

open EdgeWeightedDiGraph

theorem reach_bound (g : EdgeWeightedDiGraph) (hwf : WFg g)
    (hnn : ∀ e ∈ g.edges, 0 ≤ e.weight) (st : State)
    (hQ2 : ∀ x, st.state x = true → ∀ e ∈ g.adj x,
      st.dist_to e.to_vertex ≤ st.dist_to x + (e.weight : WithTop ℚ)) :
    ∀ (ws : List DiEdge) (u x : Nat), u < g.n_vertices → st.state u = true →
      g.IsWalk u x ws →
      (st.state x = true ∧
        st.dist_to x ≤ st.dist_to u + (walkWeight ws : WithTop ℚ)) ∨
      (∃ b, st.state b = false ∧
        st.dist_to b ≤ st.dist_to u + (walkWeight ws : WithTop ℚ)) := by
  intro ws
  induction ws with
  | nil =>
    intro u x hult hu hwk
    have h : u = x := hwk
    subst h
    left
    refine ⟨hu, ?_⟩
    rw [show (walkWeight ([] : List DiEdge) : WithTop ℚ) = 0 by
      unfold walkWeight
      simp]
    rw [add_zero]
  | cons e es ih =>
    intro u x hult hu hwk
    obtain ⟨he, hrest⟩ := hwk
    have hQ2u := hQ2 u hu e he
    have hton : e.to_vertex < g.n_vertices := (hwf.2.1 u hult e he).2
    have hsfx : 0 ≤ walkWeight es :=
      (walk_nonneg hwf hnn es e.to_vertex x hton hrest).1
    have hweq : (walkWeight (e :: es) : WithTop ℚ)
        = (e.weight : WithTop ℚ) + (walkWeight es : WithTop ℚ) := by
      rw [walkWeight_cons]
      push_cast
      rfl
    by_cases hv : st.state e.to_vertex = true
    · rcases ih e.to_vertex x hton hv hrest with ⟨hx, hb⟩ | ⟨b, hb1, hb2⟩
      · left
        refine ⟨hx, ?_⟩
        calc st.dist_to x ≤ st.dist_to e.to_vertex + (walkWeight es : WithTop ℚ) := hb
          _ ≤ (st.dist_to u + (e.weight : WithTop ℚ)) + (walkWeight es : WithTop ℚ) :=
              add_le_add_right hQ2u _
          _ = st.dist_to u + (walkWeight (e :: es) : WithTop ℚ) := by
              rw [hweq, add_assoc]
      · right
        refine ⟨b, hb1, ?_⟩
        calc st.dist_to b ≤ st.dist_to e.to_vertex + (walkWeight es : WithTop ℚ) := hb2
          _ ≤ (st.dist_to u + (e.weight : WithTop ℚ)) + (walkWeight es : WithTop ℚ) :=
              add_le_add_right hQ2u _
          _ = st.dist_to u + (walkWeight (e :: es) : WithTop ℚ) := by
              rw [hweq, add_assoc]
    · right
      have hv' : st.state e.to_vertex = false := by
        simp at hv
        exact hv
      refine ⟨e.to_vertex, hv', ?_⟩
      calc st.dist_to e.to_vertex ≤ st.dist_to u + (e.weight : WithTop ℚ) := hQ2u
        _ ≤ st.dist_to u + (walkWeight (e :: es) : WithTop ℚ) := by
            rw [hweq]
            refine add_le_add_left ?_ _
            refine le_add_of_nonneg_right ?_
            exact_mod_cast hsfx

end PathDijkstra

namespace PathDijkstra

open EdgeWeightedDiGraph

theorem dijkstra_loop (g : EdgeWeightedDiGraph) (src : Nat) (hwf : WFg g)
    (hnn : ∀ e ∈ g.edges, 0 ≤ e.weight) (hsrc : src < g.n_vertices) :
    ∀ fuel st, Inv g src st → PhiD g st ≤ fuel →
      Inv g src (loop g fuel st) ∧ (loop g fuel st).pq.count = 0 := by
  intro fuel
  induction fuel with
  | zero =>
    intro st hI hPhi
    have hc : st.pq.count = 0 := by
      unfold PhiD at hPhi
      omega
    exact ⟨hI, hc⟩
  | succ fuel ih =>
    intro st hI hPhi
    obtain ⟨hCP, hHO, hOC, hS1, hS2, hN, hFv, hA, hQ1, hQ2, hQ3, hVM⟩ := hI
    by_cases hemp : st.pq.is_empty = true
    · have hc0 : st.pq.count = 0 := by
        simp [PriorityQueue.is_empty] at hemp
        exact hemp
      have hl : loop g (fuel + 1) st = st := by
        simp only [loop]
        rw [if_pos hemp]
      rw [hl]
      exact ⟨⟨hCP, hHO, hOC, hS1, hS2, hN, hFv, hA, hQ1, hQ2, hQ3, hVM⟩, hc0⟩
    · have hemp' : st.pq.is_empty = false := by
        simp at hemp
        exact hemp
      have hcnt1 : 1 ≤ st.pq.count := by
        simp [PriorityQueue.is_empty] at hemp
        omega
      obtain ⟨pair, hpair⟩ := Option.isSome_iff_exists.mp (hOC 1 (by omega) hcnt1)
      have htop : st.pq.top = some pair := hpair
      set w : Nat := pair.edge.to_vertex with hwd
      set st1 : State := ⟨st.pq.pop, st.state, st.dist_to, st.edge_to⟩ with hst1d
      have hl : loop g (fuel + 1) st =
          if st1.state w then loop g fuel st1
          else loop g fuel (relax g st1 w) := by
        simp only [loop]
        rw [if_neg (by rw [hemp']; exact Bool.false_ne_true), htop]
      have hswo : IsSWO st.pq.compare := by
        rw [hCP]
        exact pairGt_isSWO
      have hpopinv := PriorityQueue.pop_inv hswo hOC hHO
      have hcontp : PriorityQueue.contents st.pq
          = some pair ::ₘ PriorityQueue.contents st.pq.pop := by
        have h := PriorityQueue.pop_contents st.pq hcnt1
        rw [show st.pq.top = some pair from htop] at h
        exact h
      have hsub : ∀ p : Pair, some p ∈ PriorityQueue.contents st.pq.pop →
          some p ∈ PriorityQueue.contents st.pq := by
        intro p hp
        rw [hcontp]
        exact Multiset.mem_cons_of_mem hp
      have hpairmem : some pair ∈ PriorityQueue.contents st.pq := by
        rw [hcontp]
        exact Multiset.mem_cons_self _ _
      have hwlt : w < g.n_vertices := (hQ1 pair hpairmem).2.2
      have hcntpop : st.pq.pop.count = st.pq.count - 1 := hpopinv.2.2.1
      rw [hl]
      by_cases hvis : st1.state w = true
      · rw [if_pos hvis]
        refine ih st1 ⟨?_, hpopinv.1, hpopinv.2.1, hS1, hS2, hN, hFv, hA, ?_, hQ2, ?_,
          hVM⟩ ?_
        · show st.pq.pop.compare = pairGt
          rw [hpopinv.2.2.2, hCP]
        · intro p hp
          exact hQ1 p (hsub p hp)
        · intro x hx hdx
          obtain ⟨p, hp1, hp2, hp3⟩ := hQ3 x hx hdx
          refine ⟨p, ?_, hp2, hp3⟩
          rw [hcontp] at hp1
          rcases Multiset.mem_cons.mp hp1 with h | h
          · exfalso
            have hpp : p = pair := Option.some_injective _ h
            rw [hpp, ← hwd] at hp2
            have hxw : st.state w = true := hvis
            rw [hp2] at hxw
            rw [hxw] at hx
            exact Bool.true_eq_false.mp hx
          · exact h
        · show st1.pq.count
              + ∑ v in ((Finset.range g.n_vertices).filter (fun v => st1.state v = false)),
                (g.adj v).length ≤ fuel
          have hfe : ((Finset.range g.n_vertices).filter (fun v => st1.state v = false))
              = ((Finset.range g.n_vertices).filter (fun v => st.state v = false)) := rfl
          rw [hfe]
          have hc1 : st1.pq.count = st.pq.count - 1 := hcntpop
          unfold PhiD at hPhi
          omega
      · rw [if_neg hvis]
        have hvis' : st1.state w = false := by
          simp at hvis
          exact hvis
        have hstw : st.state w = false := hvis'
        have hdw : st.dist_to w < ⊤ :=
          lt_of_le_of_lt (hQ1 pair hpairmem).1 (hQ1 pair hpairmem).2.1
        have hminw : ∀ ws, g.IsWalk src w ws →
            st.dist_to w ≤ (walkWeight ws : WithTop ℚ) := by
          intro ws hws
          rcases reach_bound g hwf hnn st hQ2 ws src w hsrc hS1 hws with ⟨hx, _⟩ |
            ⟨b, hb1, hb2⟩
          · rw [hstw] at hx
            exact absurd hx Bool.false_ne_true
          · rw [hS2, zero_add] at hb2
            have hdb : st.dist_to b < ⊤ := lt_of_le_of_lt hb2 (WithTop.coe_lt_top _)
            obtain ⟨pb, hpb1, hpb2, hpb3⟩ := hQ3 b hb1 hdb
            have hmin := PriorityQueue.top_min_contents hswo
              (show ∀ x, st.pq.compare x x = false by rw [hCP]; exact pairGt_irrefl)
              hOC hHO hpair pb hpb1
            rw [hCP] at hmin
            have hle1 : pair.weight ≤ pb.weight := (pairGt_false_iff _ _).mp hmin
            calc st.dist_to w ≤ pair.weight := (hQ1 pair hpairmem).1
              _ ≤ pb.weight := hle1
              _ = st.dist_to b := hpb3
              _ ≤ (walkWeight ws : WithTop ℚ) := hb2
        have hest := relax_establishes g src hwf hnn st1 w hwlt
          (show st.pq.pop.compare = pairGt by rw [hpopinv.2.2.2, hCP])
          hpopinv.1 hpopinv.2.1 (Or.inl hS1) hS2 hN hFv hA
          (fun p hp => hQ1 p (hsub p hp)) hQ2
          (fun x hxw hxs hdx => by
            obtain ⟨p, hp1, hp2, hp3⟩ := hQ3 x hxs hdx
            refine ⟨p, ?_, hp2, hp3⟩
            rw [hcontp] at hp1
            rcases Multiset.mem_cons.mp hp1 with h | h
            · exfalso
              have hpp : p = pair := Option.some_injective _ h
              rw [hpp, ← hwd] at hp2
              exact hxw hp2.symm
            · exact h)
          hVM hvis' hdw hminw
        refine ih (relax g st1 w) hest.1 ?_
        have hcb : (relax g st1 w).pq.count ≤ st.pq.count - 1 + (g.adj w).length := by
          have h1 := hest.2.1
          have h2 : st1.pq.count = st.pq.count - 1 := hcntpop
          omega
        have hstate : (relax g st1 w).state = Function.update st.state w true :=
          hest.2.2.1
        have hfil : (Finset.range g.n_vertices).filter
              (fun v => (relax g st1 w).state v = false)
            = ((Finset.range g.n_vertices).filter (fun v => st.state v = false)).erase w := by
          ext x
          simp only [Finset.mem_filter, Finset.mem_erase, Finset.mem_range, hstate]
          constructor
          · rintro ⟨hxr, hxs⟩
            have hxw : x ≠ w := by
              intro he
              rw [he, Function.update_same] at hxs
              exact Bool.true_eq_false.mp hxs
            rw [Function.update_noteq hxw] at hxs
            exact ⟨hxw, hxr, hxs⟩
          · rintro ⟨hxw, hxr, hxs⟩
            rw [Function.update_noteq hxw]
            exact ⟨hxr, hxs⟩
        have hwmem : w ∈ (Finset.range g.n_vertices).filter (fun v => st.state v = false) := by
          simp only [Finset.mem_filter, Finset.mem_range]
          exact ⟨hwlt, hstw⟩
        show PhiD g (relax g st1 w) ≤ fuel
        unfold PhiD at hPhi ⊢
        rw [hfil]
        have hsum : (∑ v in ((Finset.range g.n_vertices).filter
              (fun v => st.state v = false)).erase w, (g.adj v).length)
            + (g.adj w).length
            = ∑ v in (Finset.range g.n_vertices).filter (fun v => st.state v = false),
              (g.adj v).length :=
          Finset.sum_erase_add
            ((Finset.range g.n_vertices).filter (fun v => st.state v = false))
            (fun v => (g.adj v).length) hwmem
        omega

end PathDijkstra

namespace PathDijkstra

open EdgeWeightedDiGraph

theorem run_none_iff (g : EdgeWeightedDiGraph) (src : Nat) :
    run g src = none ↔ hasNegativeEdge g := by
  unfold run hasNegativeEdge
  by_cases hall : g.edges.all (fun e => decide (0 ≤ e.weight)) = true
  · rw [if_pos hall]
    refine iff_of_false (by simp) ?_
    rintro ⟨e, he, hlt⟩
    exact absurd (of_decide_eq_true (List.all_eq_true.mp hall e he)) (not_le.mpr hlt)
  · rw [if_neg hall]
    refine iff_of_true rfl ?_
    rw [List.all_eq_true] at hall
    push_neg at hall
    obtain ⟨e, he, hne⟩ := hall
    refine ⟨e, he, ?_⟩
    exact not_le.mp (fun h => hne (decide_eq_true h))

theorem run_correct_of_wf (g : EdgeWeightedDiGraph) (src : Nat) (hwf : WFg g)
    (hsrc : src < g.n_vertices) : runCorrect g src := by
  unfold runCorrect
  by_cases hall : g.edges.all (fun e => decide (0 ≤ e.weight)) = true
  case neg =>
    unfold run
    rw [if_neg hall]
    exact trivial
  case pos =>
    have hnn : ∀ e ∈ g.edges, 0 ≤ e.weight :=
      fun e he => of_decide_eq_true (List.all_eq_true.mp hall e he)
    set st0 : State := ⟨PriorityQueue.init g.n_vertices pairGt, fun _ => false,
      Function.update (fun _ => (⊤ : WithTop ℚ)) src 0, fun _ => none⟩ with hst0
    have hrun : run g src = some (loop g (g.n_edges + 1) (relax g st0 src)) := by
      unfold run
      rw [if_pos hall]
    rw [hrun]
    show ∀ v, (∃ ws, g.IsWalk src v ws) →
      distRealizesMin g src v ((loop g (g.n_edges + 1) (relax g st0 src)).dist_to v)
    have hHO0 : PriorityQueue.heapOrd st0.pq := by
      intro m hm2 hmc
      have h : m ≤ 0 := hmc
      omega
    have hOC0 : PriorityQueue.occ st0.pq := by
      intro n hn1 hnc
      have h : n ≤ 0 := hnc
      omega
    have hS20 : st0.dist_to src = 0 := by
      show Function.update (fun _ => (⊤ : WithTop ℚ)) src 0 src = 0
      rw [Function.update_same]
    have hN0 : ∀ x, 0 ≤ st0.dist_to x := by
      intro x
      show 0 ≤ Function.update (fun _ => (⊤ : WithTop ℚ)) src 0 x
      by_cases hx : x = src
      · subst hx
        rw [Function.update_same]
      · rw [Function.update_noteq hx]
        exact le_top
    have hFv0 : ∀ x, st0.state x = true → st0.dist_to x < ⊤ :=
      fun x hx => absurd hx Bool.false_ne_true
    have hA0 : ∀ x, st0.dist_to x < ⊤ →
        ∃ ws, g.IsWalk src x ws ∧ st0.dist_to x = (walkWeight ws : WithTop ℚ) := by
      intro x hx
      by_cases hxs : x = src
      · subst hxs
        refine ⟨[], rfl, ?_⟩
        rw [hS20]
        show (0 : WithTop ℚ) = ((walkWeight ([] : List DiEdge) : ℚ) : WithTop ℚ)
        unfold walkWeight
        simp
      · exfalso
        have h : st0.dist_to x = ⊤ := by
          show Function.update (fun _ => (⊤ : WithTop ℚ)) src 0 x = ⊤
          rw [Function.update_noteq hxs]
        rw [h] at hx
        exact lt_irrefl _ hx
    have hQ10 : ∀ p : Pair, some p ∈ PriorityQueue.contents st0.pq →
        st0.dist_to p.edge.to_vertex ≤ p.weight ∧ p.weight < ⊤ ∧
          p.edge.to_vertex < g.n_vertices := by
      intro p hp
      obtain ⟨n, hn, _⟩ := PriorityQueue.mem_contents_iff.mp hp
      exact absurd (show n < 0 from hn) (by omega)
    have hQ20 : ∀ x, st0.state x = true → ∀ e ∈ g.adj x,
        st0.dist_to e.to_vertex ≤ st0.dist_to x + (e.weight : WithTop ℚ) :=
      fun x hx => absurd hx Bool.false_ne_true
    have hQ30 : ∀ x, x ≠ src → st0.state x = false → st0.dist_to x < ⊤ →
        ∃ p : Pair, some p ∈ PriorityQueue.contents st0.pq ∧ p.edge.to_vertex = x ∧
          p.weight = st0.dist_to x := by
      intro x hxs _ hdx
      exfalso
      have h : st0.dist_to x = ⊤ := by
        show Function.update (fun _ => (⊤ : WithTop ℚ)) src 0 x = ⊤
        rw [Function.update_noteq hxs]
      rw [h] at hdx
      exact lt_irrefl _ hdx
    have hVM0 : ∀ x, st0.state x = true → ∀ ws, g.IsWalk src x ws →
        st0.dist_to x ≤ (walkWeight ws : WithTop ℚ) :=
      fun x hx => absurd hx Bool.false_ne_true
    have hdw0 : st0.dist_to src < ⊤ := by
      rw [hS20]
      exact lt_of_le_of_lt (le_refl _) (by exact_mod_cast WithTop.coe_lt_top (0 : ℚ))
    have hminw0 : ∀ ws, g.IsWalk src src ws →
        st0.dist_to src ≤ (walkWeight ws : WithTop ℚ) := by
      intro ws hws
      rw [hS20]
      exact_mod_cast (walk_nonneg hwf hnn ws src src hsrc hws).1
    have hest := relax_establishes g src hwf hnn st0 src hsrc rfl hHO0 hOC0 (Or.inr rfl)
      hS20 hN0 hFv0 hA0 hQ10 hQ20 hQ30 hVM0 rfl hdw0 hminw0
    have hcnt1 : (relax g st0 src).pq.count ≤ (g.adj src).length := by
      have h := hest.2.1
      have h0 : st0.pq.count = 0 := rfl
      omega
    have hstate1 : (relax g st0 src).state = Function.update st0.state src true :=
      hest.2.2.1
    have hfil : (Finset.range g.n_vertices).filter
          (fun v => (relax g st0 src).state v = false)
        = (Finset.range g.n_vertices).erase src := by
      ext x
      simp only [Finset.mem_filter, Finset.mem_erase, Finset.mem_range, hstate1]
      constructor
      · rintro ⟨hxr, hxs⟩
        have hxw : x ≠ src := by
          intro he
          rw [he, Function.update_same] at hxs
          exact Bool.true_eq_false.mp hxs
        exact ⟨hxw, hxr⟩
      · rintro ⟨hxw, hxr⟩
        refine ⟨hxr, ?_⟩
        rw [Function.update_noteq hxw]
    have hsum : (∑ v in (Finset.range g.n_vertices).erase src, (g.adj v).length)
        + (g.adj src).length = g.n_edges := by
      have h' : (∑ v in (Finset.range g.n_vertices).erase src, (g.adj v).length)
          + (g.adj src).length = ∑ v in Finset.range g.n_vertices, (g.adj v).length :=
        Finset.sum_erase_add (Finset.range g.n_vertices)
          (fun v => (g.adj v).length) (Finset.mem_range.mpr hsrc)
      rw [h']
      exact sum_adj_len g hwf
    have hPhi1 : PhiD g (relax g st0 src) ≤ g.n_edges + 1 := by
      unfold PhiD
      rw [hfil]
      omega
    obtain ⟨hIfin, hcfin⟩ := dijkstra_loop g src hwf hnn hsrc (g.n_edges + 1)
      (relax g st0 src) hest.1 hPhi1
    intro v hreach
    obtain ⟨ws0, hws0⟩ := hreach
    obtain ⟨hCPf, hHOf, hOCf, hS1f, hS2f, hNf, hFvf, hAf, hQ1f, hQ2f, hQ3f, hVMf⟩ := hIfin
    have hvvis : (loop g (g.n_edges + 1) (relax g st0 src)).state v = true := by
      rcases reach_bound g hwf hnn (loop g (g.n_edges + 1) (relax g st0 src)) hQ2f ws0
        src v hsrc hS1f hws0 with ⟨hx, _⟩ | ⟨b, hb1, hb2⟩
      · exact hx
      · exfalso
        rw [hS2f, zero_add] at hb2
        have hdb : (loop g (g.n_edges + 1) (relax g st0 src)).dist_to b < ⊤ :=
          lt_of_le_of_lt hb2 (WithTop.coe_lt_top _)
        obtain ⟨p, hp1, _, _⟩ := hQ3f b hb1 hdb
        have hcard : Multiset.card
            (PriorityQueue.contents (loop g (g.n_edges + 1) (relax g st0 src)).pq) = 0 := by
          rw [PriorityQueue.contents_card]
          exact hcfin
        rw [Multiset.card_eq_zero] at hcard
        rw [hcard] at hp1
        exact absurd hp1 (Multiset.not_mem_zero _)
    exact ⟨hAf v (hFvf v hvvis), hVMf v hvvis⟩

end PathDijkstra

/-- **C3.** `PathDijkstra` from a valid source of a well-formed weighted
digraph: when construction succeeds (every edge weight nonnegative, so the
`assert` in `_relax` never fires), `dist_to(v)` of every vertex `v` reachable
from the source equals the minimum total weight over all directed walks from
the source to `v`; and construction aborts on the assertion exactly when the
graph contains a negative-weight edge. -/
theorem c3_dijkstra_dist_is_min_walk_weight (g : EdgeWeightedDiGraph) (src : Nat)
    (hwf : EdgeWeightedDiGraph.WFg g) (hsrc : src < g.n_vertices) :
    PathDijkstra.runCorrect g src ∧
      (PathDijkstra.run g src = none ↔ hasNegativeEdge g) :=
  ⟨PathDijkstra.run_correct_of_wf g src hwf hsrc, PathDijkstra.run_none_iff g src⟩

/-- Witness for **C3** on the concrete digraph `c3graph` with source 0. -/
theorem c3_dijkstra_dist_is_min_walk_weight_witness :
    EdgeWeightedDiGraph.WFg c3graph ∧ 0 < c3graph.n_vertices ∧
      (PathDijkstra.runCorrect c3graph 0 ∧
        (PathDijkstra.run c3graph 0 = none ↔ hasNegativeEdge c3graph)) :=
  ⟨by unfold EdgeWeightedDiGraph.WFg; decide, by decide,
    c3_dijkstra_dist_is_min_walk_weight c3graph 0
      (by unfold EdgeWeightedDiGraph.WFg; decide) (by decide)⟩
